import Mathlib

/-!
# lab0-c queue: a shallow embedding of `queue.c`

The queue of `queue.c` is an intrusive circular doubly-linked list: every
`element_t` embeds a `struct list_head`, and the queue itself is one sentinel
`struct list_head`.  The embedding keeps the pointer structure: a heap maps the
address of a list node to its `next` and `prev` fields, and every function of
`queue.c` becomes a function on heaps that performs the same field reads and
writes in the same order.  Loops carry a fuel argument and return `none` when it
runs out; recursion of `list_merge_sort` is on the same fuel.
-/

namespace Lab0

/-- An address.  `0` is the null pointer. -/
abbrev Ptr := Nat

/-- The bytes of a C string that come before its terminator. -/
abbrev Text := List Nat

/-- The memory the queue code reads and writes.  An `element_t` is identified
with the address of the `struct list_head` it embeds (what `list_entry`
converts between), so `next` and `prev` are the two fields of a list node,
`value` is the `char *value` field of the element around a node, `str` gives
the string stored at an address, and `freed` records the calls of `free`. -/
structure Heap where
  next : Ptr → Ptr
  prev : Ptr → Ptr
  value : Ptr → Ptr
  str : Ptr → Text
  freed : List Ptr

/-- Assignment `p->next = v`. -/
def Heap.setNext (h : Heap) (p v : Ptr) : Heap :=
  { h with next := fun q => if q = p then v else h.next q }

/-- Assignment `p->prev = v`. -/
def Heap.setPrev (h : Heap) (p v : Ptr) : Heap :=
  { h with prev := fun q => if q = p then v else h.prev q }

/-- Assignment `p->value = v` on an element. -/
def Heap.setValue (h : Heap) (p v : Ptr) : Heap :=
  { h with value := fun q => if q = p then v else h.value q }

/-- Storing the string `t` at address `p`. -/
def Heap.setStr (h : Heap) (p : Ptr) (t : Text) : Heap :=
  { h with str := fun q => if q = p then t else h.str q }

/-- Library call `free(p)`: the links are untouched, the call is recorded. -/
def Heap.free (h : Heap) (p : Ptr) : Heap :=
  { h with freed := p :: h.freed }

/-- The text of the element around node `p`: the string at
`list_entry(p, element_t, list)->value`. -/
def text (h : Heap) (p : Ptr) : Text := h.str (h.value p)

/-! ## C library -/

/-- Library `strlen`. -/
def strlen (s : Text) : Nat := s.length

/-- Library `strcmp` on two strings given by their bytes before the terminator
(so that no byte of a string is 0): byte-wise comparison, a string that ends
first being the smaller one.  The C standard fixes only the sign of the result,
and only the sign is used by the queue code. -/
def strcmp : Text → Text → Int
  | [], [] => 0
  | [], _ :: _ => -1
  | _ :: _, [] => 1
  | a :: s, b :: t => if a = b then strcmp s t else (a : Int) - (b : Int)

/-- Library `memset(sp, c, n)` on the caller's buffer, a map from offsets to
bytes: offsets below `n` are written. -/
def memset (buf : Nat → Nat) (c n : Nat) : Nat → Nat :=
  fun i => if i < n then c else buf i

/-- Library `strncpy(sp, src, n)`: exactly `n` bytes are written, the bytes of
`src` first and zero bytes once `src` is exhausted. -/
def strncpy (buf : Nat → Nat) (src : Text) (n : Nat) : Nat → Nat :=
  fun i => if i < n then src.getD i 0 else buf i

/-- Library `snprintf(dst, size, "%s", s)`: the string left at `dst`, at most
`size - 1` bytes of `s`. -/
def snprintf (size : Nat) (s : Text) : Text := s.take (size - 1)

/-- Width of `size_t`. -/
def SIZE_MOD : Nat := 2 ^ 64

/-- An `int` after an arithmetic step.  Overflow of a signed `int` is undefined
behaviour in C; the value taken here is the two's-complement one that compilers
for 32-bit `int` produce.  In every case the outcome is an `int`, a value from
`-2 ^ 31` up to `2 ^ 31 - 1`. -/
def wrap_int (z : Int) : Int := (z + 2 ^ 31) % 2 ^ 32 - 2 ^ 31

/-! ## list.h -/

/-- Modelled from the spec: `list.h` (absent from the sources) supplies the link
primitives of the circular list of section 3; this one makes `head` an empty
list, both references pointing to itself. -/
def INIT_LIST_HEAD (h : Heap) (head : Ptr) : Heap :=
  (h.setNext head head).setPrev head head

/-- Modelled from the spec: `list.h` is absent; `list_add` links `node`
immediately after the sentinel `head` (section 4.2). -/
def list_add (h : Heap) (node head : Ptr) : Heap :=
  let next := h.next head
  let h := h.setPrev next node
  let h := h.setNext node next
  let h := h.setPrev node head
  h.setNext head node

/-- Modelled from the spec: `list.h` is absent; `list_add_tail` links `node`
immediately before the sentinel `head`, at the end of the list (section 4.2). -/
def list_add_tail (h : Heap) (node head : Ptr) : Heap :=
  let prev := h.prev head
  let h := h.setNext prev node
  let h := h.setNext node head
  let h := h.setPrev node prev
  h.setPrev head node

/-- Modelled from the spec: `list.h` is absent; `list_del` unlinks `node` by
joining its two neighbours (section 4.3, "unlinks"). -/
def list_del (h : Heap) (node : Ptr) : Heap :=
  let next := h.next node
  let prev := h.prev node
  let h := h.setPrev next prev
  h.setNext prev next

/-- Modelled from the spec: `list.h` is absent; a list is empty when the
sentinel references itself (section 2). -/
def list_empty (h : Heap) (head : Ptr) : Prop := h.next head = head

instance (h : Heap) (head : Ptr) : Decidable (list_empty h head) := by
  unfold list_empty; infer_instance

/-- Modelled from the spec: `list.h` is absent; a list is singular when it is
not empty and the sentinel's two references name the same node. -/
def list_is_singular (h : Heap) (head : Ptr) : Prop :=
  ¬ list_empty h head ∧ h.prev head = h.next head

instance (h : Heap) (head : Ptr) : Decidable (list_is_singular h head) := by
  unfold list_is_singular; infer_instance

/-- Modelled from the spec: `list.h` is absent; `list_splice_tail` appends all
nodes of `list` at the tail of `head` in one operation (section 4.10, merge). -/
def list_splice_tail (h : Heap) (list head : Ptr) : Heap :=
  let head_last := h.prev head
  let list_first := h.next list
  let list_last := h.prev list
  if list_empty h list then h
  else
    let h := h.setPrev head list_last
    let h := h.setNext list_last head
    let h := h.setPrev list_first head_last
    h.setNext head_last list_first

/-- Modelled from the spec: `list.h` is absent; `list_cut_position` moves the
nodes from the first one up to and including `node` out of `head_from` into
`head_to` (section 4.10, split). -/
def list_cut_position (h : Heap) (head_to head_from node : Ptr) : Heap :=
  let head_from_first := h.next head_from
  if list_empty h head_from then h
  else if head_from = node then INIT_LIST_HEAD h head_to
  else
    let h := h.setNext head_from (h.next node)
    let h := h.setPrev (h.next head_from) head_from
    let h := h.setPrev head_to node
    let h := h.setNext node head_to
    let h := h.setNext head_to head_from_first
    h.setPrev (h.next head_to) head_to

/-- Modelled from the spec: `list.h` is absent; `list_move_tail` unlinks `node`
and links it at the tail of `head` (section 4.10, merge). -/
def list_move_tail (h : Heap) (node head : Ptr) : Heap :=
  list_add_tail (list_del h node) node head

/-! ## queue.c -/

/-- Function `q_new`; `l` is what `malloc` returned (`0` when it failed). -/
def q_new (h : Heap) (l : Ptr) : Heap × Ptr :=
  if l = 0 then (h, 0) else (INIT_LIST_HEAD h l, l)

/-- The loop `list_for_each_entry_safe` that unlinks and frees every element,
shared by `q_free` and the end of `q_delete_dup`. -/
def free_entries (head : Ptr) : Nat → Heap → Ptr → Ptr → Option Heap
  | 0, _, _, _ => none
  | fuel + 1, h, ele, safe =>
    if ele = head then some h
    else
      let h := list_del h ele
      let h := h.free (h.value ele)
      let h := h.free ele
      free_entries head fuel h safe (h.next safe)

/-- Function `q_free`. -/
def q_free (fuel : Nat) (h : Heap) (l : Ptr) : Option Heap :=
  if l = 0 then some h
  else
    (free_entries l fuel h (h.next l) (h.next (h.next l))).map (fun h => h.free l)

/-- Function `q_insert_head`; `ele` and `buf` are what the two calls of `malloc`
returned (`0` for a failed call). -/
def q_insert_head (h : Heap) (head : Ptr) (s : Text) (ele buf : Ptr) : Heap × Bool :=
  if head = 0 then (h, false)
  else if ele = 0 then (h, false)
  else
    let s_size := strlen s + 1
    let h := h.setValue ele buf
    if h.value ele = 0 then (h.free ele, false)
    else
      let h := h.setStr (h.value ele) (snprintf s_size s)
      (list_add h ele head, true)

/-- Function `q_insert_tail`; `ele` and `buf` are what the two calls of `malloc`
returned (`0` for a failed call). -/
def q_insert_tail (h : Heap) (head : Ptr) (s : Text) (ele buf : Ptr) : Heap × Bool :=
  if head = 0 then (h, false)
  else if ele = 0 then (h, false)
  else
    let s_size := strlen s + 1
    let h := h.setValue ele buf
    if h.value ele = 0 then (h.free ele, false)
    else
      let h := h.setStr (h.value ele) (snprintf s_size s)
      (list_add_tail h ele head, true)

/-- Function `q_remove_head`.  The caller's buffer is `buf` (a map from offsets
to bytes) and `sp` its address, `0` when no buffer is supplied; `bufsize` is a
`size_t`.  Returns the heap, the removed element (`0` for `NULL`) and the
buffer.  The map `buf` has no end: a call that writes past the `bufsize` bytes
of the real buffer (`sp` not null and `bufsize = 0`, see `copy_overruns`) has
undefined behaviour in C and need not reach `list_del`; for such a call the
value given here tells only which bytes `memset` and `strncpy` are asked to
write. -/
def q_remove_head (h : Heap) (head sp : Ptr) (bufsize : Nat) (buf : Nat → Nat) :
    Heap × Ptr × (Nat → Nat) :=
  if head = 0 ∨ list_empty h head then (h, 0, buf)
  else
    let ele := h.next head
    if ele = 0 then (h, 0, buf)
    else
      let buf :=
        if sp ≠ 0 then
          let sz :=
            if bufsize > strlen (text h ele) then strlen (text h ele)
            else (bufsize + SIZE_MOD - 1) % SIZE_MOD
          let buf := memset buf 0 ((sz + 1) % SIZE_MOD)
          strncpy buf (text h ele) sz
        else buf
      (list_del h (h.next head), ele, buf)

/-- Function `q_remove_tail`, with the conventions of `q_remove_head`, the
remark on a call with `sp` not null and `bufsize = 0` included. -/
def q_remove_tail (h : Heap) (head sp : Ptr) (bufsize : Nat) (buf : Nat → Nat) :
    Heap × Ptr × (Nat → Nat) :=
  if head = 0 ∨ list_empty h head then (h, 0, buf)
  else
    let ele := h.prev head
    if ele = 0 then (h, 0, buf)
    else
      let buf :=
        if sp ≠ 0 then
          let sz :=
            if bufsize > strlen (text h ele) then strlen (text h ele)
            else (bufsize + SIZE_MOD - 1) % SIZE_MOD
          let buf := memset buf 0 ((sz + 1) % SIZE_MOD)
          strncpy buf (text h ele) sz
        else buf
      (list_del h (h.prev head), ele, buf)

/-- The loop `list_for_each (li, head) len++` of `q_size`; `len` is an `int`. -/
def q_size_loop (h : Heap) (head : Ptr) : Nat → Ptr → Int → Option Int
  | 0, _, _ => none
  | fuel + 1, li, len =>
    if li = head then some len
    else q_size_loop h head fuel (h.next li) (wrap_int (len + 1))

/-- Function `q_size`. -/
def q_size (fuel : Nat) (h : Heap) (head : Ptr) : Option Int :=
  if head = 0 ∨ list_empty h head then some 0
  else q_size_loop h head fuel (h.next head) 0

/-- The slow/fast scan written twice in `queue.c`, in `q_delete_mid` and in
`list_merge_sort`.  The C variable `indir` is the address of a `next` field; it
is represented by the node owning that field, so `*indir` is `h.next indir` and
`indir = &(*indir)->next` moves to `h.next indir`.  Returns the final `indir`. -/
def find_mid (h : Heap) (head : Ptr) : Nat → Ptr → Ptr → Option Ptr
  | 0, _, _ => none
  | fuel + 1, indir, fast =>
    if fast ≠ head ∧ h.next fast ≠ head then
      find_mid h head fuel (h.next indir) (h.next (h.next fast))
    else some indir

/-- Function `q_delete_mid`. -/
def q_delete_mid (fuel : Nat) (h : Heap) (head : Ptr) : Option (Heap × Bool) :=
  if head = 0 ∨ list_empty h head then some (h, false)
  else
    match find_mid h head fuel head (h.next head) with
    | none => none
    | some indir =>
      let del := h.next indir
      let h := h.setNext indir (h.next (h.next indir))
      let h := list_del h del
      let ele := del
      let h := if ele ≠ 0 ∧ h.value ele ≠ 0 then h.free (h.value ele) else h
      let h := if ele ≠ 0 then h.free ele else h
      some (h, true)

/-- The `while (cur != head)` loop of `q_delete_dup`; `tmp` is the address of
the local list that collects the nodes to delete. -/
def delete_dup_loop (head tmp : Ptr) : Nat → Heap → Ptr → Option Heap
  | 0, _, _ => none
  | fuel + 1, h, cur =>
    if cur = head then some h
    else if h.next cur ≠ head ∧ strcmp (text h cur) (text h (h.next cur)) = 0 then
      delete_dup_loop head tmp fuel (list_move_tail h (h.next cur) tmp) cur
    else if ¬ list_empty h tmp ∧ strcmp (text h (h.prev tmp)) (text h cur) = 0 then
      let del := cur
      let cur := h.next cur
      delete_dup_loop head tmp fuel (list_move_tail h del tmp) cur
    else delete_dup_loop head tmp fuel h (h.next cur)

/-- Function `q_delete_dup`; `tmp` is the address of its local `struct
list_head tmp`. -/
def q_delete_dup (fuel : Nat) (h : Heap) (head tmp : Ptr) : Option (Heap × Bool) :=
  if head = 0 then some (h, false)
  else if list_empty h head ∨ list_is_singular h head then some (h, true)
  else
    let cur := h.next head
    let h := INIT_LIST_HEAD h tmp
    match delete_dup_loop head tmp fuel h cur with
    | none => none
    | some h =>
      match free_entries tmp fuel h (h.next tmp) (h.next (h.next tmp)) with
      | none => none
      | some h => some (h, true)

/-- The `while` loop of `q_swap`. -/
def q_swap_loop (head : Ptr) : Nat → Heap → Ptr → Ptr → Option Heap
  | 0, _, _, _ => none
  | fuel + 1, h, prev, cur =>
    if cur ≠ head ∧ h.next cur ≠ head then
      let h := h.setNext prev (h.next cur)
      let h := h.setNext cur (h.next (h.next prev))
      let h := h.setNext (h.next prev) cur
      let h := h.setPrev cur (h.next prev)
      let h := h.setPrev (h.next cur) cur
      let h := h.setPrev (h.next prev) prev
      q_swap_loop head fuel h cur (h.next cur)
    else some h

/-- Function `q_swap`. -/
def q_swap (fuel : Nat) (h : Heap) (head : Ptr) : Option Heap :=
  if head = 0 ∨ list_empty h head then some h
  else q_swap_loop head fuel h head (h.next head)

/-- The `do ... while (li != head)` loop of `q_reverse`, entered at the body. -/
def q_reverse_loop (head : Ptr) : Nat → Heap → Ptr → Option Heap
  | 0, _, _ => none
  | fuel + 1, h, li =>
    let tmp := h.next li
    let h := h.setNext li (h.prev li)
    let h := h.setPrev li tmp
    let li := tmp
    if li ≠ head then q_reverse_loop head fuel h li else some h

/-- Function `q_reverse`. -/
def q_reverse (fuel : Nat) (h : Heap) (head : Ptr) : Option Heap :=
  if head = 0 ∨ list_empty h head then some h
  else q_reverse_loop head fuel h head

/-- The `while` loop of `list_merge`. -/
def list_merge_loop (entry1 entry2 sorted : Ptr) : Nat → Heap → Option Heap
  | 0, _ => none
  | fuel + 1, h =>
    if ¬ list_empty h entry1 ∧ ¬ list_empty h entry2 then
      let node :=
        if strcmp (text h (h.next entry1)) (text h (h.next entry2)) ≤ 0 then h.next entry1
        else h.next entry2
      list_merge_loop entry1 entry2 sorted fuel (list_move_tail h node sorted)
    else some h

/-- Function `list_merge`. -/
def list_merge (fuel : Nat) (h : Heap) (entry1 entry2 sorted : Ptr) : Option Heap :=
  match list_merge_loop entry1 entry2 sorted fuel h with
  | none => none
  | some h => some (list_splice_tail h (if list_empty h entry1 then entry2 else entry1) sorted)

/-- Function `list_merge_sort`.  Its locals `left` and `sorted` live on the
stack at `sp` and `sp + 1`; the stack of the recursive calls starts at
`sp + 2`. -/
def list_merge_sort : Nat → Heap → Ptr → Ptr → Option Heap
  | 0, _, _, _ => none
  | fuel + 1, h, entry, sp =>
    if list_empty h entry ∨ list_is_singular h entry then some h
    else
      let left := sp
      let sorted := sp + 1
      let h := INIT_LIST_HEAD h left
      let h := INIT_LIST_HEAD h sorted
      match find_mid h entry (fuel + 1) entry (h.next entry) with
      | none => none
      | some indir =>
        let h := list_cut_position h left entry (h.prev (h.next indir))
        match list_merge_sort fuel h left (sp + 2) with
        | none => none
        | some h =>
          match list_merge_sort fuel h entry (sp + 2) with
          | none => none
          | some h =>
            match list_merge (fuel + 1) h left entry sorted with
            | none => none
            | some h =>
              let h := INIT_LIST_HEAD h entry
              some (list_splice_tail h sorted entry)

/-- Function `q_sort`; `sp` is where the stack of `list_merge_sort` starts. -/
def q_sort (fuel : Nat) (h : Heap) (head sp : Ptr) : Option Heap :=
  if head = 0 ∨ list_empty h head ∨ list_is_singular h head then some h
  else list_merge_sort fuel h head sp

/-! ## Well-formed queues -/

/-- Along the path `l` every node's `next` is the node after it and every
node's `prev` is the node before it. -/
def Linked (h : Heap) : List Ptr → Prop
  | p :: q :: l => (h.next p = q ∧ h.prev q = p) ∧ Linked h (q :: l)
  | _ => True

instance Linked.decidable (h : Heap) : ∀ l : List Ptr, Decidable (Linked h l)
  | [] => isTrue trivial
  | [_] => isTrue trivial
  | p :: q :: l =>
    have := Linked.decidable h (q :: l)
    inferInstanceAs (Decidable ((h.next p = q ∧ h.prev q = p) ∧ Linked h (q :: l)))

/-- The sentinel `head` carries exactly the element nodes `xs`, in this order:
following `next` from `head` visits `xs` and comes back to `head`, following
`prev` visits them backwards, the nodes are distinct and none is null. -/
def IsQueue (h : Heap) (head : Ptr) (xs : List Ptr) : Prop :=
  (head :: xs).Nodup ∧ 0 ∉ head :: xs ∧ Linked h (head :: xs ++ [head])

instance (h : Heap) (head : Ptr) (xs : List Ptr) : Decidable (IsQueue h head xs) := by
  unfold IsQueue; infer_instance

/-- Fields `next` and `prev` of node `p` are the same in both heaps. -/
def Unchanged (h h' : Heap) (p : Ptr) : Prop :=
  h'.next p = h.next p ∧ h'.prev p = h.prev p

/-- No element's `value` pointer and no stored string differs between the heaps. -/
def SameData (h h' : Heap) : Prop :=
  h'.value = h.value ∧ h'.str = h.str

/-- The element order `q_swap` produces: consecutive pairs exchanged, an odd
last element kept. -/
def swap_pairs : List Ptr → List Ptr
  | a :: b :: l => b :: a :: swap_pairs l
  | l => l

/-- One pass through the body of the loop of `q_swap`: the six stores. -/
def swap_body (h : Heap) (prev cur : Ptr) : Heap :=
  let h := h.setNext prev (h.next cur)
  let h := h.setNext cur (h.next (h.next prev))
  let h := h.setNext (h.next prev) cur
  let h := h.setPrev cur (h.next prev)
  let h := h.setPrev (h.next cur) cur
  h.setPrev (h.next prev) prev

/-- What `q_remove_head` and `q_remove_tail` leave in the caller's buffer for
an element of text `t`: the statements under `if (sp)`. -/
def copy_out (t : Text) (sp : Ptr) (bufsize : Nat) (buf : Nat → Nat) : Nat → Nat :=
  if sp ≠ 0 then
    let sz :=
      if bufsize > strlen t then strlen t
      else (bufsize + SIZE_MOD - 1) % SIZE_MOD
    let buf := memset buf 0 ((sz + 1) % SIZE_MOD)
    strncpy buf t sz
  else buf

/-- The order of two elements whose texts are given by `t`: the test
`strcmp(..) <= 0` of `list_merge`. -/
def tle (t : Ptr → Text) (a b : Ptr) : Prop := strcmp (t a) (t b) ≤ 0

instance (t : Ptr → Text) (a b : Ptr) : Decidable (tle t a b) := by
  unfold tle; infer_instance

/-- The element order `list_merge` produces from two lists: the front element
of the first list is taken unless the front of the second is strictly smaller. -/
def mergeL (t : Ptr → Text) : List Ptr → List Ptr → List Ptr
  | [], l2 => l2
  | a :: l1, [] => a :: l1
  | a :: l1, b :: l2 =>
    if strcmp (t a) (t b) ≤ 0 then a :: mergeL t l1 (b :: l2)
    else b :: mergeL t (a :: l1) l2

/-- The element order `list_merge_sort` produces: the list is cut before index
`n / 2`, both parts are sorted and merged. -/
def msortL (t : Ptr → Text) (l : List Ptr) : List Ptr :=
  if h : l.length < 2 then l
  else mergeL t (msortL t (l.take (l.length / 2))) (msortL t (l.drop (l.length / 2)))
termination_by l.length
decreasing_by
  · simp only [List.length_take]; omega
  · simp only [List.length_drop]; omega

/-- The test of the second branch of the loop of `q_delete_dup`: the list `tmp`
is not empty and its last node `l` has the text of `c`. -/
def tmp_matches (t : Ptr → Text) : Option Ptr → Ptr → Prop
  | none, _ => False
  | some l, c => strcmp (t l) (t c) = 0

instance (t : Ptr → Text) (last : Option Ptr) (c : Ptr) : Decidable (tmp_matches t last c) := by
  cases last <;> unfold tmp_matches <;> infer_instance

/-- The elements the loop of `q_delete_dup` keeps from the cursor `c` on, `rest`
being the elements after the cursor and `last` the last node of `tmp` (if any):
one case per branch of the loop. -/
def dedup_from (t : Ptr → Text) : Option Ptr → Ptr → List Ptr → List Ptr
  | last, c, [] => if tmp_matches t last c then [] else [c]
  | last, c, n :: rest =>
    if strcmp (t c) (t n) = 0 then dedup_from t (some n) c rest
    else if tmp_matches t last c then dedup_from t (some c) n rest
    else c :: dedup_from t last n rest

/-- The elements `q_delete_dup` keeps. -/
def dedupL (t : Ptr → Text) : List Ptr → List Ptr
  | [] => []
  | c :: rest => dedup_from t none c rest

/-- Number of elements of `ctx` whose text is the text of `p`. -/
def occ (t : Ptr → Text) (ctx : List Ptr) (p : Ptr) : Nat :=
  ctx.countP (fun q => decide (t q = t p))

/-- The structural invariant of the specification, for a queue of `size`
elements: every node `N` on the cycle through the sentinel is a valid (non-null)
node with `N.next.prev = N` and `N.prev.next = N`, and following `next` from the
sentinel comes back to the sentinel after exactly `size + 1` steps, not before. -/
def WellFormed (h : Heap) (head : Ptr) (size : Nat) : Prop :=
  (∀ k, k ≤ size →
    h.next^[k] head ≠ 0 ∧
    h.prev (h.next (h.next^[k] head)) = h.next^[k] head ∧
    h.next (h.prev (h.next^[k] head)) = h.next^[k] head ∧
    (0 < k → h.next^[k] head ≠ head)) ∧
  h.next^[size + 1] head = head

instance (h : Heap) (head : Ptr) (size : Nat) : Decidable (WellFormed h head size) := by
  unfold WellFormed; infer_instance

/-- The nodes met by following `next` from `p`, `p` included: `k` of them. -/
def orbit (h : Heap) : Ptr → Nat → List Ptr
  | _, 0 => []
  | p, k + 1 => p :: orbit h (h.next p) k

/-- The elements of the queue at `head` when it has `size` of them: the nodes
met by following `next` from the sentinel. -/
def q_elems (h : Heap) (head : Ptr) (size : Nat) : List Ptr :=
  orbit h (h.next head) size

/-- A list of texts is in ascending order: every adjacent pair `x`, `y` has
`strcmp x y <= 0`. -/
def SortedTexts : List Text → Prop
  | x :: y :: l => strcmp x y ≤ 0 ∧ SortedTexts (y :: l)
  | _ => True

instance SortedTexts.decidable : ∀ l : List Text, Decidable (SortedTexts l)
  | [] => isTrue trivial
  | [_] => isTrue trivial
  | x :: y :: l =>
    have := SortedTexts.decidable (y :: l)
    inferInstanceAs (Decidable (strcmp x y ≤ 0 ∧ SortedTexts (y :: l)))

/-! ## Concrete heaps -/

/-- A heap holding one queue: the sentinel at address 1 and `n` elements at the
addresses `2 .. n + 1`, in this order; the element at address `p` has its
string `txt p` stored at address `p + 2 ^ 40`. -/
def ring_heap (n : Nat) (txt : Ptr → Text) : Heap where
  next := fun p => if p = n + 1 then 1 else p + 1
  prev := fun p => if p = 1 then n + 1 else p - 1
  value := fun p => p + 2 ^ 40
  str := fun a => txt (a - 2 ^ 40)
  freed := []

/-- Texts "c", "b", "b", "a" for the elements at addresses 2, 3, 4, 5. -/
def texts_cbba : Ptr → Text :=
  fun p => if p = 2 then [99] else if p = 3 then [98] else if p = 4 then [98]
    else if p = 5 then [97] else []

/-- Texts "1", "2", "2", "3" for the elements at addresses 2, 3, 4, 5. -/
def texts_1223 : Ptr → Text :=
  fun p => if p = 2 then [49] else if p = 3 then [50] else if p = 4 then [50]
    else if p = 5 then [51] else []

/-- Texts "a", "b", "c", ... for the elements at addresses 2, 3, 4, ... -/
def texts_abc : Ptr → Text := fun p => [95 + p]

/-! ## Scenarios and loop bodies -/

/-- A run of `q_insert_tail`, one call per item in order; an item gives the text
and the two addresses `malloc` returns to that call.  The flag tells whether
every call returned true. -/
def insert_tails (head : Ptr) : Heap → List (Text × Ptr × Ptr) → Heap × Bool
  | h, [] => (h, true)
  | h, (s, ele, buf) :: rest =>
    let r := q_insert_tail h head s ele buf
    let r2 := insert_tails head r.1 rest
    (r2.1, r.2 && r2.2)

/-- A run of `q_insert_head`, one call per item in order, as `insert_tails`. -/
def insert_heads (head : Ptr) : Heap → List (Text × Ptr × Ptr) → Heap × Bool
  | h, [] => (h, true)
  | h, (s, ele, buf) :: rest =>
    let r := q_insert_head h head s ele buf
    let r2 := insert_heads head r.1 rest
    (r2.1, r.2 && r2.2)

/-- A run of `n` calls of `q_remove_head`, all with the same buffer arguments;
returns the last heap and the elements returned, in the order of the calls. -/
def remove_heads (head sp : Ptr) (bufsize : Nat) (buf : Nat → Nat) :
    Nat → Heap → Heap × List Ptr
  | 0, h => (h, [])
  | n + 1, h =>
    let r := q_remove_head h head sp bufsize buf
    let r2 := remove_heads head sp bufsize buf n r.1
    (r2.1, r.2.1 :: r2.2)

/-- One pass through the body of the `while (cur != head)` loop of
`q_delete_dup`, entered with `cur != head`: the heap and the cursor after it. -/
def delete_dup_body (head tmp : Ptr) (h : Heap) (cur : Ptr) : Heap × Ptr :=
  if h.next cur ≠ head ∧ strcmp (text h cur) (text h (h.next cur)) = 0 then
    (list_move_tail h (h.next cur) tmp, cur)
  else if ¬ list_empty h tmp ∧ strcmp (text h (h.prev tmp)) (text h cur) = 0 then
    (list_move_tail h cur tmp, h.next cur)
  else (h, h.next cur)

/-- The copy-out statements of `q_remove_head` and `q_remove_tail`, for an
element of text `t`, ask `memset` or `strncpy` for more bytes than the `bufsize`
bytes of the caller's buffer; the two lengths are `sz + 1` and `sz` as computed
under `if (sp)`.  Writing past the buffer is undefined behaviour in C: such a
call need not return. -/
def copy_overruns (t : Text) (sp : Ptr) (bufsize : Nat) : Prop :=
  sp ≠ 0 ∧
    (bufsize <
        ((if bufsize > strlen t then strlen t else (bufsize + SIZE_MOD - 1) % SIZE_MOD) + 1) %
          SIZE_MOD ∨
      bufsize < (if bufsize > strlen t then strlen t else (bufsize + SIZE_MOD - 1) % SIZE_MOD))

instance (t : Text) (sp : Ptr) (bufsize : Nat) : Decidable (copy_overruns t sp bufsize) := by
  unfold copy_overruns; infer_instance

/-- A list of texts is strictly increasing: every adjacent pair `x`, `y` has
`strcmp x y < 0`. -/
def StrictTexts : List Text → Prop
  | x :: y :: l => strcmp x y < 0 ∧ StrictTexts (y :: l)
  | _ => True

instance StrictTexts.decidable : ∀ l : List Text, Decidable (StrictTexts l)
  | [] => isTrue trivial
  | [_] => isTrue trivial
  | x :: y :: l =>
    have := StrictTexts.decidable (y :: l)
    inferInstanceAs (Decidable (strcmp x y < 0 ∧ StrictTexts (y :: l)))

/-- Three insertions: the texts "a", "b", "c" with the addresses `malloc`
returns for the element and for its string. -/
def items_abc : List (Text × Ptr × Ptr) :=
  [([97], 2, 102), ([98], 3, 103), ([99], 4, 104)]

@[simp] theorem setNext_next (h : Heap) (p v q : Ptr) :
    (h.setNext p v).next q = if q = p then v else h.next q := rfl
@[simp] theorem setNext_prev (h : Heap) (p v : Ptr) : (h.setNext p v).prev = h.prev := rfl
@[simp] theorem setNext_value (h : Heap) (p v : Ptr) : (h.setNext p v).value = h.value := rfl
@[simp] theorem setNext_str (h : Heap) (p v : Ptr) : (h.setNext p v).str = h.str := rfl
@[simp] theorem setNext_freed (h : Heap) (p v : Ptr) : (h.setNext p v).freed = h.freed := rfl
@[simp] theorem setPrev_prev (h : Heap) (p v q : Ptr) :
    (h.setPrev p v).prev q = if q = p then v else h.prev q := rfl
@[simp] theorem setPrev_next (h : Heap) (p v : Ptr) : (h.setPrev p v).next = h.next := rfl
@[simp] theorem setPrev_value (h : Heap) (p v : Ptr) : (h.setPrev p v).value = h.value := rfl
@[simp] theorem setPrev_str (h : Heap) (p v : Ptr) : (h.setPrev p v).str = h.str := rfl
@[simp] theorem setPrev_freed (h : Heap) (p v : Ptr) : (h.setPrev p v).freed = h.freed := rfl
@[simp] theorem free_next (h : Heap) (p : Ptr) : (h.free p).next = h.next := rfl
@[simp] theorem free_prev (h : Heap) (p : Ptr) : (h.free p).prev = h.prev := rfl
@[simp] theorem free_value (h : Heap) (p : Ptr) : (h.free p).value = h.value := rfl
@[simp] theorem free_str (h : Heap) (p : Ptr) : (h.free p).str = h.str := rfl

theorem unchanged_refl (h : Heap) (p : Ptr) : Unchanged h h p := ⟨rfl, rfl⟩

theorem unchanged_trans {h1 h2 h3 : Heap} {p : Ptr} (a : Unchanged h1 h2 p)
    (b : Unchanged h2 h3 p) : Unchanged h1 h3 p :=
  ⟨b.1.trans a.1, b.2.trans a.2⟩

theorem sameData_refl (h : Heap) : SameData h h := ⟨rfl, rfl⟩

theorem sameData_trans {h1 h2 h3 : Heap} (a : SameData h1 h2) (b : SameData h2 h3) :
    SameData h1 h3 :=
  ⟨b.1.trans a.1, b.2.trans a.2⟩

theorem sameData_text {h h' : Heap} (a : SameData h h') : text h' = text h := by
  funext p; simp [text, a.1, a.2]

@[simp] theorem linked_nil (h : Heap) : Linked h [] := trivial
@[simp] theorem linked_single (h : Heap) (a : Ptr) : Linked h [a] := trivial

@[simp] theorem linked_cons_cons (h : Heap) (a b : Ptr) (l : List Ptr) :
    Linked h (a :: b :: l) ↔ (h.next a = b ∧ h.prev b = a) ∧ Linked h (b :: l) := Iff.rfl

theorem linked_iff_chain (h : Heap) : ∀ l : List Ptr,
    Linked h l ↔ List.Chain' (fun p q => h.next p = q ∧ h.prev q = p) l
  | [] => by simp
  | [_] => by simp
  | a :: b :: l => by
    rw [linked_cons_cons, List.chain'_cons, linked_iff_chain h (b :: l)]

theorem linked_split (h : Heap) (l1 : List Ptr) (a : Ptr) (l2 : List Ptr) :
    Linked h (l1 ++ a :: l2) ↔ Linked h (l1 ++ [a]) ∧ Linked h (a :: l2) := by
  simp only [linked_iff_chain]; exact List.chain'_split

theorem linked_frame {h h' : Heap} : ∀ {l : List Ptr}, Linked h l →
    (∀ p ∈ l.dropLast, h'.next p = h.next p) → (∀ q ∈ l.tail, h'.prev q = h.prev q) →
    Linked h' l
  | [], _, _, _ => linked_nil _
  | [_], _, _, _ => linked_single _ _
  | a :: b :: l, hl, hn, hp => by
    rw [linked_cons_cons] at hl ⊢
    refine ⟨⟨?_, ?_⟩, linked_frame hl.2 ?_ ?_⟩
    · rw [hn a (by simp)]; exact hl.1.1
    · rw [hp b (by simp)]; exact hl.1.2
    · intro p hp1; exact hn p (by simp [List.dropLast] at hp1 ⊢; right; exact hp1)
    · intro q hq; exact hp q (by simp at hq ⊢; right; exact hq)

theorem isQueue_frame {h h' : Heap} {head : Ptr} {xs : List Ptr} (hq : IsQueue h head xs)
    (hf : ∀ p ∈ head :: xs, Unchanged h h' p) : IsQueue h' head xs := by
  refine ⟨hq.1, hq.2.1, linked_frame hq.2.2 ?_ ?_⟩
  · intro p hp
    have : (head :: xs ++ [head]).dropLast = head :: xs := by
      exact List.dropLast_concat
    rw [this] at hp
    exact (hf p hp).1
  · intro q hq1
    have hq2 : q ∈ head :: xs := by
      simp at hq1 ⊢; tauto
    exact (hf q hq2).2

theorem cons_eq_snoc {α : Type} (a : α) (l : List α) : ∃ P u, a :: l = P ++ [u] := by
  rcases List.eq_nil_or_concat (a :: l) with h | ⟨P, u, h⟩
  · simp at h
  · exact ⟨P, u, by simpa using h⟩

theorem snoc_eq_cons {α : Type} (l : List α) (a : α) : ∃ v S, l ++ [a] = v :: S := by
  cases l with
  | nil => exact ⟨a, [], rfl⟩
  | cons b l => exact ⟨b, l ++ [a], rfl⟩

/-- Unlinking `x` on a path: the two neighbours are joined. -/
theorem linked_del {h : Heap} {P S : List Ptr} {u x v : Ptr}
    (hl : Linked h (P ++ u :: x :: v :: S)) (hu : u ∉ P) (hu2 : u ∉ (v :: S).dropLast)
    (hv : v ∉ S) (hv2 : v ∉ (P ++ [u]).tail) :
    Linked (list_del h x) (P ++ u :: v :: S) := by
  rw [linked_split] at hl
  obtain ⟨h1, h2⟩ := hl
  rw [linked_cons_cons, linked_cons_cons] at h2
  obtain ⟨⟨hux, hxu⟩, ⟨hxv, hvx⟩, h3⟩ := h2
  have hd : list_del h x = (h.setPrev v u).setNext u v := by
    simp only [list_del, hxv, hxu]
  rw [hd, linked_split, linked_cons_cons]
  refine ⟨linked_frame h1 ?_ ?_, ⟨by simp, by simp⟩, linked_frame h3 ?_ ?_⟩
  · intro p hp
    rw [List.dropLast_concat] at hp
    have : p ≠ u := fun e => hu (e ▸ hp)
    simp [this]
  · intro q hq
    have : q ≠ v := fun e => hv2 (e ▸ hq)
    simp [this]
  · intro p hp
    have : p ≠ u := fun e => hu2 (e ▸ hp)
    simp [this]
  · intro q hq
    have : q ≠ v := fun e => hv (e ▸ hq)
    simp at hq
    simp [this]

theorem list_del_unchanged (h : Heap) (x p : Ptr) (h1 : p ≠ h.next x) (h2 : p ≠ h.prev x) :
    Unchanged h (list_del h x) p := by
  simp [Unchanged, list_del, h1, h2]

theorem list_del_sameData (h : Heap) (x : Ptr) : SameData h (list_del h x) := ⟨rfl, rfl⟩

theorem list_del_spec {h : Heap} {head x : Ptr} {pre post : List Ptr}
    (hq : IsQueue h head (pre ++ x :: post)) :
    IsQueue (list_del h x) head (pre ++ post) ∧
      ∀ p, p ∉ head :: (pre ++ post) → Unchanged h (list_del h x) p := by
  obtain ⟨hnd, h0, hl⟩ := hq
  obtain ⟨P, u, hP⟩ := cons_eq_snoc head pre
  obtain ⟨v, S, hS⟩ := snoc_eq_cons post head
  have hpath : head :: (pre ++ x :: post) ++ [head] = P ++ u :: x :: v :: S := by
    have : head :: (pre ++ x :: post) ++ [head] = (head :: pre) ++ x :: (post ++ [head]) := by simp
    rw [this, hP, hS]; simp
  have hpath2 : head :: (pre ++ post) ++ [head] = P ++ u :: v :: S := by
    have : head :: (pre ++ post) ++ [head] = (head :: pre) ++ (post ++ [head]) := by simp
    rw [this, hP, hS]; simp
  rw [hpath] at hl
  have hnd2 : ((head :: pre) ++ x :: post).Nodup := by simpa using hnd
  have hndP : (P ++ [u]).Nodup := hP ▸ (List.nodup_append.1 hnd2).1
  have hup : u ∈ head :: pre := by rw [hP]; simp
  have hvs : v ∈ post ++ [head] := by rw [hS]; simp
  have hndS : (v :: S).Nodup := by
    rw [← hS]
    have := (List.nodup_append.1 hnd2).2.1
    have h3 := List.nodup_cons.1 hnd
    rw [List.nodup_append]
    refine ⟨(List.nodup_cons.1 this).2, by simp, ?_⟩
    intro a ha hb
    simp at hb
    subst hb
    exact h3.1 (by simp [ha])
  have hdisj : ∀ a ∈ head :: pre, a ∉ post := by
    intro a ha hb
    exact (List.nodup_append.1 hnd2).2.2 ha (List.mem_cons_of_mem _ hb)
  have hdrop : (v :: S).dropLast = post := by rw [← hS]; exact List.dropLast_concat
  have htail : (P ++ [u]).tail = pre := by rw [← hP]; rfl
  have hu : u ∉ P := by
    intro hu
    have := List.nodup_append.1 hndP
    exact this.2.2 hu (by simp)
  have hv : v ∉ S := (List.nodup_cons.1 hndS).1
  have hu2 : u ∉ (v :: S).dropLast := by rw [hdrop]; exact hdisj u hup
  have hv2 : v ∉ (P ++ [u]).tail := by
    rw [htail]
    intro hv2
    simp at hvs
    rcases hvs with hvp | rfl
    · exact hdisj v (List.mem_cons_of_mem _ hv2) hvp
    · exact (List.nodup_cons.1 (List.nodup_append.1 hnd2).1).1 hv2
  have hxu : h.prev x = u := by
    rw [linked_split] at hl
    have := hl.2
    rw [linked_cons_cons] at this
    exact this.1.2
  have hxv : h.next x = v := by
    rw [linked_split] at hl
    have := hl.2
    rw [linked_cons_cons, linked_cons_cons] at this
    exact this.2.1.1
  refine ⟨⟨?_, ?_, ?_⟩, ?_⟩
  · have : (head :: (pre ++ post)).Sublist (head :: (pre ++ x :: post)) := by
      apply List.Sublist.cons₂
      exact List.Sublist.append_left (List.sublist_cons_self x post) pre
    exact hnd.sublist this
  · intro hz
    apply h0
    simp at hz ⊢
    tauto
  · rw [hpath2]; exact linked_del hl hu hu2 hv hv2
  · intro p hp
    apply list_del_unchanged
    · rw [hxv]; intro e; apply hp; rw [e]
      simp at hvs ⊢; tauto
    · rw [hxu]; intro e; apply hp; rw [e]
      simp at hup ⊢; tauto

theorem isQueue_nil_iff (h : Heap) (head : Ptr) :
    IsQueue h head [] ↔ head ≠ 0 ∧ h.next head = head ∧ h.prev head = head := by
  simp [IsQueue]
  intro _ _
  exact ⟨fun a e => a e.symm, fun a e => a e.symm⟩

theorem isQueue_head_ne_zero {h : Heap} {head : Ptr} {xs : List Ptr} (hq : IsQueue h head xs) :
    head ≠ 0 := fun e => hq.2.1 (by simp [e])

theorem isQueue_next_head {h : Heap} {head x : Ptr} {xs : List Ptr}
    (hq : IsQueue h head (x :: xs)) : h.next head = x := by
  have := hq.2.2
  simp at this
  exact this.1.1

theorem isQueue_prev_head {h : Heap} {head x : Ptr} {xs : List Ptr}
    (hq : IsQueue h head (xs ++ [x])) : h.prev head = x := by
  have := hq.2.2
  have e : head :: (xs ++ [x]) ++ [head] = (head :: xs) ++ x :: [head] := by simp
  rw [e, linked_split] at this
  have := this.2
  simp at this
  exact this.2

theorem isQueue_mem_ne_head {h : Heap} {head x : Ptr} {xs : List Ptr}
    (hq : IsQueue h head xs) (hx : x ∈ xs) : x ≠ head := by
  rintro rfl
  exact (List.nodup_cons.1 hq.1).1 hx

theorem isQueue_mem_ne_zero {h : Heap} {head x : Ptr} {xs : List Ptr}
    (hq : IsQueue h head xs) (hx : x ∈ xs) : x ≠ 0 := by
  rintro rfl
  exact hq.2.1 (List.mem_cons_of_mem _ hx)

theorem isQueue_list_empty {h : Heap} {head : Ptr} {xs : List Ptr} (hq : IsQueue h head xs) :
    list_empty h head ↔ xs = [] := by
  cases xs with
  | nil => simp [list_empty, ((isQueue_nil_iff h head).1 hq).2.1]
  | cons x xs =>
    simp [list_empty, isQueue_next_head hq]
    exact isQueue_mem_ne_head hq (by simp)

theorem INIT_LIST_HEAD_spec (h : Heap) {head : Ptr} (h0 : head ≠ 0) :
    IsQueue (INIT_LIST_HEAD h head) head [] := by
  rw [isQueue_nil_iff]
  simp [INIT_LIST_HEAD, h0]

theorem INIT_LIST_HEAD_unchanged (h : Heap) (head p : Ptr) (hp : p ≠ head) :
    Unchanged h (INIT_LIST_HEAD h head) p := by
  simp [Unchanged, INIT_LIST_HEAD, hp]

theorem INIT_LIST_HEAD_sameData (h : Heap) (head : Ptr) :
    SameData h (INIT_LIST_HEAD h head) := ⟨rfl, rfl⟩

theorem list_add_tail_unchanged (h : Heap) (node head p : Ptr) (h1 : p ≠ node)
    (h2 : p ≠ head) (h3 : p ≠ h.prev head) : Unchanged h (list_add_tail h node head) p := by
  simp [Unchanged, list_add_tail, h1, h2, h3]

theorem list_add_tail_sameData (h : Heap) (node head : Ptr) :
    SameData h (list_add_tail h node head) := ⟨rfl, rfl⟩

theorem list_add_tail_spec {h : Heap} {head node : Ptr} {xs : List Ptr}
    (hq : IsQueue h head xs) (hn : node ∉ head :: xs) (hn0 : node ≠ 0) :
    IsQueue (list_add_tail h node head) head (xs ++ [node]) ∧
      ∀ p, p ∉ node :: head :: xs → Unchanged h (list_add_tail h node head) p := by
  obtain ⟨hnd, h0, hl⟩ := hq
  obtain ⟨P, u, hP⟩ := cons_eq_snoc head xs
  have hup : u ∈ head :: xs := by rw [hP]; simp
  have hl1 : Linked h (P ++ u :: [head]) := by
    have : head :: xs ++ [head] = P ++ u :: [head] := by rw [hP]; simp
    rw [← this]; exact hl
  rw [linked_split] at hl1
  have hprev : h.prev head = u := by
    have := hl1.2; simp at this; exact this.2
  have hndP : (P ++ [u]).Nodup := hP ▸ hnd
  have huP : u ∉ P := fun hu => (List.nodup_append.1 hndP).2.2 hu (by simp)
  have htail : (P ++ [u]).tail = xs := by rw [← hP]; rfl
  have hnP : node ∉ P := by
    intro hx; apply hn; rw [hP]; simp [hx]
  have hnu : u ≠ node := by rintro rfl; exact hn hup
  have hnh : node ≠ head := by rintro rfl; exact hn (by simp)
  have hhx : head ∉ xs := (List.nodup_cons.1 hnd).1
  have hnx : node ∉ xs := fun hx => hn (List.mem_cons_of_mem _ hx)
  refine ⟨⟨?_, ?_, ?_⟩, ?_⟩
  · have : head :: (xs ++ [node]) = (head :: xs) ++ [node] := by simp
    rw [this, List.nodup_append]
    refine ⟨hnd, by simp, ?_⟩
    intro a ha hb
    simp at hb; subst hb; exact hn ha
  · intro hz
    have : (0 : Ptr) ∈ head :: xs ∨ 0 = node := by simp at hz ⊢; tauto
    rcases this with a | a
    · exact h0 a
    · exact hn0 a.symm
  · have : head :: (xs ++ [node]) ++ [head] = P ++ u :: node :: [head] := by
      have : head :: (xs ++ [node]) ++ [head] = (head :: xs) ++ node :: [head] := by simp
      rw [this, hP]; simp
    rw [this, linked_split]
    constructor
    · refine linked_frame hl1.1 ?_ ?_
      · intro p hp
        rw [List.dropLast_concat] at hp
        have a : p ≠ u := ne_of_mem_of_not_mem hp huP
        have b : p ≠ node := ne_of_mem_of_not_mem hp hnP
        simp [list_add_tail, hprev, a, b]
      · intro q hq
        rw [htail] at hq
        have a : q ≠ head := ne_of_mem_of_not_mem hq hhx
        have b : q ≠ node := ne_of_mem_of_not_mem hq hnx
        simp [list_add_tail, hprev, a, b]
    · simp [list_add_tail, hprev, hnu, hnh]
  · intro p hp
    simp at hp
    apply list_add_tail_unchanged _ _ _ _ hp.1 hp.2.1
    rw [hprev]; rintro rfl
    simp at hup; tauto

theorem list_add_unchanged (h : Heap) (node head p : Ptr) (h1 : p ≠ node)
    (h2 : p ≠ head) (h3 : p ≠ h.next head) : Unchanged h (list_add h node head) p := by
  simp [Unchanged, list_add, h1, h2, h3]

theorem list_add_spec {h : Heap} {head node : Ptr} {xs : List Ptr}
    (hq : IsQueue h head xs) (hn : node ∉ head :: xs) (hn0 : node ≠ 0) :
    IsQueue (list_add h node head) head (node :: xs) ∧
      ∀ p, p ∉ node :: head :: xs → Unchanged h (list_add h node head) p := by
  obtain ⟨hnd, h0, hl⟩ := hq
  obtain ⟨v, S, hS⟩ := snoc_eq_cons xs head
  have hvs : v ∈ xs ++ [head] := by rw [hS]; simp
  have hl1 : Linked h (head :: v :: S) := by
    have : head :: xs ++ [head] = head :: v :: S := by simp [← hS]
    rw [← this]; exact hl
  rw [linked_cons_cons] at hl1
  have hnext : h.next head = v := hl1.1.1
  have hhx : head ∉ xs := (List.nodup_cons.1 hnd).1
  have hnx : node ∉ xs := fun hx => hn (List.mem_cons_of_mem _ hx)
  have hnh : node ≠ head := by rintro rfl; exact hn (by simp)
  have hndS : (v :: S).Nodup := by
    rw [← hS, List.nodup_append]
    refine ⟨(List.nodup_cons.1 hnd).2, by simp, ?_⟩
    intro a ha hb
    simp at hb; subst hb; exact hhx ha
  have hvS : v ∉ S := (List.nodup_cons.1 hndS).1
  have hdrop : (v :: S).dropLast = xs := by rw [← hS]; exact List.dropLast_concat
  have hnv : v ≠ node := by
    rintro rfl; simp at hvs; rcases hvs with a | a
    · exact hnx a
    · exact hnh a
  have hnS : node ∉ S := by
    intro hx
    have : node ∈ xs ++ [head] := by rw [hS]; exact List.mem_cons_of_mem _ hx
    simp at this; rcases this with a | a
    · exact hnx a
    · exact hnh a
  refine ⟨⟨?_, ?_, ?_⟩, ?_⟩
  · have : (head :: node :: xs).Perm (node :: head :: xs) := List.Perm.swap _ _ _
    rw [this.nodup_iff]
    exact List.nodup_cons.2 ⟨hn, hnd⟩
  · intro hz
    have : (0 : Ptr) ∈ head :: xs ∨ 0 = node := by simp at hz ⊢; tauto
    rcases this with a | a
    · exact h0 a
    · exact hn0 a.symm
  · have : head :: (node :: xs) ++ [head] = head :: node :: v :: S := by simp [← hS]
    rw [this, linked_cons_cons, linked_cons_cons]
    refine ⟨?_, ?_, linked_frame hl1.2 ?_ ?_⟩
    · simp [list_add, hnext, hnh]
    · simp [list_add, hnext, hnh, hnv, Ne.symm hnh]
    · intro p hp
      rw [hdrop] at hp
      have a : p ≠ head := ne_of_mem_of_not_mem hp hhx
      have b : p ≠ node := ne_of_mem_of_not_mem hp hnx
      simp [list_add, hnext, a, b]
    · intro q hq
      simp at hq
      have a : q ≠ v := ne_of_mem_of_not_mem hq hvS
      have b : q ≠ node := ne_of_mem_of_not_mem hq hnS
      simp [list_add, hnext, a, b]
  · intro p hp
    simp at hp
    apply list_add_unchanged _ _ _ _ hp.1 hp.2.1
    rw [hnext]; rintro rfl
    simp at hvs; tauto

/-! ### Reading a path by index -/

theorem linked_next_getD {h : Heap} : ∀ {l : List Ptr} (i : Nat), Linked h l →
    i + 1 < l.length → h.next (l.getD i 0) = l.getD (i + 1) 0
  | [], _, _, hi => by simp at hi
  | [_], _, _, hi => by simp at hi
  | a :: b :: l, 0, hl, _ => by
    rw [linked_cons_cons] at hl; simpa using hl.1.1
  | a :: b :: l, i + 1, hl, hi => by
    rw [linked_cons_cons] at hl
    have := @linked_next_getD h (b :: l) i hl.2 (by simpa using hi)
    simpa using this

theorem linked_prev_getD {h : Heap} : ∀ {l : List Ptr} (i : Nat), Linked h l →
    i + 1 < l.length → h.prev (l.getD (i + 1) 0) = l.getD i 0
  | [], _, _, hi => by simp at hi
  | [_], _, _, hi => by simp at hi
  | a :: b :: l, 0, hl, _ => by
    rw [linked_cons_cons] at hl; simpa using hl.1.2
  | a :: b :: l, i + 1, hl, hi => by
    rw [linked_cons_cons] at hl
    have := @linked_prev_getD h (b :: l) i hl.2 (by simpa using hi)
    simpa using this

theorem path_getD_zero (head : Ptr) (xs : List Ptr) :
    (head :: xs ++ [head]).getD 0 0 = head := by simp

theorem path_getD_succ (head : Ptr) (xs : List Ptr) (j : Nat) (hj : j < xs.length) :
    (head :: xs ++ [head]).getD (j + 1) 0 = xs.getD j 0 := by
  simp [List.getD, List.getElem?_append_left hj]

theorem path_getD_last (head : Ptr) (xs : List Ptr) :
    (head :: xs ++ [head]).getD (xs.length + 1) 0 = head := by
  simp [List.getD]

theorem getD_mem {xs : List Ptr} {j : Nat} (hj : j < xs.length) : xs.getD j 0 ∈ xs := by
  rw [List.getD_eq_getElem _ _ hj]; exact List.getElem_mem _

theorem isQueue_next_getD {h : Heap} {head : Ptr} {xs : List Ptr} (hq : IsQueue h head xs)
    (i : Nat) (hi : i ≤ xs.length) :
    h.next ((head :: xs ++ [head]).getD i 0) = (head :: xs ++ [head]).getD (i + 1) 0 :=
  linked_next_getD i hq.2.2 (by simp; omega)

theorem isQueue_prev_getD {h : Heap} {head : Ptr} {xs : List Ptr} (hq : IsQueue h head xs)
    (i : Nat) (hi : i ≤ xs.length) :
    h.prev ((head :: xs ++ [head]).getD (i + 1) 0) = (head :: xs ++ [head]).getD i 0 :=
  linked_prev_getD i hq.2.2 (by simp; omega)

/-- On the path of a queue only the two ends are the sentinel. -/
theorem path_getD_eq_head {h : Heap} {head : Ptr} {xs : List Ptr} (hq : IsQueue h head xs)
    (j : Nat) (hj : j ≤ xs.length + 1) :
    (head :: xs ++ [head]).getD j 0 = head ↔ j = 0 ∨ j = xs.length + 1 := by
  constructor
  · intro e
    by_contra hne
    push_neg at hne
    obtain ⟨k, rfl⟩ : ∃ k, j = k + 1 := ⟨j - 1, by omega⟩
    have hk : k < xs.length := by omega
    rw [path_getD_succ head xs k hk] at e
    exact isQueue_mem_ne_head hq (getD_mem hk) e
  · rintro (rfl | rfl)
    · exact path_getD_zero head xs
    · exact path_getD_last head xs

/-! ### `q_size` -/

theorem q_size_loop_spec {h : Heap} {head : Ptr} {xs : List Ptr} (hq : IsQueue h head xs) :
    ∀ (k fuel : Nat) (len : Int), k ≤ xs.length → xs.length - k < fuel →
      q_size_loop h head fuel ((head :: xs ++ [head]).getD (k + 1) 0) len =
        some (Nat.iterate (fun z => wrap_int (z + 1)) (xs.length - k) len)
  | k, 0, _, _, hf => by omega
  | k, fuel + 1, len, hk, hf => by
    unfold q_size_loop
    by_cases hkn : k = xs.length
    · subst hkn
      simp [path_getD_last]
    · have hne : (head :: xs ++ [head]).getD (k + 1) 0 ≠ head := by
        rw [Ne, path_getD_eq_head hq _ (by omega)]; omega
      rw [if_neg hne, isQueue_next_getD hq (k + 1) (by omega),
        q_size_loop_spec hq (k + 1) fuel _ (by omega) (by omega)]
      have : xs.length - k = (xs.length - (k + 1)) + 1 := by omega
      rw [this, Function.iterate_succ_apply]

theorem wrap_int_of_lt (z : Int) (h0 : 0 ≤ z) (h1 : z < 2 ^ 31) : wrap_int z = z := by
  unfold wrap_int
  rw [Int.emod_eq_of_lt (by omega) (by omega)]
  omega

theorem iterate_wrap_of_lt : ∀ (n : Nat) (len : Int), 0 ≤ len → len + n < 2 ^ 31 →
    Nat.iterate (fun z => wrap_int (z + 1)) n len = len + n
  | 0, len, _, _ => by simp
  | n + 1, len, h0, h1 => by
    rw [Function.iterate_succ_apply, wrap_int_of_lt _ (by omega) (by push_cast at h1; omega),
      iterate_wrap_of_lt n _ (by omega) (by push_cast at h1 ⊢; omega)]
    push_cast; omega

/-- What `q_size` returns on a queue of `n` elements: `n` increments of an
`int` counter starting at 0. -/
theorem q_size_spec {h : Heap} {head : Ptr} {xs : List Ptr} (hq : IsQueue h head xs)
    {fuel : Nat} (hf : xs.length < fuel) :
    q_size fuel h head = some (Nat.iterate (fun z => wrap_int (z + 1)) xs.length 0) := by
  unfold q_size
  by_cases he : xs = []
  · subst he
    simp [(isQueue_list_empty hq).2 rfl]
  · have h1 : ¬ (head = 0 ∨ list_empty h head) := by
      rw [isQueue_list_empty hq]; simp [he, isQueue_head_ne_zero hq]
    rw [if_neg h1]
    have := q_size_loop_spec hq 0 fuel 0 (by omega) (by omega)
    rw [← isQueue_next_getD hq 0 (by omega), path_getD_zero] at this
    simpa using this

theorem q_size_small {h : Heap} {head : Ptr} {xs : List Ptr} (hq : IsQueue h head xs)
    {fuel : Nat} (hf : xs.length < fuel) (hn : xs.length < 2 ^ 31) :
    q_size fuel h head = some (xs.length : Int) := by
  rw [q_size_spec hq hf, iterate_wrap_of_lt _ _ (le_refl _) (by push_cast; omega)]
  simp

/-! ### The slow/fast scan -/

theorem find_mid_spec {h : Heap} {head : Ptr} {xs : List Ptr} (hq : IsQueue h head xs) :
    ∀ (fuel k : Nat), k ≤ xs.length / 2 → xs.length / 2 - k < fuel →
      find_mid h head fuel ((head :: xs ++ [head]).getD k 0)
        ((head :: xs ++ [head]).getD (2 * k + 1) 0) =
        some ((head :: xs ++ [head]).getD (xs.length / 2) 0)
  | 0, _, _, hf => by omega
  | fuel + 1, k, hk, hf => by
    unfold find_mid
    by_cases hkm : k = xs.length / 2
    · have hstop : ¬ ((head :: xs ++ [head]).getD (2 * k + 1) 0 ≠ head ∧
          h.next ((head :: xs ++ [head]).getD (2 * k + 1) 0) ≠ head) := by
        rintro ⟨a, b⟩
        rw [Ne, path_getD_eq_head hq _ (by omega)] at a
        rw [isQueue_next_getD hq _ (by omega), Ne, path_getD_eq_head hq _ (by omega)] at b
        omega
      rw [if_neg hstop, hkm]
    · have hgo : (head :: xs ++ [head]).getD (2 * k + 1) 0 ≠ head ∧
          h.next ((head :: xs ++ [head]).getD (2 * k + 1) 0) ≠ head := by
        constructor
        · rw [Ne, path_getD_eq_head hq _ (by omega)]; omega
        · rw [isQueue_next_getD hq _ (by omega), Ne, path_getD_eq_head hq _ (by omega)]; omega
      rw [if_pos hgo, isQueue_next_getD hq _ (by omega), isQueue_next_getD hq _ (by omega),
        isQueue_next_getD hq _ (by omega)]
      have := find_mid_spec hq fuel (k + 1) (by omega) (by omega)
      have e : 2 * (k + 1) + 1 = 2 * k + 1 + 1 + 1 := by ring
      rw [e] at this
      exact this

/-- From the start state of both scans the final `indir` is the node just
before the element of index `n / 2`. -/
theorem find_mid_start {h : Heap} {head : Ptr} {xs : List Ptr} (hq : IsQueue h head xs)
    {fuel : Nat} (hf : xs.length / 2 < fuel) :
    find_mid h head fuel head (h.next head) =
      some ((head :: xs ++ [head]).getD (xs.length / 2) 0) := by
  have := find_mid_spec hq fuel 0 (by omega) (by omega)
  rw [← isQueue_next_getD hq 0 (by omega), path_getD_zero] at this
  simpa using this

theorem take_drop_getD (xs : List Ptr) (m : Nat) (hm : m < xs.length) :
    xs = xs.take m ++ xs.getD m 0 :: xs.drop (m + 1) := by
  rw [List.getD_eq_getElem _ _ hm]
  simp

theorem take_append_drop_succ (xs : List Ptr) (m : Nat) :
    xs.take m ++ xs.drop (m + 1) = xs.eraseIdx m := by
  rw [List.eraseIdx_eq_take_drop_succ]

theorem heap_ext {h1 h2 : Heap} (a : h1.next = h2.next) (b : h1.prev = h2.prev)
    (c : h1.value = h2.value) (d : h1.str = h2.str) (e : h1.freed = h2.freed) : h1 = h2 := by
  cases h1; cases h2; simp at *; exact ⟨a, b, c, d, e⟩

/-- The store `*indir = (*indir)->next` before `list_del(del)` writes what
`list_del` writes again. -/
theorem list_del_after_bypass (h : Heap) (indir del : Ptr) (hp : h.prev del = indir)
    (hne : del ≠ indir) :
    list_del (h.setNext indir (h.next del)) del = list_del h del := by
  apply heap_ext
  · funext q
    simp only [list_del, setNext_next, setNext_prev, setPrev_next, if_neg hne, hp]
    split <;> rfl
  · funext q
    simp [list_del, hne, hp]
  · rfl
  · rfl
  · rfl

theorem path_getD_cons (head : Ptr) (xs : List Ptr) (j : Nat) (hj : j ≤ xs.length) :
    (head :: xs ++ [head]).getD j 0 = (head :: xs).getD j 0 := by
  cases j with
  | zero => simp
  | succ j =>
    have : j < xs.length := by omega
    simp [List.getD, List.getElem?_append_left this]

theorem path_getD_ne {h : Heap} {head : Ptr} {xs : List Ptr} (hq : IsQueue h head xs)
    {i j : Nat} (hi : i ≤ xs.length) (hj : j ≤ xs.length) (hij : i ≠ j) :
    (head :: xs ++ [head]).getD i 0 ≠ (head :: xs ++ [head]).getD j 0 := by
  rw [path_getD_cons _ _ _ hi, path_getD_cons _ _ _ hj,
    List.getD_eq_getElem _ _ (by simp; omega), List.getD_eq_getElem _ _ (by simp; omega)]
  intro e
  exact hij ((List.Nodup.getElem_inj_iff hq.1).1 e)

/-- Function `q_delete_mid` on a non-empty queue: the element of index `n / 2`
is unlinked and freed. -/
theorem q_delete_mid_spec {h : Heap} {head : Ptr} {xs : List Ptr} (hq : IsQueue h head xs)
    (hne : xs ≠ []) {fuel : Nat} (hf : xs.length / 2 < fuel) :
    ∃ h', q_delete_mid fuel h head = some (h', true) ∧
      IsQueue h' head (xs.eraseIdx (xs.length / 2)) ∧
      (∀ p, p ∉ head :: xs.eraseIdx (xs.length / 2) → Unchanged h h' p) ∧ SameData h h' ∧
      xs.getD (xs.length / 2) 0 ∈ h'.freed := by
  have hlen : 0 < xs.length := List.length_pos.2 hne
  have hm : xs.length / 2 < xs.length := Nat.div_lt_self hlen (by norm_num)
  have h1 : ¬ (head = 0 ∨ list_empty h head) := by
    rw [isQueue_list_empty hq]; simp [hne, isQueue_head_ne_zero hq]
  have hdel : h.next ((head :: xs ++ [head]).getD (xs.length / 2) 0) =
      xs.getD (xs.length / 2) 0 := by
    rw [isQueue_next_getD hq _ (by omega), path_getD_succ _ _ _ hm]
  have hprev : h.prev (xs.getD (xs.length / 2) 0) =
      (head :: xs ++ [head]).getD (xs.length / 2) 0 := by
    rw [← path_getD_succ head _ _ hm, isQueue_prev_getD hq _ (by omega)]
  have hmem : xs.getD (xs.length / 2) 0 ∈ xs := getD_mem hm
  have hdne : xs.getD (xs.length / 2) 0 ≠ (head :: xs ++ [head]).getD (xs.length / 2) 0 := by
    rw [← path_getD_succ head _ _ hm]
    exact path_getD_ne hq (by omega) (by omega) (by omega)
  have hd0 : xs.getD (xs.length / 2) 0 ≠ 0 := isQueue_mem_ne_zero hq hmem
  have hq2 := hq
  rw [take_drop_getD xs _ hm] at hq2
  obtain ⟨hq3, hfr⟩ := list_del_spec hq2
  rw [take_append_drop_succ] at hq3 hfr
  unfold q_delete_mid
  rw [if_neg h1, find_mid_start hq hf]
  generalize (head :: xs ++ [head]).getD (xs.length / 2) 0 = u at *
  generalize xs.getD (xs.length / 2) 0 = d at *
  dsimp only
  rw [hdel, list_del_after_bypass h _ _ hprev hdne]
  refine ⟨_, rfl, ?_, ?_, ?_, ?_⟩
  · refine isQueue_frame hq3 ?_
    intro p _
    constructor <;> (split <;> split <;> rfl)
  · intro p hp
    refine unchanged_trans (hfr p hp) ?_
    constructor <;> (split <;> split <;> rfl)
  · constructor <;> (split <;> split <;> rfl)
  · rw [if_pos hd0]
    simp [Heap.free]

/-! ### `q_reverse` -/

theorem chain_imp_firsts {R S : Ptr → Ptr → Prop} : ∀ {l : List Ptr}, List.Chain' R l →
    (∀ a ∈ l.dropLast, ∀ b, R a b → S a b) → List.Chain' S l
  | [], _, _ => List.chain'_nil
  | [_], _, _ => List.chain'_singleton _
  | a :: b :: l, hl, hi => by
    rw [List.chain'_cons] at hl ⊢
    refine ⟨hi a (by simp) b hl.1, chain_imp_firsts hl.2 ?_⟩
    intro c hc d hcd
    exact hi c (by simp [List.dropLast] at hc ⊢; right; exact hc) d hcd

theorem q_reverse_loop_spec (head : Ptr) : ∀ (rest : List Ptr) (hc : Heap) (li : Ptr)
    (fuel : Nat), (li :: rest).Nodup → head ∉ rest →
    List.Chain' (fun p q => hc.next p = q) (li :: rest ++ [head]) → rest.length < fuel →
    ∃ h', q_reverse_loop head fuel hc li = some h' ∧
      (∀ p, h'.next p = if p ∈ li :: rest then hc.prev p else hc.next p) ∧
      (∀ p, h'.prev p = if p ∈ li :: rest then hc.next p else hc.prev p) ∧
      SameData hc h' ∧ h'.freed = hc.freed
  | _, _, _, 0, _, _, _, hf => by omega
  | [], hc, li, fuel + 1, _, _, hch, _ => by
    have hn : hc.next li = head := by simpa using hch
    unfold q_reverse_loop
    simp only [hn, ne_eq, not_true_eq_false, if_false]
    refine ⟨_, rfl, ?_, ?_, ⟨rfl, rfl⟩, rfl⟩
    · intro p; by_cases e : p = li <;> simp [e, hn]
    · intro p; by_cases e : p = li <;> simp [e, hn]
  | r :: rest, hc, li, fuel + 1, hnd, hh, hch, hf => by
    have hch2 : hc.next li = r ∧
        List.Chain' (fun p q => hc.next p = q) (r :: rest ++ [head]) := by
      simpa [List.chain'_cons] using hch
    have hrh : r ≠ head := by
      rintro rfl; exact hh (by simp)
    have hli : li ∉ r :: rest := (List.nodup_cons.1 hnd).1
    unfold q_reverse_loop
    simp only [hch2.1, ne_eq, hrh, not_false_eq_true, if_true]
    have hch3 : List.Chain' (fun p q => ((hc.setNext li (hc.prev li)).setPrev li r).next p = q)
        (r :: rest ++ [head]) := by
      refine chain_imp_firsts hch2.2 ?_
      intro a ha b hab
      have hd : (r :: rest ++ [head]).dropLast = r :: rest := List.dropLast_concat
      rw [hd] at ha
      have : a ≠ li := ne_of_mem_of_not_mem ha hli
      simpa [this] using hab
    obtain ⟨h', e, hn', hp', hd', hf'⟩ := q_reverse_loop_spec head rest _ r fuel
      (List.nodup_cons.1 hnd).2 (fun hx => hh (List.mem_cons_of_mem _ hx)) hch3
      (by simp at hf; omega)
    refine ⟨h', e, ?_, ?_, hd', hf'⟩
    · intro p
      rw [hn' p]
      by_cases e1 : p ∈ r :: rest
      · have : p ≠ li := ne_of_mem_of_not_mem e1 hli
        simp [e1, this]
      · by_cases e2 : p = li
        · subst e2; simp [e1]
        · simp [e1, e2]
    · intro p
      rw [hp' p]
      by_cases e1 : p ∈ r :: rest
      · have : p ≠ li := ne_of_mem_of_not_mem e1 hli
        simp [e1, this]
      · by_cases e2 : p = li
        · subst e2; simp [e1, hch2.1]
        · simp [e1, e2]

theorem linked_nextChain {h : Heap} {l : List Ptr} (hl : Linked h l) :
    List.Chain' (fun p q => h.next p = q) l :=
  List.Chain'.imp (fun _ _ hab => hab.1) ((linked_iff_chain h l).1 hl)

/-- Function `q_reverse`: afterwards the sentinel carries the elements in
reverse order; no node outside the queue is written, no text is changed and
nothing is freed. -/
theorem q_reverse_spec {h : Heap} {head : Ptr} {xs : List Ptr} (hq : IsQueue h head xs)
    {fuel : Nat} (hf : xs.length < fuel) :
    ∃ h', q_reverse fuel h head = some h' ∧ IsQueue h' head xs.reverse ∧
      (∀ p, p ∉ head :: xs → Unchanged h h' p) ∧ SameData h h' ∧ h'.freed = h.freed := by
  unfold q_reverse
  by_cases he : xs = []
  · subst he
    simp only [(isQueue_list_empty hq).2 rfl, or_true, if_true]
    exact ⟨h, rfl, hq, fun p _ => unchanged_refl h p, sameData_refl h, rfl⟩
  · have h1 : ¬ (head = 0 ∨ list_empty h head) := by
      rw [isQueue_list_empty hq]; simp [he, isQueue_head_ne_zero hq]
    rw [if_neg h1]
    obtain ⟨h', e, hn', hp', hd', hf'⟩ := q_reverse_loop_spec head xs h head fuel hq.1
      (List.nodup_cons.1 hq.1).1 (linked_nextChain hq.2.2) hf
    refine ⟨h', e, ⟨?_, ?_, ?_⟩, ?_, hd', hf'⟩
    · have : (head :: xs.reverse).Perm (head :: xs) := (List.reverse_perm xs).cons head
      exact this.nodup_iff.2 hq.1
    · intro hz
      apply hq.2.1
      simpa using hz
    · have e1 : head :: xs.reverse ++ [head] = (head :: xs ++ [head]).reverse := by simp
      rw [e1, linked_iff_chain, List.chain'_reverse, List.Chain'.iff_mem]
      have hl := hq.2.2
      rw [linked_iff_chain, List.Chain'.iff_mem] at hl
      refine hl.imp ?_
      rintro a b ⟨ha, hb, hab1, hab2⟩
      have ha' : a ∈ head :: xs := by simp at ha ⊢; tauto
      have hb' : b ∈ head :: xs := by simp at hb ⊢; tauto
      refine ⟨ha, hb, ?_, ?_⟩
      · rw [hn' b, if_pos hb']; exact hab2
      · rw [hp' a, if_pos ha']; exact hab1
    · intro p hp
      exact ⟨by rw [hn' p, if_neg hp], by rw [hp' p, if_neg hp]⟩

/-- The neighbours of a stretch `mid` of a queue: the node `u` before it and
the node `v` after it, with the distinctness facts the link updates need. -/
theorem queue_ends {head : Ptr} {pre mid post : List Ptr}
    (hnd : (head :: (pre ++ mid ++ post)).Nodup) :
    ∃ P u v S, head :: pre = P ++ [u] ∧ post ++ [head] = v :: S ∧
      head :: (pre ++ mid ++ post) ++ [head] = P ++ u :: (mid ++ v :: S) ∧
      head :: (pre ++ post) ++ [head] = P ++ u :: v :: S ∧
      (P ++ [u]).tail = pre ∧ (v :: S).dropLast = post ∧
      u ∈ head :: pre ∧ v ∈ post ++ [head] ∧ u ∉ P ∧ v ∉ S ∧ u ∉ post ∧ v ∉ pre ∧
      (∀ p ∈ P, p ∈ head :: pre) ∧ (∀ p ∈ S, p ∈ post ++ [head]) ∧
      (∀ m ∈ mid, m ∉ head :: pre ∧ m ∉ post ++ [head]) := by
  obtain ⟨P, u, hP⟩ := cons_eq_snoc head pre
  obtain ⟨v, S, hS⟩ := snoc_eq_cons post head
  have hnd2 : ((head :: pre) ++ (mid ++ post)).Nodup := by simpa using hnd
  have hnd3 : (head :: pre).Nodup := (List.nodup_append.1 hnd2).1
  have hhead : head ∉ pre ++ mid ++ post := (List.nodup_cons.1 hnd).1
  have hnd4 : (pre ++ mid ++ post).Nodup := (List.nodup_cons.1 hnd).2
  have hdisj : ∀ a ∈ head :: pre, a ∉ mid ++ post := fun a ha hb =>
    (List.nodup_append.1 hnd2).2.2 ha hb
  have hup : u ∈ head :: pre := by rw [hP]; simp
  have hvs : v ∈ post ++ [head] := by rw [hS]; simp
  have hndS : (post ++ [head]).Nodup := by
    rw [List.nodup_append]
    refine ⟨(List.nodup_append.1 hnd4).2.1, by simp, ?_⟩
    intro a ha hb
    simp at hb; subst hb
    exact hhead (by simp [ha])
  have hmp : ∀ m ∈ mid, m ∉ post := by
    intro m hm hp
    exact (List.nodup_append.1 hnd4).2.2 (show m ∈ pre ++ mid by simp [hm]) hp
  refine ⟨P, u, v, S, hP, hS, ?_, ?_, ?_, ?_, hup, hvs, ?_, ?_, ?_, ?_, ?_, ?_, ?_⟩
  · have : head :: (pre ++ mid ++ post) ++ [head] = (head :: pre) ++ (mid ++ (post ++ [head])) := by
      simp
    rw [this, hP, hS]; simp
  · have : head :: (pre ++ post) ++ [head] = (head :: pre) ++ (post ++ [head]) := by simp
    rw [this, hP, hS]; simp
  · rw [← hP]; rfl
  · rw [← hS]; exact List.dropLast_concat
  · intro hu
    rw [hP] at hnd3
    exact (List.nodup_append.1 hnd3).2.2 hu (by simp)
  · rw [hS] at hndS; exact (List.nodup_cons.1 hndS).1
  · intro hx; exact hdisj u hup (by simp [hx])
  · intro hx
    simp at hvs
    rcases hvs with a | a
    · exact hdisj v (List.mem_cons_of_mem _ hx) (by simp [a])
    · subst a; exact (List.nodup_cons.1 hnd3).1 hx
  · intro p hp; rw [hP]; simp [hp]
  · intro p hp; rw [hS]; simp [hp]
  · intro m hm
    refine ⟨fun hx => hdisj m hx (by simp [hm]), ?_⟩
    intro hx
    simp at hx
    rcases hx with a | a
    · exact hmp m hm a
    · subst a; exact hhead (by simp [hm])

/-! ### `q_swap` -/

theorem q_swap_loop_succ (head : Ptr) (fuel : Nat) (h : Heap) (prev cur : Ptr) :
    q_swap_loop head (fuel + 1) h prev cur =
      if cur ≠ head ∧ h.next cur ≠ head then
        q_swap_loop head fuel (swap_body h prev cur) cur ((swap_body h prev cur).next cur)
      else some h := rfl

theorem swap_body_eq (h : Heap) (u a b v : Ptr) (hab : h.next a = b) (hbv : h.next b = v)
    (hua : u ≠ a) (hub : u ≠ b) (hne : a ≠ b) :
    swap_body h u a =
      (((((h.setNext u b).setNext a v).setNext b a).setPrev a b).setPrev v a).setPrev b u := by
  simp [swap_body, hab, hbv, hua, hub, hne, Ne.symm hua, Ne.symm hub, Ne.symm hne]

theorem swap_body_spec {h : Heap} {head a b : Ptr} {A R : List Ptr}
    (hq : IsQueue h head (A ++ [a, b] ++ R)) {P : List Ptr} {u : Ptr}
    (hP : head :: A = P ++ [u]) :
    IsQueue (swap_body h u a) head (A ++ [b, a] ++ R) ∧
      (∀ p, p ∉ head :: (A ++ [a, b] ++ R) → Unchanged h (swap_body h u a) p) ∧
      SameData h (swap_body h u a) ∧ (swap_body h u a).freed = h.freed := by
  obtain ⟨P', u', v, S, hP', hS, hpath, -, htail, hdrop, hup, hvs, huP, hvS, hupost, hvpre,
    hPsub, hSsub, hmid⟩ := queue_ends hq.1
  obtain ⟨rfl, rfl⟩ : P = P' ∧ u = u' := by
    have := List.append_inj' (hP.symm.trans hP') rfl
    exact ⟨this.1, by simpa using this.2⟩
  have hl := hq.2.2
  rw [hpath, linked_split] at hl
  obtain ⟨hl1, hl2⟩ := hl
  simp only [List.cons_append, List.nil_append, linked_cons_cons] at hl2
  obtain ⟨⟨hua, hau⟩, ⟨hab, hba⟩, ⟨hbv, hvb⟩, hl3⟩ := hl2
  have ha := hmid a (by simp)
  have hb := hmid b (by simp)
  have hnd := hq.1
  have hne : a ≠ b := by
    intro e
    have : (A ++ [a, b] ++ R).Nodup := (List.nodup_cons.1 hnd).2
    rw [List.append_assoc, List.nodup_append] at this
    have := this.2.1
    simp [e] at this
  have hua' : u ≠ a := fun e => ha.1 (e ▸ hup)
  have hub' : u ≠ b := fun e => hb.1 (e ▸ hup)
  have hva : v ≠ a := fun e => ha.2 (e ▸ hvs)
  have hvb' : v ≠ b := fun e => hb.2 (e ▸ hvs)
  rw [swap_body_eq h u a b v hab hbv hua' hub' hne]
  refine ⟨⟨?_, ?_, ?_⟩, ?_, ⟨rfl, rfl⟩, rfl⟩
  · have : (head :: (A ++ [b, a] ++ R)).Perm (head :: (A ++ [a, b] ++ R)) := by
      refine List.Perm.cons _ (List.Perm.append_right _ (List.Perm.append_left _ ?_))
      exact List.Perm.swap _ _ _
    exact this.nodup_iff.2 hnd
  · intro hz
    apply hq.2.1
    simp at hz ⊢
    tauto
  · have e : head :: (A ++ [b, a] ++ R) ++ [head] = P ++ u :: b :: a :: v :: S := by
      have : head :: (A ++ [b, a] ++ R) ++ [head] = (head :: A) ++ b :: a :: (R ++ [head]) := by
        simp
      rw [this, hP, hS]; simp
    rw [e, linked_split, linked_cons_cons, linked_cons_cons, linked_cons_cons]
    refine ⟨linked_frame hl1 ?_ ?_, ?_, ?_, ?_, linked_frame hl3 ?_ ?_⟩
    · intro p hp
      rw [List.dropLast_concat] at hp
      have h1 : p ≠ u := ne_of_mem_of_not_mem hp huP
      have h2 : p ≠ a := fun e => ha.1 (e ▸ hPsub p hp)
      have h3 : p ≠ b := fun e => hb.1 (e ▸ hPsub p hp)
      simp [h1, h2, h3]
    · intro q hq'
      rw [htail] at hq'
      have h1 : q ≠ v := ne_of_mem_of_not_mem hq' hvpre
      have h2 : q ≠ a := fun e => ha.1 (e ▸ List.mem_cons_of_mem _ hq')
      have h3 : q ≠ b := fun e => hb.1 (e ▸ List.mem_cons_of_mem _ hq')
      simp [h1, h2, h3]
    · simp [hua', hub', hne, hva, hvb', Ne.symm hua', Ne.symm hub', Ne.symm hne, Ne.symm hva, Ne.symm hvb']
    · simp [hua', hub', hne, hva, hvb', Ne.symm hua', Ne.symm hub', Ne.symm hne, Ne.symm hva, Ne.symm hvb']
    · simp [hua', hub', hne, hva, hvb', Ne.symm hua', Ne.symm hub', Ne.symm hne, Ne.symm hva, Ne.symm hvb']
    · intro p hp
      rw [hdrop] at hp
      have h1 : p ≠ u := ne_of_mem_of_not_mem hp hupost
      have h2 : p ≠ a := fun e => ha.2 (e ▸ List.mem_append_left _ hp)
      have h3 : p ≠ b := fun e => hb.2 (e ▸ List.mem_append_left _ hp)
      simp [h1, h2, h3]
    · intro q hq'
      simp at hq'
      have h1 : q ≠ v := ne_of_mem_of_not_mem hq' hvS
      have h2 : q ≠ a := fun e => ha.2 (e ▸ hSsub q hq')
      have h3 : q ≠ b := fun e => hb.2 (e ▸ hSsub q hq')
      simp [h1, h2, h3]
  · intro p hp
    have h1 : p ≠ u := by
      rintro rfl; apply hp
      simp at hup ⊢; tauto
    have h2 : p ≠ a := by rintro rfl; apply hp; simp
    have h3 : p ≠ b := by rintro rfl; apply hp; simp
    have h4 : p ≠ v := by
      rintro rfl; apply hp
      simp at hvs ⊢; tauto
    simp [Unchanged, h1, h2, h3, h4]

theorem isQueue_next_of_last {h : Heap} {head x : Ptr} {A R P : List Ptr} {u : Ptr}
    (hq : IsQueue h head (A ++ x :: R)) (hP : head :: A = P ++ [u]) : h.next u = x := by
  have hl := hq.2.2
  have e : head :: (A ++ x :: R) ++ [head] = P ++ u :: x :: (R ++ [head]) := by
    have : head :: (A ++ x :: R) ++ [head] = (head :: A) ++ x :: (R ++ [head]) := by simp
    rw [this, hP]; simp
  rw [e, linked_split, linked_cons_cons] at hl
  exact hl.2.1.1

theorem isQueue_next_of_last_nil {h : Heap} {head : Ptr} {A P : List Ptr} {u : Ptr}
    (hq : IsQueue h head A) (hP : head :: A = P ++ [u]) : h.next u = head := by
  have hl := hq.2.2
  have e : head :: A ++ [head] = P ++ u :: [head] := by rw [hP]; simp
  rw [e, linked_split, linked_cons_cons] at hl
  exact hl.2.1.1

theorem q_swap_loop_spec (head : Ptr) : ∀ (R A : List Ptr) (prev : Ptr) (hc : Heap)
    (fuel : Nat), IsQueue hc head (A ++ R) → (∃ P, head :: A = P ++ [prev]) →
    R.length / 2 < fuel →
    ∃ h', q_swap_loop head fuel hc prev (hc.next prev) = some h' ∧
      IsQueue h' head (A ++ swap_pairs R) ∧
      (∀ p, p ∉ head :: (A ++ R) → Unchanged hc h' p) ∧ SameData hc h' ∧
      h'.freed = hc.freed
  | _, _, _, _, 0, _, _, hf => by omega
  | [], A, prev, hc, fuel + 1, hq, ⟨P, hP⟩, _ => by
    have hq' : IsQueue hc head A := by simpa using hq
    have hn := isQueue_next_of_last_nil hq' hP
    rw [q_swap_loop_succ, hn]
    simp only [ne_eq, not_true_eq_false, false_and, if_false]
    exact ⟨hc, rfl, hq, fun p _ => unchanged_refl _ _, sameData_refl _, rfl⟩
  | [a], A, prev, hc, fuel + 1, hq, ⟨P, hP⟩, _ => by
    have hn := isQueue_next_of_last hq hP
    have hq' : IsQueue hc head ((A ++ [a]) ++ []) := by simpa using hq
    have hn2 : hc.next a = head :=
      isQueue_next_of_last_nil (by simpa using hq) (show head :: (A ++ [a]) = (head :: A) ++ [a] by simp)
    rw [q_swap_loop_succ, hn, hn2]
    simp only [ne_eq, not_true_eq_false, and_false, if_false]
    exact ⟨hc, rfl, hq, fun p _ => unchanged_refl _ _, sameData_refl _, rfl⟩
  | a :: b :: R, A, prev, hc, fuel + 1, hq, ⟨P, hP⟩, hf => by
    have hn := isQueue_next_of_last hq hP
    have hqa : IsQueue hc head ((A ++ [a]) ++ b :: R) := by simpa using hq
    have hn2 : hc.next a = b :=
      isQueue_next_of_last hqa (show head :: (A ++ [a]) = (head :: A) ++ [a] by simp)
    have hah : a ≠ head := isQueue_mem_ne_head hq (by simp)
    have hbh : b ≠ head := isQueue_mem_ne_head hq (by simp)
    have hq1 : IsQueue hc head (A ++ [a, b] ++ R) := by simpa using hq
    obtain ⟨hq2, hfr, hsd, hfreed⟩ := swap_body_spec hq1 hP
    have hq3 : IsQueue (swap_body hc prev a) head ((A ++ [b, a]) ++ R) := hq2
    obtain ⟨h', e, hq4, hfr', hsd', hfreed'⟩ := q_swap_loop_spec head R (A ++ [b, a]) a
      (swap_body hc prev a) fuel hq3 ⟨head :: A ++ [b], by simp⟩
      (by simp at hf; omega)
    rw [q_swap_loop_succ, hn, hn2, if_pos ⟨hah, hbh⟩]
    refine ⟨h', e, by simpa [swap_pairs] using hq4, ?_, sameData_trans hsd hsd',
      hfreed'.trans hfreed⟩
    intro p hp
    refine unchanged_trans (hfr p (by simpa using hp)) (hfr' p ?_)
    simp at hp ⊢
    tauto

/-- Function `q_swap`: afterwards the sentinel carries the elements with every
consecutive pair exchanged. -/
theorem q_swap_spec {h : Heap} {head : Ptr} {xs : List Ptr} (hq : IsQueue h head xs)
    {fuel : Nat} (hf : xs.length / 2 < fuel) :
    ∃ h', q_swap fuel h head = some h' ∧ IsQueue h' head (swap_pairs xs) ∧
      (∀ p, p ∉ head :: xs → Unchanged h h' p) ∧ SameData h h' ∧ h'.freed = h.freed := by
  unfold q_swap
  by_cases he : xs = []
  · subst he
    simp only [(isQueue_list_empty hq).2 rfl, or_true, if_true]
    exact ⟨h, rfl, hq, fun p _ => unchanged_refl h p, sameData_refl h, rfl⟩
  · have h1 : ¬ (head = 0 ∨ list_empty h head) := by
      rw [isQueue_list_empty hq]; simp [he, isQueue_head_ne_zero hq]
    rw [if_neg h1]
    exact q_swap_loop_spec head xs [] head h fuel hq ⟨[], rfl⟩ hf

/-! ### Insertion and removal -/

theorem snprintf_whole (s : Text) : snprintf (strlen s + 1) s = s := by
  simp [snprintf, strlen]

/-- Function `q_insert_head` when both allocations succeed and return fresh
addresses. -/
theorem q_insert_head_spec {h : Heap} {head : Ptr} {xs : List Ptr} (hq : IsQueue h head xs)
    (s : Text) {ele buf : Ptr} (he : ele ∉ head :: xs) (he0 : ele ≠ 0) (hb0 : buf ≠ 0) :
    ∃ h', q_insert_head h head s ele buf = (h', true) ∧ IsQueue h' head (ele :: xs) ∧
      text h' ele = s ∧ (∀ p, p ≠ ele → h.value p ≠ buf → text h' p = text h p) ∧
      (∀ p, p ∉ ele :: head :: xs → Unchanged h h' p) ∧ h'.freed = h.freed := by
  have hh0 := isQueue_head_ne_zero hq
  have hq1 : IsQueue ((h.setValue ele buf).setStr buf s) head xs :=
    isQueue_frame hq (fun p _ => ⟨rfl, rfl⟩)
  obtain ⟨hq2, hfr⟩ := list_add_spec hq1 he he0
  refine ⟨list_add ((h.setValue ele buf).setStr buf s) ele head, ?_, hq2, ?_, ?_, ?_, ?_⟩
  · simp [q_insert_head, hh0, he0, hb0, Heap.setValue, snprintf_whole]
  · simp [text, list_add, Heap.setValue, Heap.setStr]
  · intro p hp hv
    simp [text, list_add, Heap.setValue, Heap.setStr, hp, hv]
  · intro p hp
    exact unchanged_trans ⟨rfl, rfl⟩ (hfr p hp)
  · rfl

/-- Function `q_insert_tail` when both allocations succeed and return fresh
addresses. -/
theorem q_insert_tail_spec {h : Heap} {head : Ptr} {xs : List Ptr} (hq : IsQueue h head xs)
    (s : Text) {ele buf : Ptr} (he : ele ∉ head :: xs) (he0 : ele ≠ 0) (hb0 : buf ≠ 0) :
    ∃ h', q_insert_tail h head s ele buf = (h', true) ∧ IsQueue h' head (xs ++ [ele]) ∧
      text h' ele = s ∧ (∀ p, p ≠ ele → h.value p ≠ buf → text h' p = text h p) ∧
      (∀ p, p ∉ ele :: head :: xs → Unchanged h h' p) ∧ h'.freed = h.freed := by
  have hh0 := isQueue_head_ne_zero hq
  have hq1 : IsQueue ((h.setValue ele buf).setStr buf s) head xs :=
    isQueue_frame hq (fun p _ => ⟨rfl, rfl⟩)
  obtain ⟨hq2, hfr⟩ := list_add_tail_spec hq1 he he0
  refine ⟨list_add_tail ((h.setValue ele buf).setStr buf s) ele head, ?_, hq2, ?_, ?_, ?_, ?_⟩
  · simp [q_insert_tail, hh0, he0, hb0, Heap.setValue, snprintf_whole]
  · simp [text, list_add_tail, Heap.setValue, Heap.setStr]
  · intro p hp hv
    simp [text, list_add_tail, Heap.setValue, Heap.setStr, hp, hv]
  · intro p hp
    exact unchanged_trans ⟨rfl, rfl⟩ (hfr p hp)
  · rfl

/-- Function `q_remove_head` on a non-empty queue. -/
theorem q_remove_head_spec {h : Heap} {head x : Ptr} {xs : List Ptr}
    (hq : IsQueue h head (x :: xs)) (sp : Ptr) (bufsize : Nat) (buf : Nat → Nat) :
    q_remove_head h head sp bufsize buf =
        (list_del h x, x, copy_out (text h x) sp bufsize buf) ∧
      IsQueue (list_del h x) head xs ∧
      (∀ p, p ∉ head :: xs → Unchanged h (list_del h x) p) ∧ SameData h (list_del h x) ∧
      (list_del h x).freed = h.freed := by
  have hh0 := isQueue_head_ne_zero hq
  have hne : ¬ list_empty h head := by rw [isQueue_list_empty hq]; simp
  have hn := isQueue_next_head hq
  have hx0 : x ≠ 0 := isQueue_mem_ne_zero hq (by simp)
  have hq0 : IsQueue h head ([] ++ x :: xs) := hq
  obtain ⟨hq2, hfr⟩ := list_del_spec hq0
  refine ⟨?_, hq2, hfr, ⟨rfl, rfl⟩, rfl⟩
  simp only [q_remove_head, hh0, hne, or_self, if_false, hn, hx0, copy_out]

/-- Function `q_remove_tail` on a non-empty queue. -/
theorem q_remove_tail_spec {h : Heap} {head x : Ptr} {xs : List Ptr}
    (hq : IsQueue h head (xs ++ [x])) (sp : Ptr) (bufsize : Nat) (buf : Nat → Nat) :
    q_remove_tail h head sp bufsize buf =
        (list_del h x, x, copy_out (text h x) sp bufsize buf) ∧
      IsQueue (list_del h x) head xs ∧
      (∀ p, p ∉ head :: xs → Unchanged h (list_del h x) p) ∧ SameData h (list_del h x) ∧
      (list_del h x).freed = h.freed := by
  have hh0 := isQueue_head_ne_zero hq
  have hne : ¬ list_empty h head := by rw [isQueue_list_empty hq]; simp
  have hn := isQueue_prev_head hq
  have hx0 : x ≠ 0 := isQueue_mem_ne_zero hq (by simp)
  have hq0 : IsQueue h head (xs ++ x :: []) := hq
  obtain ⟨hq2, hfr⟩ := list_del_spec hq0
  simp only [List.append_nil] at hq2 hfr
  refine ⟨?_, hq2, hfr, ⟨rfl, rfl⟩, rfl⟩
  simp only [q_remove_tail, hh0, hne, or_self, if_false, hn, hx0, copy_out]

theorem copy_out_fits (t : Text) {sp : Ptr} (hsp : sp ≠ 0) {bufsize : Nat}
    (hb : strlen t < bufsize) (hB : bufsize < SIZE_MOD) (buf : Nat → Nat) (i : Nat) :
    copy_out t sp bufsize buf i =
      if i < strlen t then t.getD i 0 else if i = strlen t then 0 else buf i := by
  have h1 : (strlen t + 1) % SIZE_MOD = strlen t + 1 := Nat.mod_eq_of_lt (by omega)
  simp only [copy_out, hsp, ne_eq, not_false_eq_true, if_true, gt_iff_lt, hb, h1, strncpy, memset]
  by_cases h2 : i < strlen t
  · simp [h2]
  · by_cases h3 : i = strlen t
    · simp [h3]
    · have : ¬ i < strlen t + 1 := by omega
      simp [h2, h3, this]

/-! ### Calls whose copy-out stays inside the buffer -/

/-- The copy-out overruns the buffer exactly when a buffer is given with
capacity 0. -/
theorem copy_overruns_iff (t : Text) (sp : Ptr) (bufsize : Nat) :
    copy_overruns t sp bufsize ↔ sp ≠ 0 ∧ bufsize = 0 := by
  unfold copy_overruns
  refine and_congr_right (fun _ => ?_)
  by_cases h1 : bufsize > strlen t
  · simp only [h1, if_true]
    have := Nat.mod_le (strlen t + 1) SIZE_MOD
    constructor
    · intro h2; omega
    · intro h2; omega
  · simp only [h1, if_false]
    rcases Nat.eq_zero_or_pos bufsize with h0 | h0
    · subst h0
      refine ⟨fun _ => rfl, fun _ => Or.inr ?_⟩
      unfold SIZE_MOD
      norm_num
    · have e : bufsize + SIZE_MOD - 1 = (bufsize - 1) + SIZE_MOD := by omega
      rw [e, Nat.add_mod_right]
      have a1 := Nat.mod_le (bufsize - 1) SIZE_MOD
      have a2 := Nat.mod_le ((bufsize - 1) % SIZE_MOD + 1) SIZE_MOD
      constructor
      · intro h2; omega
      · intro h2; omega

/-- Without a buffer, or with a capacity of at least 1, the copy-out writes at
no index from `bufsize` on. -/
theorem copy_out_within (t : Text) {sp : Ptr} {bufsize : Nat} (hcap : sp = 0 ∨ 1 ≤ bufsize)
    (buf : Nat → Nat) (i : Nat) (hi : bufsize ≤ i) : copy_out t sp bufsize buf i = buf i := by
  by_cases hsp : sp = 0
  · simp [copy_out, hsp]
  · have hb : 1 ≤ bufsize := hcap.resolve_left hsp
    simp only [copy_out, hsp, ne_eq, not_false_eq_true, if_true, strncpy, memset]
    by_cases h1 : bufsize > strlen t
    · simp only [h1, if_true]
      have := Nat.mod_le (strlen t + 1) SIZE_MOD
      rw [if_neg (by omega), if_neg (by omega)]
    · simp only [h1, if_false]
      have e : bufsize + SIZE_MOD - 1 = (bufsize - 1) + SIZE_MOD := by omega
      rw [e, Nat.add_mod_right]
      have a1 := Nat.mod_le (bufsize - 1) SIZE_MOD
      have a2 := Nat.mod_le ((bufsize - 1) % SIZE_MOD + 1) SIZE_MOD
      rw [if_neg (by omega), if_neg (by omega)]

theorem q_remove_head_within (h : Heap) (head : Ptr) {sp : Ptr} {bufsize : Nat}
    (hcap : sp = 0 ∨ 1 ≤ bufsize) (buf : Nat → Nat) (i : Nat) (hi : bufsize ≤ i) :
    (q_remove_head h head sp bufsize buf).2.2 i = buf i := by
  by_cases c1 : head = 0 ∨ list_empty h head
  · simp [q_remove_head, c1]
  · by_cases c2 : h.next head = 0
    · simp [q_remove_head, c1, c2]
    · have e : q_remove_head h head sp bufsize buf =
          (list_del h (h.next head), h.next head,
            copy_out (text h (h.next head)) sp bufsize buf) := by
        simp only [q_remove_head, c1, c2, if_false, copy_out]
      rw [e]
      exact copy_out_within _ hcap buf i hi

theorem q_remove_tail_within (h : Heap) (head : Ptr) {sp : Ptr} {bufsize : Nat}
    (hcap : sp = 0 ∨ 1 ≤ bufsize) (buf : Nat → Nat) (i : Nat) (hi : bufsize ≤ i) :
    (q_remove_tail h head sp bufsize buf).2.2 i = buf i := by
  by_cases c1 : head = 0 ∨ list_empty h head
  · simp [q_remove_tail, c1]
  · by_cases c2 : h.prev head = 0
    · simp [q_remove_tail, c1, c2]
    · have e : q_remove_tail h head sp bufsize buf =
          (list_del h (h.prev head), h.prev head,
            copy_out (text h (h.prev head)) sp bufsize buf) := by
        simp only [q_remove_tail, c1, c2, if_false, copy_out]
      rw [e]
      exact copy_out_within _ hcap buf i hi

/-! ### The order given by `strcmp` -/

theorem strcmp_self : ∀ a : Text, strcmp a a = 0
  | [] => rfl
  | x :: a => by simp [strcmp, strcmp_self a]

theorem strcmp_eq_zero : ∀ {a b : Text}, strcmp a b = 0 → a = b
  | [], [], _ => rfl
  | [], _ :: _, h => by simp [strcmp] at h
  | _ :: _, [], h => by simp [strcmp] at h
  | x :: a, y :: b, h => by
    unfold strcmp at h
    by_cases e : x = y
    · rw [if_pos e] at h
      rw [e, strcmp_eq_zero h]
    · rw [if_neg e] at h
      exfalso; apply e; omega

theorem strcmp_eq_zero_iff (a b : Text) : strcmp a b = 0 ↔ a = b :=
  ⟨strcmp_eq_zero, fun e => e ▸ strcmp_self a⟩

theorem strcmp_pos_iff : ∀ a b : Text, 0 < strcmp a b ↔ strcmp b a < 0
  | [], [] => by simp [strcmp]
  | [], _ :: _ => by simp [strcmp]
  | _ :: _, [] => by simp [strcmp]
  | x :: a, y :: b => by
    unfold strcmp
    by_cases e : x = y
    · rw [if_pos e, if_pos e.symm]; exact strcmp_pos_iff a b
    · rw [if_neg e, if_neg (Ne.symm e)]; omega

theorem strcmp_total (a b : Text) : strcmp a b ≤ 0 ∨ strcmp b a ≤ 0 := by
  by_cases h : strcmp a b ≤ 0
  · exact Or.inl h
  · right
    have := (strcmp_pos_iff a b).1 (by omega)
    omega

theorem strcmp_trans : ∀ {a b c : Text}, strcmp a b ≤ 0 → strcmp b c ≤ 0 → strcmp a c ≤ 0
  | [], _, [], _, _ => by simp [strcmp]
  | [], _, _ :: _, _, _ => by simp [strcmp]
  | _ :: _, [], _, h, _ => by simp [strcmp] at h
  | _ :: _, _ :: _, [], _, h => by simp [strcmp] at h
  | x :: a, y :: b, z :: c, h1, h2 => by
    unfold strcmp at h1 h2 ⊢
    by_cases e1 : x = y
    · by_cases e2 : y = z
      · rw [if_pos e1] at h1; rw [if_pos e2] at h2
        rw [if_pos (e1.trans e2)]; exact strcmp_trans h1 h2
      · rw [if_neg e2] at h2
        rw [if_neg (by rw [e1]; exact e2)]; omega
    · rw [if_neg e1] at h1
      by_cases e2 : y = z
      · rw [if_neg (by rw [← e2]; exact e1)]; omega
      · rw [if_neg e2] at h2
        have : ¬ x = z := by omega
        rw [if_neg this]; omega

theorem strcmp_antisymm {a b : Text} (h1 : strcmp a b ≤ 0) (h2 : strcmp b a ≤ 0) : a = b := by
  apply strcmp_eq_zero
  by_contra h
  have : strcmp a b < 0 := by omega
  have := (strcmp_pos_iff b a).2 this
  omega

theorem tle_trans (t : Ptr → Text) {a b c : Ptr} (h1 : tle t a b) (h2 : tle t b c) :
    tle t a c := strcmp_trans h1 h2

theorem tle_of_not (t : Ptr → Text) {a b : Ptr} (h : ¬ strcmp (t a) (t b) ≤ 0) : tle t b a := by
  rcases strcmp_total (t a) (t b) with h1 | h1
  · exact absurd h1 h
  · exact h1

/-! ### The element order produced by the merge sort -/

theorem mergeL_nil_right (t : Ptr → Text) : ∀ l : List Ptr, mergeL t l [] = l
  | [] => by simp [mergeL]
  | _ :: _ => by simp [mergeL]

theorem mergeL_perm (t : Ptr → Text) : ∀ l1 l2 : List Ptr, (mergeL t l1 l2).Perm (l1 ++ l2)
  | [], l2 => by simp [mergeL]
  | a :: l1, [] => by simp [mergeL]
  | a :: l1, b :: l2 => by
    unfold mergeL
    split
    · exact (mergeL_perm t l1 (b :: l2)).cons a
    · have := (mergeL_perm t (a :: l1) l2).cons b
      refine this.trans ?_
      have hm : ((a :: l1) ++ b :: l2).Perm (b :: ((a :: l1) ++ l2)) := List.perm_middle
      exact hm.symm
termination_by l1 l2 => l1.length + l2.length

theorem mem_mergeL (t : Ptr → Text) (l1 l2 : List Ptr) (x : Ptr) :
    x ∈ mergeL t l1 l2 ↔ x ∈ l1 ∨ x ∈ l2 := by
  rw [(mergeL_perm t l1 l2).mem_iff, List.mem_append]

theorem mergeL_sorted (t : Ptr → Text) : ∀ l1 l2 : List Ptr, l1.Pairwise (tle t) →
    l2.Pairwise (tle t) → (mergeL t l1 l2).Pairwise (tle t)
  | [], l2, _, h2 => by simpa [mergeL] using h2
  | a :: l1, [], h1, _ => by simpa [mergeL] using h1
  | a :: l1, b :: l2, h1, h2 => by
    unfold mergeL
    split
    · rename_i hab
      rw [List.pairwise_cons]
      refine ⟨?_, mergeL_sorted t l1 (b :: l2) (List.pairwise_cons.1 h1).2 h2⟩
      intro x hx
      rw [mem_mergeL] at hx
      rcases hx with hx | hx
      · exact (List.pairwise_cons.1 h1).1 x hx
      · rcases List.mem_cons.1 hx with rfl | hx
        · exact hab
        · exact tle_trans t hab ((List.pairwise_cons.1 h2).1 x hx)
    · rename_i hab
      have hba : tle t b a := tle_of_not t hab
      rw [List.pairwise_cons]
      refine ⟨?_, mergeL_sorted t (a :: l1) l2 h1 (List.pairwise_cons.1 h2).2⟩
      intro x hx
      rw [mem_mergeL] at hx
      rcases hx with hx | hx
      · rcases List.mem_cons.1 hx with rfl | hx
        · exact hba
        · exact tle_trans t hba ((List.pairwise_cons.1 h1).1 x hx)
      · exact (List.pairwise_cons.1 h2).1 x hx
termination_by l1 l2 => l1.length + l2.length

theorem msortL_perm (t : Ptr → Text) : ∀ (n : Nat) (l : List Ptr), l.length ≤ n →
    (msortL t l).Perm l
  | 0, l, hn => by
    rw [msortL, dif_pos (by omega)]
  | n + 1, l, hn => by
    rw [msortL]
    split
    · exact List.Perm.refl _
    · rename_i h2
      have h1 := msortL_perm t n (l.take (l.length / 2)) (by simp; omega)
      have h3 := msortL_perm t n (l.drop (l.length / 2)) (by simp; omega)
      refine (mergeL_perm t _ _).trans ?_
      exact (h1.append h3).trans (by rw [List.take_append_drop])

theorem msortL_sorted (t : Ptr → Text) : ∀ (n : Nat) (l : List Ptr), l.length ≤ n →
    (msortL t l).Pairwise (tle t)
  | 0, l, hn => by
    rw [msortL, dif_pos (by omega)]
    have : l = [] := List.length_eq_zero.1 (by omega)
    simp [this]
  | n + 1, l, hn => by
    rw [msortL]
    split
    · rename_i h2
      rcases l with _ | ⟨a, _ | ⟨b, l⟩⟩
      · simp
      · simp
      · exfalso; simp only [List.length_cons] at h2; omega
    · exact mergeL_sorted t _ _ (msortL_sorted t n _ (by simp; omega))
        (msortL_sorted t n _ (by simp; omega))

/-- Merging two sorted lists keeps, among the elements of one text, those of
the first list before those of the second. -/
theorem mergeL_filter (t : Ptr → Text) (k : Text) : ∀ l1 l2 : List Ptr,
    l1.Pairwise (tle t) → l2.Pairwise (tle t) →
    (mergeL t l1 l2).filter (fun p => t p = k) =
      l1.filter (fun p => t p = k) ++ l2.filter (fun p => t p = k)
  | [], l2, _, _ => by simp [mergeL]
  | a :: l1, [], _, _ => by simp [mergeL]
  | a :: l1, b :: l2, h1, h2 => by
    unfold mergeL
    split
    · rw [List.filter_cons, mergeL_filter t k l1 (b :: l2) (List.pairwise_cons.1 h1).2 h2]
      by_cases ha : t a = k
      · simp [ha]
      · simp [ha]
    · rename_i hab
      rw [List.filter_cons, mergeL_filter t k (a :: l1) l2 h1 (List.pairwise_cons.1 h2).2]
      by_cases hb : t b = k
      · have hnone : (a :: l1).filter (fun p => t p = k) = [] := by
          rw [List.filter_eq_nil_iff]
          intro x hx
          have hax : tle t a x := by
            rcases List.mem_cons.1 hx with rfl | hx
            · exact le_of_eq (strcmp_self _)
            · exact (List.pairwise_cons.1 h1).1 x hx
          intro hxk
          simp only [decide_eq_true_eq] at hxk
          apply hab
          have : t x = t b := hxk.trans hb.symm
          unfold tle at hax
          rw [this] at hax
          exact hax
        simp [hb, hnone]
      · simp [hb]
termination_by l1 l2 => l1.length + l2.length

theorem msortL_filter (t : Ptr → Text) (k : Text) : ∀ (n : Nat) (l : List Ptr), l.length ≤ n →
    (msortL t l).filter (fun p => t p = k) = l.filter (fun p => t p = k)
  | 0, l, hn => by
    rw [msortL, dif_pos (by omega)]
  | n + 1, l, hn => by
    rw [msortL]
    split
    · rfl
    · rw [mergeL_filter t k _ _ (msortL_sorted t n _ (by simp; omega))
          (msortL_sorted t n _ (by simp; omega)),
        msortL_filter t k n _ (by simp; omega), msortL_filter t k n _ (by simp; omega),
        ← List.filter_append, List.take_append_drop]

/-! ### Moving, splicing and cutting -/

theorem list_move_tail_spec {h : Heap} {e s x : Ptr} {pre post acc : List Ptr}
    (hq : IsQueue h e (pre ++ x :: post)) (hs : IsQueue h s acc)
    (hd : ∀ p ∈ e :: (pre ++ x :: post), p ∉ s :: acc) :
    IsQueue (list_move_tail h x s) e (pre ++ post) ∧
      IsQueue (list_move_tail h x s) s (acc ++ [x]) ∧
      (∀ p, p ∉ e :: (pre ++ x :: post) → p ∉ s :: acc →
        Unchanged h (list_move_tail h x s) p) ∧
      SameData h (list_move_tail h x s) ∧ (list_move_tail h x s).freed = h.freed := by
  obtain ⟨hq1, hfr1⟩ := list_del_spec hq
  have hxq : x ∈ e :: (pre ++ x :: post) := by simp
  have hsub : ∀ p, p ∈ e :: (pre ++ post) → p ∈ e :: (pre ++ x :: post) := by
    intro p hp; simp at hp ⊢; tauto
  have hs1 : IsQueue (list_del h x) s acc :=
    isQueue_frame hs (fun p hp => hfr1 p (fun hp2 => hd p (hsub p hp2) hp))
  have hx0 : x ≠ 0 := isQueue_mem_ne_zero hq (by simp)
  obtain ⟨hs2, hfr2⟩ := list_add_tail_spec hs1 (hd x hxq) hx0
  have hxn : x ∉ e :: (pre ++ post) := by
    have := hq.1
    have e1 : (e :: (pre ++ x :: post)).Perm (x :: e :: (pre ++ post)) := by
      refine (List.Perm.cons e List.perm_middle).trans (List.Perm.swap _ _ _)
    exact (List.nodup_cons.1 (e1.nodup_iff.1 this)).1
  refine ⟨?_, hs2, ?_, ⟨rfl, rfl⟩, rfl⟩
  · refine isQueue_frame hq1 (fun p hp => hfr2 p ?_)
    intro hp2
    rcases List.mem_cons.1 hp2 with rfl | hp3
    · exact hxn hp
    · exact hd p (hsub p hp) hp3
  · intro p hp1 hp2
    refine unchanged_trans (hfr1 p (fun hp3 => hp1 (hsub p hp3))) (hfr2 p ?_)
    intro hp3
    rcases List.mem_cons.1 hp3 with rfl | hp4
    · exact hp1 hxq
    · exact hp2 hp4

theorem isQueue_linked_elems {h : Heap} {head : Ptr} {xs : List Ptr} (hq : IsQueue h head xs) :
    Linked h xs := by
  have hl := hq.2.2
  cases xs with
  | nil => exact linked_nil h
  | cons x xs =>
    have e : head :: (x :: xs) ++ [head] = [head] ++ x :: (xs ++ [head]) := by simp
    rw [e, linked_split] at hl
    have hl2 := hl.2
    obtain ⟨P, u, hP⟩ := cons_eq_snoc x xs
    have e2 : x :: (xs ++ [head]) = P ++ u :: [head] := by
      have : x :: (xs ++ [head]) = (x :: xs) ++ [head] := by simp
      rw [this, hP]; simp
    rw [e2, linked_split] at hl2
    rw [hP]; exact hl2.1

theorem list_splice_tail_spec {h : Heap} {list head : Ptr} {ys xs : List Ptr}
    (hl : IsQueue h list ys) (hh : IsQueue h head xs)
    (hd : ∀ p ∈ list :: ys, p ∉ head :: xs) :
    IsQueue (list_splice_tail h list head) head (xs ++ ys) ∧
      (∀ p, p ∉ ys → p ∉ head :: xs → Unchanged h (list_splice_tail h list head) p) ∧
      SameData h (list_splice_tail h list head) ∧
      (list_splice_tail h list head).freed = h.freed := by
  by_cases hy : ys = []
  · subst hy
    have : list_splice_tail h list head = h := by
      simp [list_splice_tail, (isQueue_list_empty hl).2 rfl]
    rw [this]
    exact ⟨by simpa using hh, fun p _ _ => unchanged_refl _ _, sameData_refl _, rfl⟩
  · have hne : ¬ list_empty h list := by rw [isQueue_list_empty hl]; exact hy
    obtain ⟨f, ys', rfl⟩ := List.exists_cons_of_ne_nil hy
    obtain ⟨Y, l, hY⟩ := cons_eq_snoc f ys'
    obtain ⟨P, u, hP⟩ := cons_eq_snoc head xs
    have hnext : h.next list = f := isQueue_next_head hl
    have hprevl : h.prev list = l := by
      rw [hY] at hl; exact isQueue_prev_head hl
    have hprevh : h.prev head = u := by
      have := hh.2.2
      have e : head :: xs ++ [head] = P ++ u :: [head] := by rw [hP]; simp
      rw [e, linked_split, linked_cons_cons] at this
      exact this.2.1.2
    have hlinkP : Linked h (P ++ [u]) := by
      have := hh.2.2
      have e : head :: xs ++ [head] = P ++ u :: [head] := by rw [hP]; simp
      rw [e, linked_split] at this
      exact this.1
    have hlinkY : Linked h (f :: ys') := isQueue_linked_elems hl
    have hup : u ∈ head :: xs := by rw [hP]; simp
    have hlp : l ∈ f :: ys' := by rw [hY]; simp
    have huP : u ∉ P := by
      intro hx
      have := hh.1
      rw [hP] at this
      exact (List.nodup_append.1 this).2.2 hx (by simp)
    have hlY : l ∉ Y := by
      intro hx
      have := (List.nodup_cons.1 hl.1).2
      rw [hY] at this
      exact (List.nodup_append.1 this).2.2 hx (by simp)
    have hfy : f ∉ ys' := (List.nodup_cons.1 (List.nodup_cons.1 hl.1).2).1
    have hdy : ∀ p ∈ f :: ys', p ∉ head :: xs := fun p hp => hd p (List.mem_cons_of_mem _ hp)
    have hheady : head ∉ f :: ys' := fun hx => hdy head hx (by simp)
    have huy : u ∉ f :: ys' := fun hx => hdy u hx hup
    have hlu : l ≠ u := fun e => huy (e ▸ hlp)
    have hfh : f ≠ head := fun e => hheady (e ▸ List.mem_cons_self _ _)
    have hlh : l ≠ head := fun e => hheady (e ▸ hlp)
    have hhx : head ∉ xs := (List.nodup_cons.1 hh.1).1
    have hPsub : ∀ p ∈ P, p ∈ head :: xs := by intro p hp; rw [hP]; simp [hp]
    have hform : list_splice_tail h list head =
        (((h.setPrev head l).setNext l head).setPrev f u).setNext u f := by
      simp only [list_splice_tail, if_neg hne, hnext, hprevl, hprevh]
    rw [hform]
    refine ⟨⟨?_, ?_, ?_⟩, ?_, ⟨rfl, rfl⟩, rfl⟩
    · have e : head :: (xs ++ f :: ys') = (head :: xs) ++ (f :: ys') := by simp
      rw [e, List.nodup_append]
      refine ⟨hh.1, (List.nodup_cons.1 hl.1).2, ?_⟩
      intro a ha hb
      exact hdy a hb ha
    · intro hz
      have : (0 : Ptr) ∈ head :: xs ∨ (0 : Ptr) ∈ list :: f :: ys' := by
        simp at hz ⊢; tauto
      rcases this with a | a
      · exact hh.2.1 a
      · exact hl.2.1 a
    · have e : head :: (xs ++ f :: ys') ++ [head] = P ++ u :: (Y ++ l :: [head]) := by
        have : head :: (xs ++ f :: ys') ++ [head] = (head :: xs) ++ ((f :: ys') ++ [head]) := by
          simp
        rw [this, hP, hY]; simp
      have e2 : u :: (Y ++ l :: [head]) = u :: f :: (ys' ++ [head]) := by
        have : Y ++ l :: [head] = (Y ++ [l]) ++ [head] := by simp
        rw [this, ← hY]; simp
      rw [e, linked_split, e2, linked_cons_cons]
      have e3 : f :: (ys' ++ [head]) = Y ++ l :: [head] := by
        have : f :: (ys' ++ [head]) = (f :: ys') ++ [head] := by simp
        rw [this, hY]; simp
      rw [e3, linked_split _ Y l [head], linked_cons_cons]
      refine ⟨linked_frame hlinkP ?_ ?_, ⟨?_, ?_⟩, ?_, ⟨?_, ?_⟩, linked_single _ _⟩
      · intro p hp
        rw [List.dropLast_concat] at hp
        have h1 : p ≠ u := ne_of_mem_of_not_mem hp huP
        have h2 : p ≠ l := fun e => hdy l hlp (e ▸ hPsub p hp)
        simp [h1, h2]
      · intro q hq
        have hq' : q ∈ xs := by rw [← hP] at hq; exact hq
        have h1 : q ≠ head := ne_of_mem_of_not_mem hq' hhx
        have h2 : q ≠ f := fun e => hdy f (by simp) (e ▸ List.mem_cons_of_mem _ hq')
        simp [h1, h2]
      · simp
      · simp
      · rw [← hY]
        refine linked_frame hlinkY ?_ ?_
        · intro p hp
          rw [hY, List.dropLast_concat] at hp
          have h1 : p ≠ l := ne_of_mem_of_not_mem hp hlY
          have h2 : p ≠ u := by
            intro e; apply huy; rw [hY, ← e]; simp [hp]
          simp [h1, h2]
        · intro q hq
          simp at hq
          have h1 : q ≠ f := ne_of_mem_of_not_mem hq hfy
          have h2 : q ≠ head := fun e => hheady (e ▸ List.mem_cons_of_mem _ hq)
          simp [h1, h2]
      · simp [hlu]
      · simp [Ne.symm hfh]
    · intro p hp1 hp2
      have h1 : p ≠ head := by rintro rfl; exact hp2 (by simp)
      have h2 : p ≠ l := by rintro rfl; exact hp1 hlp
      have h3 : p ≠ f := by rintro rfl; exact hp1 (by simp)
      have h4 : p ≠ u := by rintro rfl; exact hp2 hup
      simp [Unchanged, h1, h2, h3, h4]

theorem list_cut_position_spec {h : Heap} {dst from_ node : Ptr} {pre post : List Ptr}
    (hq : IsQueue h from_ (pre ++ node :: post)) (hto : dst ∉ from_ :: (pre ++ node :: post))
    (hto0 : dst ≠ 0) :
    IsQueue (list_cut_position h dst from_ node) dst (pre ++ [node]) ∧
      IsQueue (list_cut_position h dst from_ node) from_ post ∧
      (∀ p, p ∉ dst :: from_ :: (pre ++ node :: post) →
        Unchanged h (list_cut_position h dst from_ node) p) ∧
      SameData h (list_cut_position h dst from_ node) ∧
      (list_cut_position h dst from_ node).freed = h.freed := by
  have hnd := hq.1
  have hnd' : (from_ :: ([] ++ (pre ++ [node]) ++ post)).Nodup := by simpa using hnd
  obtain ⟨P, u, w, S, hP, hS, hpath, -, -, hdrop, -, hws, -, hwS, -, -, -, hSsub, hmid⟩ :=
    queue_ends hnd'
  obtain ⟨rfl, rfl⟩ : [] = P ∧ from_ = u := by
    cases P with
    | nil => simpa using hP
    | cons a P => simp at hP
  obtain ⟨first, T, hT⟩ := snoc_eq_cons pre node
  have hne : ¬ list_empty h from_ := by rw [isQueue_list_empty hq]; simp
  have hfn : from_ ≠ node := (isQueue_mem_ne_head hq (by simp)).symm
  have hl := hq.2.2
  have hpath' : from_ :: (pre ++ node :: post) ++ [from_] = from_ :: (pre ++ node :: w :: S) := by
    have : from_ :: (pre ++ node :: post) ++ [from_] = from_ :: (pre ++ node :: (post ++ [from_])) := by
      simp
    rw [this, hS]
  rw [hpath'] at hl
  have hl1 : Linked h (from_ :: first :: T) ∧ Linked h (node :: w :: S) := by
    have e : from_ :: (pre ++ node :: w :: S) = (from_ :: pre) ++ node :: w :: S := by simp
    rw [e, linked_split] at hl
    refine ⟨?_, hl.2⟩
    have : from_ :: pre ++ [node] = from_ :: first :: T := by simp [← hT]
    rw [← this]; exact hl.1
  rw [linked_cons_cons] at hl1
  rw [linked_cons_cons h node] at hl1
  obtain ⟨⟨⟨hff, _⟩, hlT⟩, ⟨hnw, _⟩, hlS⟩ := hl1
  have hnode := hmid node (by simp)
  have hfirst_mem : first ∈ pre ++ [node] := by rw [hT]; simp
  have hfirst := hmid first hfirst_mem
  have hmidnd : (pre ++ [node]).Nodup := by
    have := (List.nodup_cons.1 hnd).2
    have e : pre ++ node :: post = (pre ++ [node]) ++ post := by simp
    rw [e] at this
    exact (List.nodup_append.1 this).1
  have hfT : first ∉ T := by rw [hT] at hmidnd; exact (List.nodup_cons.1 hmidnd).1
  have hnpre : node ∉ pre := by
    intro hx
    exact (List.nodup_append.1 hmidnd).2.2 hx (by simp)
  have hto_mid : ∀ m ∈ pre ++ [node], m ≠ dst := by
    intro m hm e; apply hto; rw [← e]; simp at hm ⊢; tauto
  have hto_post : ∀ m ∈ post ++ [from_], m ≠ dst := by
    intro m hm e; apply hto; rw [← e]; simp at hm ⊢; tauto
  have htf : dst ≠ from_ := fun e => hto (by simp [e])
  have htn : dst ≠ node := fun e => hto (by simp [e])
  have hwn : w ≠ node := fun e => hnode.2 (e ▸ hws)
  have hwfirst : w ≠ first := fun e => hfirst.2 (e ▸ hws)
  have hwto : w ≠ dst := hto_post w hws
  have hfto : first ≠ dst := hto_mid first hfirst_mem
  have hffrom : first ≠ from_ := fun e => hfirst.1 (by simp [e])
  have hform : list_cut_position h dst from_ node =
      (((((h.setNext from_ w).setPrev w from_).setPrev dst node).setNext node dst).setNext
        dst first).setPrev first dst := by
    simp [list_cut_position, hne, hfn, hnw, hff, htn, htf, Ne.symm htn, Ne.symm htf]
  rw [hform]
  refine ⟨⟨?_, ?_, ?_⟩, ⟨?_, ?_, ?_⟩, ?_, ⟨rfl, rfl⟩, rfl⟩
  · rw [List.nodup_cons]
    exact ⟨fun hx => hto_mid dst hx rfl, hmidnd⟩
  · intro hz
    rcases List.mem_cons.1 hz with a | a
    · exact hto0 a.symm
    · apply hq.2.1
      simp at a ⊢; tauto
  · have e : dst :: (pre ++ [node]) ++ [dst] = (dst :: pre) ++ node :: [dst] := by simp
    have e2 : dst :: pre ++ [node] = dst :: first :: T := by simp [← hT]
    rw [e, linked_split, e2, linked_cons_cons, linked_cons_cons]
    refine ⟨⟨⟨?_, ?_⟩, linked_frame hlT ?_ ?_⟩, ⟨?_, ?_⟩, linked_single _ _⟩
    · simp
    · simp
    · intro p hp
      rw [← hT, List.dropLast_concat] at hp
      have h1 : p ≠ from_ := fun e => hnode.1 (by
        have := hmid p (by simp [hp]); exact absurd (by simp [e]) this.1)
      have h2 : p ≠ node := ne_of_mem_of_not_mem hp hnpre
      have h3 : p ≠ dst := hto_mid p (by simp [hp])
      simp [h1, h2, h3]
    · intro q hq'
      simp at hq'
      have hq2 : q ∈ pre ++ [node] := by rw [hT]; exact List.mem_cons_of_mem _ hq'
      have h1 : q ≠ w := fun e => (hmid q hq2).2 (e ▸ hws)
      have h2 : q ≠ dst := hto_mid q hq2
      have h3 : q ≠ first := ne_of_mem_of_not_mem hq' hfT
      simp [h1, h2, h3]
    · simp [Ne.symm htn]
    · simp [Ne.symm hfto]
  · have := (List.nodup_cons.1 hnd).2
    have e : pre ++ node :: post = (pre ++ [node]) ++ post := by simp
    rw [e] at this
    rw [List.nodup_cons]
    refine ⟨?_, (List.nodup_append.1 this).2.1⟩
    intro hx
    exact (List.nodup_cons.1 hnd).1 (by simp [hx])
  · intro hz
    apply hq.2.1
    simp at hz ⊢; tauto
  · have e : from_ :: post ++ [from_] = from_ :: w :: S := by simp [← hS]
    rw [e, linked_cons_cons]
    refine ⟨⟨?_, ?_⟩, linked_frame hlS ?_ ?_⟩
    · simp [hfn, Ne.symm htf]
    · simp [hwto, hwfirst]
    · intro p hp
      rw [hdrop] at hp
      have hp2 : p ∈ post ++ [from_] := by simp [hp]
      have h1 : p ≠ from_ := by
        rintro rfl
        exact (List.nodup_cons.1 hnd).1 (by simp [hp])
      have h2 : p ≠ node := fun e => hnode.2 (e ▸ hp2)
      have h3 : p ≠ dst := hto_post p hp2
      simp [h1, h2, h3]
    · intro q hq'
      simp at hq'
      have hq2 : q ∈ post ++ [from_] := hSsub q hq'
      have h1 : q ≠ w := ne_of_mem_of_not_mem hq' hwS
      have h2 : q ≠ dst := hto_post q hq2
      have h3 : q ≠ first := fun e => hfirst.2 (e ▸ hq2)
      simp [h1, h2, h3]
  · intro p hp
    have h1 : p ≠ dst := by rintro rfl; exact hp (by simp)
    have h2 : p ≠ from_ := by rintro rfl; exact hp (by simp)
    have h3 : p ≠ node := by rintro rfl; exact hp (by simp)
    have h4 : p ≠ w := by
      rintro rfl; apply hp
      simp at hws ⊢; tauto
    have h5 : p ≠ first := by
      rintro rfl; apply hp
      simp at hfirst_mem ⊢; tauto
    simp [Unchanged, h1, h2, h3, h4, h5]

/-! ### `list_merge` -/

theorem list_merge_loop_succ (e1 e2 s : Ptr) (fuel : Nat) (h : Heap) :
    list_merge_loop e1 e2 s (fuel + 1) h =
      if ¬ list_empty h e1 ∧ ¬ list_empty h e2 then
        list_merge_loop e1 e2 s fuel (list_move_tail h
          (if strcmp (text h (h.next e1)) (text h (h.next e2)) ≤ 0 then h.next e1
            else h.next e2) s)
      else some h := rfl

theorem list_merge_loop_spec (e1 e2 s : Ptr) (t : Ptr → Text) : ∀ (n : Nat)
    (l1 l2 acc : List Ptr) (hc : Heap) (fuel : Nat), l1.length + l2.length ≤ n →
    IsQueue hc e1 l1 → IsQueue hc e2 l2 → IsQueue hc s acc →
    ((e1 :: l1) ++ (e2 :: l2) ++ (s :: acc)).Nodup → text hc = t →
    l1.length + l2.length < fuel →
    ∃ h' r1 r2 out, list_merge_loop e1 e2 s fuel hc = some h' ∧
      IsQueue h' e1 r1 ∧ IsQueue h' e2 r2 ∧ IsQueue h' s out ∧ (r1 = [] ∨ r2 = []) ∧
      out ++ (r1 ++ r2) = acc ++ mergeL t l1 l2 ∧
      ((e1 :: r1) ++ (e2 :: r2) ++ (s :: out)).Nodup ∧
      (∀ p, p ∉ (e1 :: l1) ++ (e2 :: l2) ++ (s :: acc) → Unchanged hc h' p) ∧
      SameData hc h' ∧ h'.freed = hc.freed := by
  intro n
  induction n with
  | zero =>
    intro l1 l2 acc hc fuel hn h1 h2 hs hnd ht hf
    have e1' : l1 = [] := List.length_eq_zero.1 (by omega)
    have e2' : l2 = [] := List.length_eq_zero.1 (by omega)
    subst e1' e2'
    obtain ⟨fuel, rfl⟩ : ∃ k, fuel = k + 1 := ⟨fuel - 1, by omega⟩
    rw [list_merge_loop_succ, if_neg (by simp [(isQueue_list_empty h1).2 rfl])]
    exact ⟨hc, [], [], acc, rfl, h1, h2, hs, Or.inl rfl, by simp [mergeL], hnd,
      fun p _ => unchanged_refl _ _, sameData_refl _, rfl⟩
  | succ n ih =>
    intro l1 l2 acc hc fuel hn h1 h2 hs hnd ht hf
    obtain ⟨fuel, rfl⟩ : ∃ k, fuel = k + 1 := ⟨fuel - 1, by omega⟩
    rw [list_merge_loop_succ]
    rcases l1 with _ | ⟨a, l1⟩
    · rw [if_neg (by simp [(isQueue_list_empty h1).2 rfl])]
      exact ⟨hc, [], l2, acc, rfl, h1, h2, hs, Or.inl rfl, by simp [mergeL], hnd,
        fun p _ => unchanged_refl _ _, sameData_refl _, rfl⟩
    rcases l2 with _ | ⟨b, l2⟩
    · rw [if_neg (by simp [(isQueue_list_empty h2).2 rfl])]
      exact ⟨hc, a :: l1, [], acc, rfl, h1, h2, hs, Or.inr rfl, by simp [mergeL], hnd,
        fun p _ => unchanged_refl _ _, sameData_refl _, rfl⟩
    have hne1 : ¬ list_empty hc e1 := by rw [isQueue_list_empty h1]; simp
    have hne2 : ¬ list_empty hc e2 := by rw [isQueue_list_empty h2]; simp
    rw [if_pos ⟨hne1, hne2⟩, isQueue_next_head h1, isQueue_next_head h2, ht]
    by_cases hab : strcmp (t a) (t b) ≤ 0
    · rw [if_pos hab]
      have hd1 : ∀ p ∈ e1 :: ([] ++ a :: l1), p ∉ s :: acc := by
        intro p hp hp2
        rw [List.nodup_append] at hnd
        exact hnd.2.2 (List.mem_append_left _ (by simpa using hp)) hp2
      have h1' : IsQueue hc e1 ([] ++ a :: l1) := h1
      obtain ⟨hq1, hq2, hfr, hsd, hfreed⟩ := list_move_tail_spec h1' hs hd1
      have hq3 : IsQueue (list_move_tail hc a s) e2 (b :: l2) := by
        refine isQueue_frame h2 (fun p hp => hfr p ?_ ?_)
        · intro hp2
          rw [List.append_assoc, List.nodup_append] at hnd
          exact hnd.2.2 (by simpa using hp2) (List.mem_append_left _ hp)
        · intro hp2
          rw [List.nodup_append] at hnd
          exact hnd.2.2 (List.mem_append_right _ hp) hp2
      have hperm : ((e1 :: l1) ++ (e2 :: b :: l2) ++ (s :: (acc ++ [a]))).Perm
          ((e1 :: a :: l1) ++ (e2 :: b :: l2) ++ (s :: acc)) := by
        rw [List.perm_iff_count]
        intro x
        simp only [List.count_append, List.count_cons, List.count_nil]
        omega
      obtain ⟨h', r1, r2, out, e, g1, g2, g3, g4, g5, g6, g7, g8, g9⟩ :=
        ih l1 (b :: l2) (acc ++ [a]) (list_move_tail hc a s) fuel (by simp at hn ⊢; omega)
          hq1 hq3 hq2 (hperm.nodup_iff.2 hnd) ((sameData_text hsd).trans ht)
          (by simp at hf ⊢; omega)
      refine ⟨h', r1, r2, out, e, g1, g2, g3, g4, ?_, g6, ?_, sameData_trans hsd g8,
        g9.trans hfreed⟩
      · rw [g5]
        conv_rhs => rw [mergeL, if_pos hab]
        simp
      · intro p hp
        refine unchanged_trans (hfr p ?_ ?_) (g7 p ?_)
        · intro hp2; exact hp (List.mem_append_left _ (List.mem_append_left _ hp2))
        · intro hp2; exact hp (List.mem_append_right _ hp2)
        · intro hp2; apply hp; exact (hperm.mem_iff).1 hp2
    · rw [if_neg hab]
      have hd1 : ∀ p ∈ e2 :: ([] ++ b :: l2), p ∉ s :: acc := by
        intro p hp hp2
        rw [List.nodup_append] at hnd
        exact hnd.2.2 (List.mem_append_right _ (by simpa using hp)) hp2
      have h2' : IsQueue hc e2 ([] ++ b :: l2) := h2
      obtain ⟨hq1, hq2, hfr, hsd, hfreed⟩ := list_move_tail_spec h2' hs hd1
      have hq3 : IsQueue (list_move_tail hc b s) e1 (a :: l1) := by
        refine isQueue_frame h1 (fun p hp => hfr p ?_ ?_)
        · intro hp2
          have hp3 : p ∈ e2 :: b :: l2 := by simpa using hp2
          exact (List.nodup_append.1 (List.nodup_append.1 hnd).1).2.2 hp hp3
        · intro hp2
          rw [List.nodup_append] at hnd
          exact hnd.2.2 (List.mem_append_left _ hp) hp2
      have hperm : ((e1 :: a :: l1) ++ (e2 :: l2) ++ (s :: (acc ++ [b]))).Perm
          ((e1 :: a :: l1) ++ (e2 :: b :: l2) ++ (s :: acc)) := by
        rw [List.perm_iff_count]
        intro x
        simp only [List.count_append, List.count_cons, List.count_nil]
        omega
      obtain ⟨h', r1, r2, out, e, g1, g2, g3, g4, g5, g6, g7, g8, g9⟩ :=
        ih (a :: l1) l2 (acc ++ [b]) (list_move_tail hc b s) fuel (by simp at hn ⊢; omega)
          hq3 hq1 hq2 (hperm.nodup_iff.2 hnd) ((sameData_text hsd).trans ht)
          (by simp at hf ⊢; omega)
      refine ⟨h', r1, r2, out, e, g1, g2, g3, g4, ?_, g6, ?_, sameData_trans hsd g8,
        g9.trans hfreed⟩
      · rw [g5]
        conv_rhs => rw [mergeL, if_neg hab]
        simp
      · intro p hp
        refine unchanged_trans (hfr p ?_ ?_) (g7 p ?_)
        · intro hp2; exact hp (List.mem_append_left _ (List.mem_append_right _ hp2))
        · intro hp2; exact hp (List.mem_append_right _ hp2)
        · intro hp2; apply hp; exact (hperm.mem_iff).1 hp2

/-- Function `list_merge` on two queues and an output queue, all disjoint. -/
theorem list_merge_spec {e1 e2 s : Ptr} {l1 l2 acc : List Ptr} {hc : Heap} {fuel : Nat}
    (h1 : IsQueue hc e1 l1) (h2 : IsQueue hc e2 l2) (hs : IsQueue hc s acc)
    (hnd : ((e1 :: l1) ++ (e2 :: l2) ++ (s :: acc)).Nodup)
    (hf : l1.length + l2.length < fuel) :
    ∃ h', list_merge fuel hc e1 e2 s = some h' ∧
      IsQueue h' s (acc ++ mergeL (text hc) l1 l2) ∧
      (∀ p, p ∉ (e1 :: l1) ++ (e2 :: l2) ++ (s :: acc) → Unchanged hc h' p) ∧
      SameData hc h' ∧ h'.freed = hc.freed := by
  obtain ⟨h', r1, r2, out, e, g1, g2, g3, g4, g5, g6, g7, g8, g9⟩ :=
    list_merge_loop_spec e1 e2 s (text hc) _ l1 l2 acc hc fuel (le_refl _) h1 h2 hs hnd rfl hf
  have hmem : ∀ p, p ∈ out ++ (r1 ++ r2) → p ∈ acc ++ (l1 ++ l2) := by
    intro p hp
    rw [g5] at hp
    simp only [List.mem_append, mem_mergeL] at hp ⊢
    exact hp
  unfold list_merge
  rw [e]
  dsimp only
  by_cases hr1 : r1 = []
  · subst hr1
    rw [if_pos ((isQueue_list_empty g1).2 rfl)]
    have hd : ∀ p ∈ e2 :: r2, p ∉ s :: out := by
      intro p hp hp2
      rw [List.nodup_append] at g6
      exact g6.2.2 (List.mem_append_right _ hp) hp2
    obtain ⟨k1, k2, k3, k4⟩ := list_splice_tail_spec g2 g3 hd
    refine ⟨_, rfl, ?_, ?_, sameData_trans g8 k3, k4.trans g9⟩
    · rw [← g5]; simpa using k1
    · intro p hp
      refine unchanged_trans (g7 p hp) (k2 p ?_ ?_)
      · intro hp2
        have := hmem p (by simp [hp2])
        apply hp; simp at this ⊢; tauto
      · intro hp2
        rcases List.mem_cons.1 hp2 with rfl | hp3
        · apply hp; simp
        · have := hmem p (by simp [hp3])
          apply hp; simp at this ⊢; tauto
  · have hr2 : r2 = [] := by
      rcases g4 with a | a
      · exact absurd a hr1
      · exact a
    subst hr2
    rw [if_neg (by rw [isQueue_list_empty g1]; exact hr1)]
    have hd : ∀ p ∈ e1 :: r1, p ∉ s :: out := by
      intro p hp hp2
      rw [List.nodup_append] at g6
      exact g6.2.2 (List.mem_append_left _ hp) hp2
    obtain ⟨k1, k2, k3, k4⟩ := list_splice_tail_spec g1 g3 hd
    refine ⟨_, rfl, ?_, ?_, sameData_trans g8 k3, k4.trans g9⟩
    · rw [← g5]; simpa using k1
    · intro p hp
      refine unchanged_trans (g7 p hp) (k2 p ?_ ?_)
      · intro hp2
        have := hmem p (by simp [hp2])
        apply hp; simp at this ⊢; tauto
      · intro hp2
        rcases List.mem_cons.1 hp2 with rfl | hp3
        · apply hp; simp
        · have := hmem p (by simp [hp3])
          apply hp; simp at this ⊢; tauto

/-! ### `list_merge_sort` -/

theorem isQueue_list_is_singular {h : Heap} {head : Ptr} {xs : List Ptr}
    (hq : IsQueue h head xs) : list_is_singular h head ↔ xs.length = 1 := by
  unfold list_is_singular
  rw [isQueue_list_empty hq]
  rcases xs with _ | ⟨a, xs⟩
  · simp
  · obtain ⟨P, u, hP⟩ := cons_eq_snoc a xs
    have hprev : h.prev head = u := by rw [hP] at hq; exact isQueue_prev_head hq
    rw [isQueue_next_head hq, hprev]
    constructor
    · rintro ⟨_, e⟩
      have hnd := (List.nodup_cons.1 hq.1).2
      rcases P with _ | ⟨c, P⟩
      · have : xs = [] := by
          have := hP; simp at this; exact this.2
        simp [this]
      · exfalso
        have hxs : xs = P ++ [u] := by
          have := hP; simp at this; exact this.2
        rw [hxs, e] at hnd
        simp at hnd
    · intro hlen
      have : xs = [] := List.length_eq_zero.1 (by simpa using hlen)
      subst this
      refine ⟨by simp, ?_⟩
      rcases P with _ | ⟨c, P⟩
      · simpa using hP.symm
      · have := congrArg List.length hP
        simp at this

theorem msortL_small (t : Ptr → Text) {l : List Ptr} (h : l.length < 2) : msortL t l = l := by
  rw [msortL, dif_pos h]

theorem msortL_big (t : Ptr → Text) {l : List Ptr} (h : ¬ l.length < 2) :
    msortL t l =
      mergeL t (msortL t (l.take (l.length / 2))) (msortL t (l.drop (l.length / 2))) := by
  rw [msortL, dif_neg h]

theorem msortL_perm' (t : Ptr → Text) (l : List Ptr) : (msortL t l).Perm l :=
  msortL_perm t l.length l (le_refl _)

theorem mem_msortL (t : Ptr → Text) (l : List Ptr) (x : Ptr) : x ∈ msortL t l ↔ x ∈ l :=
  (msortL_perm' t l).mem_iff

theorem length_msortL (t : Ptr → Text) (l : List Ptr) : (msortL t l).length = l.length :=
  (msortL_perm' t l).length_eq

/-- The cut of `list_merge_sort`: with `m = n / 2 ≥ 1`, the node before the one
`indir` designates is the element of index `m - 1`. -/
theorem take_snoc_getD (xs : List Ptr) (m : Nat) (h1 : 1 ≤ m) (h2 : m ≤ xs.length) :
    xs.take (m - 1) ++ [xs.getD (m - 1) 0] = xs.take m ∧
      xs = xs.take (m - 1) ++ xs.getD (m - 1) 0 :: xs.drop m := by
  have hlt : m - 1 < xs.length := by omega
  have e := take_drop_getD xs (m - 1) hlt
  have hm : m - 1 + 1 = m := by omega
  rw [hm] at e
  refine ⟨?_, e⟩
  have := congrArg (List.take m) e
  rw [List.take_append_eq_append_take, List.take_take] at this
  rw [this]
  have hl : (List.take (m - 1) xs).length = m - 1 := by simp; omega
  simp [hl]
  have : m - (m - 1) = 1 := by omega
  rw [this]
  simp

theorem list_merge_sort_succ (fuel : Nat) (h : Heap) (entry sp : Ptr) :
    list_merge_sort (fuel + 1) h entry sp =
      if list_empty h entry ∨ list_is_singular h entry then some h
      else
        match find_mid (INIT_LIST_HEAD (INIT_LIST_HEAD h sp) (sp + 1)) entry (fuel + 1) entry
            ((INIT_LIST_HEAD (INIT_LIST_HEAD h sp) (sp + 1)).next entry) with
        | none => none
        | some indir =>
          match list_merge_sort fuel
              (list_cut_position (INIT_LIST_HEAD (INIT_LIST_HEAD h sp) (sp + 1)) sp entry
                ((INIT_LIST_HEAD (INIT_LIST_HEAD h sp) (sp + 1)).prev
                  ((INIT_LIST_HEAD (INIT_LIST_HEAD h sp) (sp + 1)).next indir)))
              sp (sp + 2) with
          | none => none
          | some h =>
            match list_merge_sort fuel h entry (sp + 2) with
            | none => none
            | some h =>
              match list_merge (fuel + 1) h sp entry (sp + 1) with
              | none => none
              | some h => some (list_splice_tail (INIT_LIST_HEAD h entry) (sp + 1) entry) := rfl

/-- Function `list_merge_sort` sorts the queue at `entry`, touching besides its
nodes only stack addresses from `sp` on. -/
theorem list_merge_sort_spec : ∀ (fuel : Nat) (h : Heap) (entry sp : Ptr) (xs : List Ptr),
    IsQueue h entry xs → (∀ p ∈ entry :: xs, p < sp) → xs.length < fuel →
    ∃ h', list_merge_sort fuel h entry sp = some h' ∧
      IsQueue h' entry (msortL (text h) xs) ∧
      (∀ p, p ∉ entry :: xs → p < sp → Unchanged h h' p) ∧
      SameData h h' ∧ h'.freed = h.freed
  | 0, _, _, _, _, _, _, hf => by omega
  | fuel + 1, h, entry, sp, xs, hq, hsp, hf => by
    rw [list_merge_sort_succ]
    by_cases hsmall : xs.length < 2
    · have hc : list_empty h entry ∨ list_is_singular h entry := by
        rw [isQueue_list_empty hq, isQueue_list_is_singular hq]
        rcases xs with _ | ⟨a, _ | ⟨b, xs⟩⟩
        · simp
        · simp
        · simp only [List.length_cons] at hsmall; omega
      rw [if_pos hc, msortL_small _ hsmall]
      exact ⟨h, rfl, hq, fun p _ _ => unchanged_refl _ _, sameData_refl _, rfl⟩
    · have hc : ¬ (list_empty h entry ∨ list_is_singular h entry) := by
        rw [isQueue_list_empty hq, isQueue_list_is_singular hq]
        rintro (a | a)
        · subst a; simp at hsmall
        · omega
      rw [if_neg hc]
      have hm1 : 1 ≤ xs.length / 2 := by omega
      have hm2 : xs.length / 2 < xs.length := by omega
      have hsp0 : sp ≠ 0 := by
        have := hsp entry (by simp); unfold Ptr at *; omega
      have hsp1 : sp + 1 ≠ 0 := by unfold Ptr at *; omega
      have hspn : sp ∉ entry :: xs := fun hx => by
        have := hsp sp hx; unfold Ptr at *; omega
      have hspn1 : sp + 1 ∉ entry :: xs := fun hx => by
        have := hsp _ hx; unfold Ptr at *; omega
      -- the two local list heads
      obtain ⟨h2, hh2⟩ : ∃ h2, h2 = INIT_LIST_HEAD (INIT_LIST_HEAD h sp) (sp + 1) := ⟨_, rfl⟩
      rw [← hh2]
      have hu2 : ∀ p, p ≠ sp → p ≠ sp + 1 → Unchanged h h2 p := by
        intro p h1 h2'
        rw [hh2]
        exact unchanged_trans (INIT_LIST_HEAD_unchanged h sp p h1)
          (INIT_LIST_HEAD_unchanged _ (sp + 1) p h2')
      have hd2 : SameData h h2 := by rw [hh2]; exact ⟨rfl, rfl⟩
      have hf2 : h2.freed = h.freed := by rw [hh2]; rfl
      have hq2 : IsQueue h2 entry xs :=
        isQueue_frame hq (fun p hp => hu2 p (fun e => hspn (e ▸ hp)) (fun e => hspn1 (e ▸ hp)))
      have hs2 : IsQueue h2 (sp + 1) [] := by
        rw [hh2]; exact INIT_LIST_HEAD_spec _ hsp1
      -- the middle
      have hfind := find_mid_start hq2 (show xs.length / 2 < fuel + 1 by omega)
      rw [hfind]
      dsimp only
      have hdel : h2.next ((entry :: xs ++ [entry]).getD (xs.length / 2) 0) =
          xs.getD (xs.length / 2) 0 := by
        rw [isQueue_next_getD hq2 _ (by omega), path_getD_succ _ _ _ hm2]
      have hnode : h2.prev (xs.getD (xs.length / 2) 0) = xs.getD (xs.length / 2 - 1) 0 := by
        rw [← path_getD_succ entry _ _ hm2, isQueue_prev_getD hq2 _ (by omega)]
        obtain ⟨k, hk⟩ : ∃ k, xs.length / 2 = k + 1 := ⟨xs.length / 2 - 1, by omega⟩
        rw [hk, path_getD_succ _ _ _ (by omega)]
        simp
      rw [hdel, hnode]
      obtain ⟨htk, hxs⟩ := take_snoc_getD xs (xs.length / 2) hm1 (by omega)
      have hto : sp ∉ entry :: (xs.take (xs.length / 2 - 1) ++
          xs.getD (xs.length / 2 - 1) 0 :: xs.drop (xs.length / 2)) := by
        rw [← hxs]; exact hspn
      have hq2' := hq2
      rw [hxs] at hq2'
      obtain ⟨c1, c2, c3, c4, c5⟩ := list_cut_position_spec hq2' hto hsp0
      rw [← hxs] at c3
      rw [htk] at c1
      obtain ⟨h3, hh3⟩ : ∃ h3, h3 = list_cut_position h2 sp entry
          (xs.getD (xs.length / 2 - 1) 0) := ⟨_, rfl⟩
      rw [← hh3] at c1 c2 c3 c4 c5 ⊢
      have hs3 : IsQueue h3 (sp + 1) [] := by
        refine isQueue_frame hs2 (fun p hp => c3 p ?_)
        have : p = sp + 1 := by simpa using hp
        subst this
        intro hx
        rcases List.mem_cons.1 hx with a | a
        · unfold Ptr at *; omega
        · exact hspn1 a
      -- facts on the two halves
      have hxnd : xs.Nodup := (List.nodup_cons.1 hq.1).2
      have hex : entry ∉ xs := (List.nodup_cons.1 hq.1).1
      have htd : ∀ p, p ∈ xs.take (xs.length / 2) → p ∉ xs.drop (xs.length / 2) := by
        intro p hp hp2
        have := hxnd
        rw [← List.take_append_drop (xs.length / 2) xs] at this
        exact (List.nodup_append.1 this).2.2 hp hp2
      have htx : ∀ p, p ∈ xs.take (xs.length / 2) → p ∈ xs := fun p hp => List.mem_of_mem_take hp
      have hdx : ∀ p, p ∈ xs.drop (xs.length / 2) → p ∈ xs := fun p hp => List.mem_of_mem_drop hp
      have hxlt : ∀ p, p ∈ xs → p < sp := fun p hp => hsp p (List.mem_cons_of_mem _ hp)
      have helt : entry < sp := hsp entry (List.mem_cons_self _ _)
      have hd3 : SameData h h3 := sameData_trans hd2 c4
      -- left half
      obtain ⟨h4, e4, d1, d2, d3, d4⟩ := list_merge_sort_spec fuel h3 sp (sp + 2)
        (xs.take (xs.length / 2)) c1
        (by
          intro p hp
          rcases List.mem_cons.1 hp with a | a
          · unfold Ptr at *; omega
          · have := hxlt p (htx p a); unfold Ptr at *; omega)
        (by rw [List.length_take]; omega)
      rw [e4]
      dsimp only
      rw [sameData_text hd3] at d1
      have hq4 : IsQueue h4 entry (xs.drop (xs.length / 2)) := by
        refine isQueue_frame c2 (fun p hp => d2 p ?_ ?_)
        · intro hx
          rcases List.mem_cons.1 hx with a | a
          · rcases List.mem_cons.1 hp with b | b
            · unfold Ptr at *; omega
            · have := hxlt p (hdx p b); unfold Ptr at *; omega
          · rcases List.mem_cons.1 hp with b | b
            · exact hex (b ▸ htx p a)
            · exact htd p a b
        · rcases List.mem_cons.1 hp with b | b
          · unfold Ptr at *; omega
          · have := hxlt p (hdx p b); unfold Ptr at *; omega
      have hs4 : IsQueue h4 (sp + 1) [] := by
        refine isQueue_frame hs3 (fun p hp => d2 p ?_ ?_)
        · have : p = sp + 1 := by simpa using hp
          subst this
          intro hx
          rcases List.mem_cons.1 hx with a | a
          · unfold Ptr at *; omega
          · have := hxlt _ (htx _ a); unfold Ptr at *; omega
        · have : p = sp + 1 := by simpa using hp
          unfold Ptr at *; omega
      have hd4 : SameData h h4 := sameData_trans hd3 d3
      -- right half
      obtain ⟨h5, e5, f1, f2, f3, f4⟩ := list_merge_sort_spec fuel h4 entry (sp + 2)
        (xs.drop (xs.length / 2)) hq4
        (by
          intro p hp
          rcases List.mem_cons.1 hp with a | a
          · unfold Ptr at *; omega
          · have := hxlt p (hdx p a); unfold Ptr at *; omega)
        (by rw [List.length_drop]; omega)
      rw [e5]
      dsimp only
      rw [sameData_text hd4] at f1
      have hl5 : IsQueue h5 sp (msortL (text h) (xs.take (xs.length / 2))) := by
        refine isQueue_frame d1 (fun p hp => f2 p ?_ ?_)
        · intro hx
          rcases List.mem_cons.1 hp with b | b
          · rcases List.mem_cons.1 hx with a | a
            · unfold Ptr at *; omega
            · have := hxlt p (hdx p a); unfold Ptr at *; omega
          · rw [mem_msortL] at b
            rcases List.mem_cons.1 hx with a | a
            · exact hex (a ▸ htx p b)
            · exact htd p b a
        · rcases List.mem_cons.1 hp with b | b
          · unfold Ptr at *; omega
          · rw [mem_msortL] at b
            have := hxlt p (htx p b); unfold Ptr at *; omega
      have hs5 : IsQueue h5 (sp + 1) [] := by
        refine isQueue_frame hs4 (fun p hp => f2 p ?_ ?_)
        · have : p = sp + 1 := by simpa using hp
          subst this
          intro hx
          rcases List.mem_cons.1 hx with a | a
          · unfold Ptr at *; omega
          · have := hxlt _ (hdx _ a); unfold Ptr at *; omega
        · have : p = sp + 1 := by simpa using hp
          unfold Ptr at *; omega
      have hd5 : SameData h h5 := sameData_trans hd4 f3
      -- merge
      have hnd : ((sp :: msortL (text h) (xs.take (xs.length / 2))) ++
          (entry :: msortL (text h) (xs.drop (xs.length / 2))) ++ [sp + 1]).Nodup := by
        rw [List.nodup_append, List.nodup_append]
        refine ⟨⟨hl5.1, f1.1, ?_⟩, List.nodup_singleton _, ?_⟩
        · intro p hp hx
          rcases List.mem_cons.1 hp with b | b
          · rcases List.mem_cons.1 hx with a | a
            · unfold Ptr at *; omega
            · rw [mem_msortL] at a
              have := hxlt p (hdx p a); unfold Ptr at *; omega
          · rw [mem_msortL] at b
            rcases List.mem_cons.1 hx with a | a
            · exact hex (a ▸ htx p b)
            · rw [mem_msortL] at a; exact htd p b a
        · intro p hp hx
          have : p = sp + 1 := by simpa using hx
          subst this
          rcases List.mem_append.1 hp with b | b
          · rcases List.mem_cons.1 b with a | a
            · unfold Ptr at *; omega
            · rw [mem_msortL] at a
              have := hxlt _ (htx _ a); unfold Ptr at *; omega
          · rcases List.mem_cons.1 b with a | a
            · unfold Ptr at *; omega
            · rw [mem_msortL] at a
              have := hxlt _ (hdx _ a); unfold Ptr at *; omega
      obtain ⟨h6, e6, g1, g2, g3, g4⟩ := list_merge_spec hl5 f1 hs5 hnd
        (show _ < fuel + 1 by
          rw [length_msortL, length_msortL, List.length_take, List.length_drop]; omega)
      rw [e6]
      dsimp only
      rw [sameData_text hd5, List.nil_append, ← msortL_big _ hsmall] at g1
      have hd6 : SameData h h6 := sameData_trans hd5 g3
      have he0 : entry ≠ 0 := isQueue_head_ne_zero hq
      have hq7 : IsQueue (INIT_LIST_HEAD h6 entry) entry [] := INIT_LIST_HEAD_spec _ he0
      have hMe : ∀ p ∈ (sp + 1) :: msortL (text h) xs, p ≠ entry := by
        intro p hp e
        subst e
        rcases List.mem_cons.1 hp with a | a
        · unfold Ptr at *; omega
        · rw [mem_msortL] at a; exact hex a
      have hs7 : IsQueue (INIT_LIST_HEAD h6 entry) (sp + 1) (msortL (text h) xs) :=
        isQueue_frame g1 (fun p hp => INIT_LIST_HEAD_unchanged _ _ _ (hMe p hp))
      obtain ⟨k1, k2, k3, k4⟩ := list_splice_tail_spec hs7 hq7
        (fun p hp hx => hMe p hp (by simpa using hx))
      refine ⟨_, rfl, by simpa using k1, ?_, ?_, ?_⟩
      · intro p hp hlt
        have hpe : p ≠ entry := fun e => hp (by simp [e])
        have hpx : p ∉ xs := fun hx => hp (List.mem_cons_of_mem _ hx)
        have hps : p ≠ sp := by unfold Ptr at *; omega
        have hps1 : p ≠ sp + 1 := by unfold Ptr at *; omega
        have hlt2 : p < sp + 2 := by unfold Ptr at *; omega
        have s1 := hu2 p hps hps1
        have s2 := c3 p (by
          intro hx
          rcases List.mem_cons.1 hx with a | a
          · exact hps a
          · exact hp a)
        have s3 := d2 p (by
          intro hx
          rcases List.mem_cons.1 hx with a | a
          · exact hps a
          · exact hpx (htx p a)) hlt2
        have s4 := f2 p (by
          intro hx
          rcases List.mem_cons.1 hx with a | a
          · exact hpe a
          · exact hpx (hdx p a)) hlt2
        have s5 := g2 p (by
          intro hx
          rcases List.mem_append.1 hx with a | a
          · rcases List.mem_append.1 a with b | b
            · rcases List.mem_cons.1 b with c | c
              · exact hps c
              · rw [mem_msortL] at c; exact hpx (htx p c)
            · rcases List.mem_cons.1 b with c | c
              · exact hpe c
              · rw [mem_msortL] at c; exact hpx (hdx p c)
          · exact hps1 (by simpa using a))
        have s6 := INIT_LIST_HEAD_unchanged h6 entry p hpe
        have s7 := k2 p (by rw [mem_msortL]; exact hpx) (by simpa using hpe)
        exact unchanged_trans (unchanged_trans (unchanged_trans (unchanged_trans
          (unchanged_trans (unchanged_trans s1 s2) s3) s4) s5) s6) s7
      · exact sameData_trans hd6 (sameData_trans (INIT_LIST_HEAD_sameData _ _) k3)
      · rw [k4]
        show h6.freed = h.freed
        rw [g4, f4, d4, c5, hf2]

/-- Function `q_sort` sorts the queue at `head` by the merge sort. -/
theorem q_sort_spec {h : Heap} {head sp : Ptr} {xs : List Ptr} {fuel : Nat}
    (hq : IsQueue h head xs) (hsp : ∀ p ∈ head :: xs, p < sp) (hf : xs.length < fuel) :
    ∃ h', q_sort fuel h head sp = some h' ∧
      IsQueue h' head (msortL (text h) xs) ∧
      (∀ p, p ∉ head :: xs → p < sp → Unchanged h h' p) ∧
      SameData h h' ∧ h'.freed = h.freed := by
  unfold q_sort
  by_cases hsmall : xs.length < 2
  · have hc : head = 0 ∨ list_empty h head ∨ list_is_singular h head := by
      right
      rw [isQueue_list_empty hq, isQueue_list_is_singular hq]
      rcases xs with _ | ⟨a, _ | ⟨b, xs⟩⟩
      · simp
      · simp
      · simp only [List.length_cons] at hsmall; omega
    rw [if_pos hc, msortL_small _ hsmall]
    exact ⟨h, rfl, hq, fun p _ _ => unchanged_refl _ _, sameData_refl _, rfl⟩
  · have hc : ¬ (head = 0 ∨ list_empty h head ∨ list_is_singular h head) := by
      rw [isQueue_list_empty hq, isQueue_list_is_singular hq]
      rintro (a | a | a)
      · exact isQueue_head_ne_zero hq a
      · subst a; simp at hsmall
      · omega
    rw [if_neg hc]
    exact list_merge_sort_spec fuel h head sp xs hq hsp hf

/-! ### `q_delete_dup` -/

theorem delete_dup_loop_succ (head tmp : Ptr) (fuel : Nat) (h : Heap) (cur : Ptr) :
    delete_dup_loop head tmp (fuel + 1) h cur =
      if cur = head then some h
      else if h.next cur ≠ head ∧ strcmp (text h cur) (text h (h.next cur)) = 0 then
        delete_dup_loop head tmp fuel (list_move_tail h (h.next cur) tmp) cur
      else if ¬ list_empty h tmp ∧ strcmp (text h (h.prev tmp)) (text h cur) = 0 then
        delete_dup_loop head tmp fuel (list_move_tail h cur tmp) (h.next cur)
      else delete_dup_loop head tmp fuel h (h.next cur) := rfl

theorem tmp_matches_iff {hc : Heap} {tmp : Ptr} {ts : List Ptr} (hs : IsQueue hc tmp ts)
    (c : Ptr) :
    (¬ list_empty hc tmp ∧ strcmp (text hc (hc.prev tmp)) (text hc c) = 0) ↔
      tmp_matches (text hc) ts.getLast? c := by
  rcases List.eq_nil_or_concat ts with rfl | ⟨ts', l, hts⟩
  · simp [tmp_matches, (isQueue_list_empty hs).2 rfl]
  rw [List.concat_eq_append] at hts
  subst hts
  · have hne : ¬ list_empty hc tmp := by rw [isQueue_list_empty hs]; simp
    rw [isQueue_prev_head hs]
    simp [tmp_matches, hne]

theorem isQueue_next_mid {h : Heap} {head c : Ptr} {done rest : List Ptr}
    (hq : IsQueue h head (done ++ c :: rest)) :
    h.next c = (rest ++ [head]).head (by simp) := by
  rcases rest with _ | ⟨n, rest⟩
  · have hq' : IsQueue h head (done ++ [c]) := hq
    exact isQueue_next_of_last_nil hq' (show head :: (done ++ [c]) = (head :: done) ++ [c] by simp)
  · have hq' : IsQueue h head ((done ++ [c]) ++ n :: rest) := by simpa using hq
    exact isQueue_next_of_last hq'
      (show head :: (done ++ [c]) = (head :: done) ++ [c] by simp)

theorem delete_dup_loop_spec (head tmp : Ptr) (t : Ptr → Text) : ∀ (rest done : List Ptr)
    (c : Ptr) (ts : List Ptr) (hc : Heap) (fuel : Nat),
    IsQueue hc head (done ++ c :: rest) → IsQueue hc tmp ts →
    ((head :: (done ++ c :: rest)) ++ (tmp :: ts)).Nodup → text hc = t →
    rest.length + 1 < fuel →
    ∃ h' ts', delete_dup_loop head tmp fuel hc c = some h' ∧
      IsQueue h' head (done ++ dedup_from t ts.getLast? c rest) ∧ IsQueue h' tmp ts' ∧
      ((done ++ dedup_from t ts.getLast? c rest) ++ ts').Perm ((done ++ c :: rest) ++ ts) ∧
      (∀ p, p ∉ (head :: (done ++ c :: rest)) ++ (tmp :: ts) → Unchanged hc h' p) ∧
      SameData hc h' ∧ h'.freed = hc.freed
  | [], done, c, ts, hc, fuel, hq, hs, hnd, ht, hf => by
    obtain ⟨f, rfl⟩ : ∃ f, fuel = f + 1 + 1 := ⟨fuel - 2, by simp at hf; omega⟩
    have hch : c ≠ head := isQueue_mem_ne_head hq (by simp)
    have hnext : hc.next c = head := by simpa using isQueue_next_mid hq
    subst ht
    have hmi := tmp_matches_iff hs c
    rw [delete_dup_loop_succ, if_neg hch, hnext, if_neg (by simp)]
    by_cases hm : tmp_matches (text hc) ts.getLast? c
    · rw [if_pos (hmi.2 hm), delete_dup_loop_succ, if_pos rfl]
      have hd : ∀ p ∈ head :: (done ++ c :: []), p ∉ tmp :: ts := by
        intro p hp hp2
        exact (List.nodup_append.1 hnd).2.2 hp hp2
      obtain ⟨a1, a2, a3, a4, a5⟩ := list_move_tail_spec hq hs hd
      refine ⟨_, ts ++ [c], rfl, ?_, a2, ?_, ?_, a4, a5⟩
      · simpa [dedup_from, hm] using a1
      · simp only [dedup_from, if_pos hm]
        rw [List.perm_iff_count]
        intro x
        simp only [List.count_append, List.count_cons, List.count_nil]
        omega
      · intro p hp
        exact a3 p (fun hx => hp (List.mem_append_left _ hx))
          (fun hx => hp (List.mem_append_right _ hx))
    · rw [if_neg (fun hx => hm (hmi.1 hx)), delete_dup_loop_succ, if_pos rfl]
      refine ⟨hc, ts, rfl, ?_, hs, ?_, fun p _ => unchanged_refl _ _, sameData_refl _, rfl⟩
      · simpa [dedup_from, hm] using hq
      · simp [dedup_from, hm]
  | n :: rest, done, c, ts, hc, fuel, hq, hs, hnd, ht, hf => by
    obtain ⟨f, rfl⟩ : ∃ f, fuel = f + 1 := ⟨fuel - 1, by simp at hf; omega⟩
    have hch : c ≠ head := isQueue_mem_ne_head hq (by simp)
    have hnh : n ≠ head := isQueue_mem_ne_head hq (by simp)
    have hnext : hc.next c = n := by simpa using isQueue_next_mid hq
    subst ht
    have hmi := tmp_matches_iff hs c
    rw [delete_dup_loop_succ, if_neg hch, hnext]
    by_cases h1 : strcmp (text hc c) (text hc n) = 0
    · rw [if_pos ⟨hnh, h1⟩]
      have hq' : IsQueue hc head ((done ++ [c]) ++ n :: rest) := by simpa using hq
      have hd : ∀ p ∈ head :: ((done ++ [c]) ++ n :: rest), p ∉ tmp :: ts := by
        intro p hp hp2
        exact (List.nodup_append.1 hnd).2.2 (by simpa using hp) hp2
      obtain ⟨a1, a2, a3, a4, a5⟩ := list_move_tail_spec hq' hs hd
      have a1' : IsQueue (list_move_tail hc n tmp) head (done ++ c :: rest) := by
        simpa using a1
      have hperm : ((head :: (done ++ c :: rest)) ++ (tmp :: (ts ++ [n]))).Perm
          ((head :: (done ++ c :: n :: rest)) ++ (tmp :: ts)) := by
        rw [List.perm_iff_count]
        intro x
        simp only [List.count_append, List.count_cons, List.count_nil]
        omega
      have hnd' := hperm.nodup_iff.2 hnd
      obtain ⟨h', ts', b1, b2, b3, b4, b5, b6, b7⟩ :=
        delete_dup_loop_spec head tmp _ rest done c (ts ++ [n]) _ f a1' a2 hnd'
          (sameData_text a4) (by simp at hf ⊢; omega)
      have hlast : (ts ++ [n]).getLast? = some n := by simp
      rw [hlast] at b2 b4
      refine ⟨h', ts', b1, ?_, b3, ?_, ?_, sameData_trans a4 b6, b7.trans a5⟩
      · simpa [dedup_from, h1] using b2
      · simp only [dedup_from, if_pos h1]
        refine b4.trans ?_
        rw [List.perm_iff_count]
        intro x
        simp only [List.count_append, List.count_cons, List.count_nil]
        omega
      · intro p hp
        refine unchanged_trans (a3 p ?_ ?_) (b5 p ?_)
        · intro hx; apply hp; exact List.mem_append_left _ (by simpa using hx)
        · intro hx; exact hp (List.mem_append_right _ hx)
        · intro hx; exact hp (hperm.mem_iff.1 hx)
    · rw [if_neg (fun hx => h1 hx.2)]
      by_cases hm : tmp_matches (text hc) ts.getLast? c
      · rw [if_pos (hmi.2 hm)]
        have hd : ∀ p ∈ head :: (done ++ c :: n :: rest), p ∉ tmp :: ts := by
          intro p hp hp2
          exact (List.nodup_append.1 hnd).2.2 hp hp2
        obtain ⟨a1, a2, a3, a4, a5⟩ := list_move_tail_spec hq hs hd
        have hperm : ((head :: (done ++ n :: rest)) ++ (tmp :: (ts ++ [c]))).Perm
            ((head :: (done ++ c :: n :: rest)) ++ (tmp :: ts)) := by
          rw [List.perm_iff_count]
          intro x
          simp only [List.count_append, List.count_cons, List.count_nil]
          omega
        have hnd' := hperm.nodup_iff.2 hnd
        obtain ⟨h', ts', b1, b2, b3, b4, b5, b6, b7⟩ :=
          delete_dup_loop_spec head tmp _ rest done n (ts ++ [c]) _ f a1 a2 hnd'
            (sameData_text a4) (by simp at hf ⊢; omega)
        have hlast : (ts ++ [c]).getLast? = some c := by simp
        rw [hlast] at b2 b4
        refine ⟨h', ts', b1, ?_, b3, ?_, ?_, sameData_trans a4 b6, b7.trans a5⟩
        · simpa [dedup_from, h1, hm] using b2
        · simp only [dedup_from, if_neg h1, if_pos hm]
          refine b4.trans ?_
          rw [List.perm_iff_count]
          intro x
          simp only [List.count_append, List.count_cons, List.count_nil]
          omega
        · intro p hp
          refine unchanged_trans (a3 p ?_ ?_) (b5 p ?_)
          · intro hx; exact hp (List.mem_append_left _ hx)
          · intro hx; exact hp (List.mem_append_right _ hx)
          · intro hx; exact hp (hperm.mem_iff.1 hx)
      · rw [if_neg (fun hx => hm (hmi.1 hx))]
        have hq' : IsQueue hc head ((done ++ [c]) ++ n :: rest) := by simpa using hq
        have hnd' : ((head :: ((done ++ [c]) ++ n :: rest)) ++ (tmp :: ts)).Nodup := by
          simpa using hnd
        obtain ⟨h', ts', b1, b2, b3, b4, b5, b6, b7⟩ :=
          delete_dup_loop_spec head tmp _ rest (done ++ [c]) n ts hc f hq' hs hnd' rfl
            (by simp at hf ⊢; omega)
        refine ⟨h', ts', b1, ?_, b3, ?_, ?_, b6, b7⟩
        · simpa [dedup_from, h1, hm] using b2
        · simp only [dedup_from, if_neg h1, if_neg hm]
          simpa using b4
        · intro p hp
          exact b5 p (by simpa using hp)

theorem free_entries_succ (head : Ptr) (fuel : Nat) (h : Heap) (ele safe : Ptr) :
    free_entries head (fuel + 1) h ele safe =
      if ele = head then some h
      else free_entries head fuel (((list_del h ele).free ((list_del h ele).value ele)).free ele)
        safe ((((list_del h ele).free ((list_del h ele).value ele)).free ele).next safe) := rfl

/-- The loop that unlinks and frees every element of the list at `tmp`. -/
theorem free_entries_spec (tmp : Ptr) : ∀ (ts : List Ptr) (hc : Heap) (fuel : Nat),
    IsQueue hc tmp ts → ts.length < fuel →
    ∃ h', free_entries tmp fuel hc ((ts ++ [tmp]).head (by simp))
        (hc.next ((ts ++ [tmp]).head (by simp))) = some h' ∧
      IsQueue h' tmp [] ∧ (∀ p, p ∉ tmp :: ts → Unchanged hc h' p) ∧ SameData hc h' ∧
      (∀ p, p ∈ ts ∨ p ∈ hc.freed → p ∈ h'.freed)
  | [], hc, fuel, hs, hf => by
    obtain ⟨f, rfl⟩ : ∃ f, fuel = f + 1 := ⟨fuel - 1, by simp at hf; omega⟩
    simp only [List.nil_append, List.head_cons]
    rw [free_entries_succ, if_pos rfl]
    exact ⟨hc, rfl, hs, fun p _ => unchanged_refl _ _, sameData_refl _, by simp⟩
  | e :: ts, hc, fuel, hs, hf => by
    obtain ⟨f, rfl⟩ : ∃ f, fuel = f + 1 := ⟨fuel - 1, by simp at hf; omega⟩
    have het : e ≠ tmp := isQueue_mem_ne_head hs (by simp)
    have hs0 : IsQueue hc tmp ([] ++ e :: ts) := hs
    have hnext : hc.next e = (ts ++ [tmp]).head (by simp) := isQueue_next_mid hs0
    obtain ⟨a1, a2⟩ := list_del_spec hs0
    simp only [List.nil_append] at a1 a2
    have a1' : IsQueue (((list_del hc e).free ((list_del hc e).value e)).free e) tmp ts :=
      isQueue_frame a1 (fun p _ => ⟨rfl, rfl⟩)
    obtain ⟨h', b1, b2, b3, b4, b5⟩ := free_entries_spec tmp ts _ f a1' (by simp at hf; omega)
    simp only [List.cons_append, List.head_cons]
    rw [free_entries_succ, if_neg het, hnext]
    refine ⟨h', b1, b2, ?_, ?_, ?_⟩
    · intro p hp
      refine unchanged_trans (unchanged_trans (a2 p ?_) ⟨rfl, rfl⟩) (b3 p ?_)
      · intro hx; apply hp; simp at hx ⊢; tauto
      · intro hx; apply hp; simp at hx ⊢; tauto
    · exact sameData_trans ⟨rfl, rfl⟩ b4
    · intro p hp
      apply b5 p
      rcases hp with hp | hp
      · rcases List.mem_cons.1 hp with rfl | hp
        · right; simp [Heap.free]
        · left; exact hp
      · right; simp [Heap.free, list_del, hp]

theorem dedupL_single (t : Ptr → Text) (c : Ptr) : dedupL t [c] = [c] := by
  simp [dedupL, dedup_from, tmp_matches]

/-- Function `q_delete_dup` on any queue, sorted or not: the elements kept are
those given by `dedupL`; `tmp` is a fresh address for the local list. -/
theorem q_delete_dup_spec {h : Heap} {head tmp : Ptr} {xs : List Ptr} {fuel : Nat}
    (hq : IsQueue h head xs) (htmp : tmp ∉ head :: xs) (htmp0 : tmp ≠ 0)
    (hf : xs.length < fuel) :
    ∃ h', q_delete_dup fuel h head tmp = some (h', true) ∧
      IsQueue h' head (dedupL (text h) xs) ∧
      (∀ p, p ∉ tmp :: head :: xs → Unchanged h h' p) ∧ SameData h h' ∧
      (∀ p, p ∈ xs → p ∉ dedupL (text h) xs → p ∈ h'.freed) := by
  have hh0 := isQueue_head_ne_zero hq
  unfold q_delete_dup
  rw [if_neg hh0]
  by_cases hsmall : xs.length < 2
  · have hc : list_empty h head ∨ list_is_singular h head := by
      rw [isQueue_list_empty hq, isQueue_list_is_singular hq]
      rcases xs with _ | ⟨a, _ | ⟨b, xs⟩⟩
      · simp
      · simp
      · simp only [List.length_cons] at hsmall; omega
    rw [if_pos hc]
    have : dedupL (text h) xs = xs := by
      rcases xs with _ | ⟨a, _ | ⟨b, xs⟩⟩
      · rfl
      · exact dedupL_single _ _
      · simp only [List.length_cons] at hsmall; omega
    rw [this]
    exact ⟨h, rfl, hq, fun p _ => unchanged_refl _ _, sameData_refl _,
      fun p hp hn => absurd hp hn⟩
  · have hc : ¬ (list_empty h head ∨ list_is_singular h head) := by
      rw [isQueue_list_empty hq, isQueue_list_is_singular hq]
      rintro (a | a)
      · subst a; simp at hsmall
      · omega
    rw [if_neg hc]
    obtain ⟨c, rest, rfl⟩ : ∃ c rest, xs = c :: rest := by
      rcases xs with _ | ⟨c, rest⟩
      · simp at hsmall
      · exact ⟨c, rest, rfl⟩
    dsimp only
    rw [isQueue_next_head hq]
    have hq1 : IsQueue (INIT_LIST_HEAD h tmp) head ([] ++ c :: rest) :=
      isQueue_frame hq (fun p hp => INIT_LIST_HEAD_unchanged _ _ _ (fun e => htmp (e ▸ hp)))
    have hs1 : IsQueue (INIT_LIST_HEAD h tmp) tmp [] := INIT_LIST_HEAD_spec _ htmp0
    have hnd : ((head :: ([] ++ c :: rest)) ++ [tmp]).Nodup := by
      rw [List.nodup_append]
      refine ⟨hq.1, List.nodup_singleton _, ?_⟩
      intro p hp hx
      have : p = tmp := by simpa using hx
      exact htmp (this ▸ hp)
    obtain ⟨h2, ts, b1, b2, b3, b4, b5, b6, b7⟩ := delete_dup_loop_spec head tmp
      (text (INIT_LIST_HEAD h tmp)) rest [] c [] _ fuel hq1 hs1 hnd rfl (by simp at hf ⊢; omega)
    simp only [List.nil_append, List.getLast?_nil, List.append_nil] at b2 b4 b5
    have htxt : text (INIT_LIST_HEAD h tmp) = text h := rfl
    rw [htxt] at b2 b4
    rw [b1]
    dsimp only
    have hKnd : (dedup_from (text h) none c rest ++ ts).Nodup :=
      b4.nodup_iff.2 (List.nodup_cons.1 hq.1).2
    have htsx : ∀ p, p ∈ ts → p ∈ c :: rest := fun p hp =>
      b4.mem_iff.1 (List.mem_append_right _ hp)
    have hKx : ∀ p, p ∈ dedup_from (text h) none c rest → p ∈ c :: rest := fun p hp =>
      b4.mem_iff.1 (List.mem_append_left _ hp)
    have hlen : ts.length < fuel := by
      have := b4.length_eq
      simp at this hf
      omega
    obtain ⟨h3, d1, d2, d3, d4, d5⟩ := free_entries_spec tmp ts h2 fuel b3 hlen
    have hfirst : h2.next tmp = (ts ++ [tmp]).head (by simp) := by
      rcases ts with _ | ⟨e, ts⟩
      · simpa using ((isQueue_nil_iff h2 tmp).1 b3).2.1
      · simpa using isQueue_next_head b3
    rw [hfirst, d1]
    refine ⟨h3, rfl, ?_, ?_, sameData_trans (INIT_LIST_HEAD_sameData h tmp)
      (sameData_trans b6 d4), ?_⟩
    · refine isQueue_frame b2 (fun p hp => d3 p ?_)
      intro hx
      rcases List.mem_cons.1 hx with a | a
      · rcases List.mem_cons.1 hp with b | b
        · exact htmp (by rw [← a, b]; simp)
        · exact htmp (a ▸ List.mem_cons_of_mem _ (hKx p b))
      · rcases List.mem_cons.1 hp with b | b
        · exact (List.nodup_cons.1 hq.1).1 (b ▸ htsx p a)
        · exact (List.nodup_append.1 hKnd).2.2 b a
    · intro p hp
      have hpt : p ≠ tmp := fun e => hp (by simp [e])
      refine unchanged_trans (INIT_LIST_HEAD_unchanged h tmp p hpt)
        (unchanged_trans (b5 p ?_) (d3 p ?_))
      · intro hx
        rcases List.mem_append.1 hx with a | a
        · exact hp (List.mem_cons_of_mem _ a)
        · exact hpt (by simpa using a)
      · intro hx
        rcases List.mem_cons.1 hx with a | a
        · exact hpt a
        · exact hp (List.mem_cons_of_mem _ (List.mem_cons_of_mem _ (htsx p a)))
    · intro p hp hn
      apply d5 p
      left
      have := b4.mem_iff.2 hp
      rcases List.mem_append.1 this with a | a
      · exact absurd a hn
      · exact a

/-! ### What `q_delete_dup` keeps on a sorted queue -/

theorem occ_nil (t : Ptr → Text) (p : Ptr) : occ t [] p = 0 := rfl

theorem occ_cons (t : Ptr → Text) (a : Ptr) (ctx : List Ptr) (p : Ptr) :
    occ t (a :: ctx) p = occ t ctx p + if t a = t p then 1 else 0 := by
  simp [occ, List.countP_cons]

theorem occ_append (t : Ptr → Text) (l1 l2 : List Ptr) (p : Ptr) :
    occ t (l1 ++ l2) p = occ t l1 p + occ t l2 p := by
  simp [occ, List.countP_append]

theorem occ_eq_zero (t : Ptr → Text) (ctx : List Ptr) (p : Ptr)
    (h : ∀ q ∈ ctx, t q ≠ t p) : occ t ctx p = 0 := by
  unfold occ
  rw [List.countP_eq_zero]
  intro q hq
  simpa using h q hq

theorem occ_pos (t : Ptr → Text) (ctx : List Ptr) (p q : Ptr) (hq : q ∈ ctx)
    (h : t q = t p) : 0 < occ t ctx p := by
  unfold occ
  rw [List.countP_pos_iff]
  exact ⟨q, hq, by simpa using h⟩

theorem tmp_matches_some (t : Ptr → Text) (l c : Ptr) :
    tmp_matches t (some l) c ↔ t l = t c := by
  simp [tmp_matches, strcmp_eq_zero_iff]

/-- In a sorted list an element after a strictly larger step has a different
text than the element before the step. -/
theorem text_ne_of_step (t : Ptr → Text) {c n p : Ptr} (hcn : tle t c n) (hnp : tle t n p)
    (hne : t c ≠ t n) : t p ≠ t c := by
  intro e
  apply hne
  unfold tle at hcn hnp
  rw [e] at hnp
  exact strcmp_antisymm hcn hnp

theorem tle_refl (t : Ptr → Text) (a : Ptr) : tle t a a := le_of_eq (strcmp_self _)

theorem dedup_from_sorted (t : Ptr → Text) : ∀ (rest : List Ptr) (last : Option Ptr) (c : Ptr),
    (last.toList ++ c :: rest).Pairwise (tle t) →
    dedup_from t last c rest =
      (c :: rest).filter (fun p => decide (occ t (last.toList ++ c :: rest) p = 1))
  | [], last, c, hs => by
    unfold dedup_from
    cases last with
    | none =>
      simp [tmp_matches, occ_cons, occ_nil]
    | some l =>
      by_cases e : t l = t c
      · simp [tmp_matches_some, e, occ_cons, occ_nil]
      · simp [tmp_matches_some, e, occ_cons, occ_nil]
  | n :: rest, last, c, hs => by
    have hs2 : (c :: n :: rest).Pairwise (tle t) := (List.pairwise_append.1 hs).2.1
    have hcn : tle t c n := (List.pairwise_cons.1 hs2).1 n (by simp)
    have hcr : ∀ p ∈ rest, tle t c p := fun p hp =>
      (List.pairwise_cons.1 hs2).1 p (List.mem_cons_of_mem _ hp)
    have hs3 : (n :: rest).Pairwise (tle t) := (List.pairwise_cons.1 hs2).2
    have hnr : ∀ p ∈ rest, tle t n p := fun p hp => (List.pairwise_cons.1 hs3).1 p hp
    have hnr' : ∀ p ∈ n :: rest, tle t n p := by
      intro p hp
      rcases List.mem_cons.1 hp with rfl | hp
      · exact tle_refl t _
      · exact hnr p hp
    unfold dedup_from
    by_cases h1 : strcmp (t c) (t n) = 0
    · have e1 : t c = t n := strcmp_eq_zero h1
      rw [if_pos h1]
      have hs' : ((some n).toList ++ c :: rest).Pairwise (tle t) := by
        simp only [Option.toList_some, List.singleton_append, List.pairwise_cons]
        refine ⟨?_, hcr, (List.pairwise_cons.1 hs3).2⟩
        intro p hp
        rcases List.mem_cons.1 hp with rfl | hp
        · exact le_of_eq ((strcmp_eq_zero_iff _ _).2 e1.symm)
        · exact hnr p hp
      rw [dedup_from_sorted t rest (some n) c hs']
      have hc1 : occ t ((some n).toList ++ c :: rest) c ≠ 1 := by
        simp only [Option.toList_some, List.singleton_append, occ_cons, e1, if_true]
        omega
      have hc2 : occ t (last.toList ++ c :: n :: rest) c ≠ 1 := by
        simp only [occ_append, occ_cons, e1, if_true]
        omega
      have hn2 : occ t (last.toList ++ c :: n :: rest) n ≠ 1 := by
        simp only [occ_append, occ_cons, e1, if_true]
        omega
      rw [List.filter_cons, if_neg (by simpa using hc1), List.filter_cons,
        if_neg (by simpa using hc2), List.filter_cons, if_neg (by simpa using hn2)]
      apply List.filter_congr
      intro p hp
      apply decide_eq_decide.2
      have hpos : 0 < occ t rest p := occ_pos t rest p p hp rfl
      simp only [Option.toList_some, List.singleton_append, occ_append, occ_cons]
      by_cases hl : occ t last.toList p = 0
      · rw [hl]; constructor <;> intro h <;> omega
      · have hcp : t c = t p := by
          cases last with
          | none => simp [occ_nil] at hl
          | some l =>
            simp only [Option.toList_some, occ_cons, occ_nil] at hl
            have elp : t l = t p := by
              by_contra hne
              simp [hne] at hl
            have hlc : tle t l c :=
              (List.pairwise_append.1 hs).2.2 l (by simp) c (by simp)
            have h3 := hcr p hp
            unfold tle at hlc h3
            rw [elp] at hlc
            exact strcmp_antisymm h3 hlc
        rw [if_pos hcp, if_pos (e1 ▸ hcp)]
        constructor <;> intro h <;> omega
    · rw [if_neg h1]
      have e1 : t c ≠ t n := fun e => h1 ((strcmp_eq_zero_iff _ _).2 e)
      have hpc : ∀ p ∈ n :: rest, t p ≠ t c := fun p hp =>
        text_ne_of_step t hcn (hnr' p hp) e1
      by_cases hm : tmp_matches t last c
      · rw [if_pos hm]
        obtain ⟨l, rfl, elc⟩ : ∃ l, last = some l ∧ t l = t c := by
          cases last with
          | none => simp [tmp_matches] at hm
          | some l => exact ⟨l, rfl, (tmp_matches_some t l c).1 hm⟩
        have hs' : ((some c).toList ++ n :: rest).Pairwise (tle t) := by simpa using hs2
        rw [dedup_from_sorted t rest (some c) n hs']
        have hc2 : occ t ((some l).toList ++ c :: n :: rest) c ≠ 1 := by
          simp only [Option.toList_some, List.singleton_append, occ_cons, elc, if_true]
          omega
        conv_rhs => rw [List.filter_cons, if_neg (by simpa using hc2)]
        apply List.filter_congr
        intro p hp
        apply decide_eq_decide.2
        have hlp : t l ≠ t p := fun e => hpc p hp (elc ▸ e.symm)
        simp only [Option.toList_some, List.singleton_append, occ_cons, if_neg hlp]
        constructor <;> intro h <;> omega
      · rw [if_neg hm]
        have hs' : (last.toList ++ n :: rest).Pairwise (tle t) := by
          refine List.Pairwise.sublist ?_ hs
          exact List.Sublist.append_left (List.sublist_cons_self c (n :: rest)) _
        rw [dedup_from_sorted t rest last n hs']
        have hl0 : occ t last.toList c = 0 := by
          cases last with
          | none => rfl
          | some l =>
            have : t l ≠ t c := fun e => hm ((tmp_matches_some t l c).2 e)
            simp [occ_cons, occ_nil, this]
        have hr0 : occ t (n :: rest) c = 0 := occ_eq_zero t _ _ hpc
        have hc2 : occ t (last.toList ++ c :: n :: rest) c = 1 := by
          rw [occ_append, occ_cons, hl0, hr0]; simp
        conv_rhs => rw [List.filter_cons, if_pos (by simpa using hc2)]
        congr 1
        apply List.filter_congr
        intro p hp
        apply decide_eq_decide.2
        have hcp : t c ≠ t p := fun e => hpc p hp e.symm
        rw [occ_append, occ_append, occ_cons t c, if_neg hcp]
        simp

/-- On a sorted queue `q_delete_dup` keeps exactly the elements whose text
occurs once. -/
theorem dedupL_sorted (t : Ptr → Text) (xs : List Ptr) (hs : xs.Pairwise (tle t)) :
    dedupL t xs = xs.filter (fun p => decide ((xs.map t).count (t p) = 1)) := by
  have hocc : ∀ p, (xs.map t).count (t p) = occ t xs p := by
    intro p
    unfold occ
    rw [List.count_eq_countP, List.countP_map]
    congr 1
    funext q
    by_cases e : t q = t p
    · simp [e]
    · have e' : ¬ t p = t q := fun h => e h.symm
      simp [e, e']
  simp only [hocc]
  cases xs with
  | nil => rfl
  | cons c rest =>
    show dedup_from t none c rest = _
    rw [dedup_from_sorted t rest none c (by simpa using hs)]
    simp

/-! ### The structural invariant and the representation predicate -/

theorem orbit_length (h : Heap) : ∀ (p : Ptr) (k : Nat), (orbit h p k).length = k
  | _, 0 => rfl
  | p, k + 1 => by simp [orbit, orbit_length h (h.next p) k]

theorem orbit_getD (h : Heap) : ∀ (p : Ptr) (k i : Nat), i < k →
    (orbit h p k).getD i 0 = h.next^[i] p
  | _, 0, _, hi => by omega
  | p, k + 1, 0, _ => by simp [orbit]
  | p, k + 1, i + 1, hi => by
    have := orbit_getD h (h.next p) k i (by omega)
    simpa [orbit] using this

theorem orbit_succ_snoc (h : Heap) : ∀ (p : Ptr) (k : Nat),
    orbit h p (k + 1) = orbit h p k ++ [h.next^[k] p]
  | p, 0 => by simp [orbit]
  | p, k + 1 => by
    have := orbit_succ_snoc h (h.next p) k
    rw [orbit, this]
    simp [orbit]

theorem mem_orbit (h : Heap) (p : Ptr) (k : Nat) (x : Ptr) :
    x ∈ orbit h p k ↔ ∃ i, i < k ∧ x = h.next^[i] p := by
  induction k generalizing p with
  | zero => simp [orbit]
  | succ k ih =>
    simp only [orbit, List.mem_cons, ih]
    constructor
    · rintro (rfl | ⟨i, hi, rfl⟩)
      · exact ⟨0, by omega, rfl⟩
      · exact ⟨i + 1, by omega, rfl⟩
    · rintro ⟨i, hi, rfl⟩
      cases i with
      | zero => left; rfl
      | succ i => right; exact ⟨i, by omega, rfl⟩

theorem linked_orbit (h : Heap) : ∀ (k : Nat) (p : Ptr),
    (∀ i, i < k → h.prev (h.next (h.next^[i] p)) = h.next^[i] p) →
    Linked h (orbit h p (k + 1))
  | 0, p, _ => by simp [orbit]
  | k + 1, p, hp => by
    have ih := linked_orbit h k (h.next p) (fun i hi => by
      have := hp (i + 1) (by omega)
      simpa using this)
    rw [orbit] at ih ⊢
    rw [orbit, linked_cons_cons]
    refine ⟨⟨rfl, ?_⟩, ih⟩
    simpa using hp 0 (by omega)

theorem isQueue_iterate {h : Heap} {head : Ptr} {xs : List Ptr} (hq : IsQueue h head xs) :
    ∀ k, k ≤ xs.length + 1 → h.next^[k] head = (head :: xs ++ [head]).getD k 0
  | 0, _ => by simp
  | k + 1, hk => by
    rw [Function.iterate_succ_apply', isQueue_iterate hq k (by omega),
      isQueue_next_getD hq k (by omega)]

/-- A queue in the sense of `IsQueue` satisfies the structural invariant. -/
theorem isQueue_wellFormed {h : Heap} {head : Ptr} {xs : List Ptr} (hq : IsQueue h head xs) :
    WellFormed h head xs.length := by
  refine ⟨?_, ?_⟩
  · intro k hk
    rw [isQueue_iterate hq k (by omega)]
    refine ⟨?_, ?_, ?_, ?_⟩
    · rw [path_getD_cons _ _ _ hk]
      intro e
      apply hq.2.1
      rw [← e, List.getD_eq_getElem _ _ (by simp; omega)]
      exact List.getElem_mem _
    · rw [isQueue_next_getD hq k hk, isQueue_prev_getD hq k hk]
    · cases k with
      | zero =>
        rw [path_getD_zero]
        have := isQueue_prev_getD hq xs.length (le_refl _)
        rw [path_getD_last] at this
        rw [this, isQueue_next_getD hq _ (le_refl _), path_getD_last]
      | succ k =>
        rw [isQueue_prev_getD hq k (by omega), isQueue_next_getD hq k (by omega)]
    · intro hk0
      rw [Ne, path_getD_eq_head hq _ (by omega)]
      omega
  · rw [isQueue_iterate hq _ (le_refl _), path_getD_last]

theorem wellFormed_inj {h : Heap} {head : Ptr} {n : Nat} (hw : WellFormed h head n) :
    ∀ i j, i < j → j ≤ n → h.next^[i] head ≠ h.next^[j] head
  | 0, j, hij, hj => by
    intro e
    exact (hw.1 j hj).2.2.2 hij e.symm
  | i + 1, j, hij, hj => by
    obtain ⟨j', rfl⟩ : ∃ j', j = j' + 1 := ⟨j - 1, by omega⟩
    intro e
    apply wellFormed_inj hw i j' (by omega) (by omega)
    have h1 := (hw.1 i (by omega)).2.1
    have h2 := (hw.1 j' (by omega)).2.1
    rw [Function.iterate_succ_apply', Function.iterate_succ_apply'] at e
    rw [← h1, ← h2, e]

/-- A heap satisfying the structural invariant carries a queue in the sense of
`IsQueue`, whose elements are those met by following `next`. -/
theorem wellFormed_isQueue {h : Heap} {head : Ptr} {n : Nat} (hw : WellFormed h head n) :
    IsQueue h head (q_elems h head n) ∧ (q_elems h head n).length = n := by
  have hcons : head :: q_elems h head n = orbit h head (n + 1) := rfl
  refine ⟨⟨?_, ?_, ?_⟩, orbit_length _ _ _⟩
  · rw [hcons, List.nodup_iff_injective_get]
    intro a b hab
    have hlen := orbit_length h head (n + 1)
    have ha : a.1 < n + 1 := lt_of_lt_of_eq a.2 hlen
    have hb : b.1 < n + 1 := lt_of_lt_of_eq b.2 hlen
    have e : (orbit h head (n + 1)).getD a.1 0 = (orbit h head (n + 1)).getD b.1 0 := by
      rw [List.getD_eq_getElem _ _ a.2, List.getD_eq_getElem _ _ b.2]
      exact hab
    rw [orbit_getD _ _ _ _ ha, orbit_getD _ _ _ _ hb] at e
    apply Fin.ext
    by_contra hne
    rcases Nat.lt_or_gt_of_ne hne with hlt | hlt
    · exact wellFormed_inj hw _ _ hlt (by omega) e
    · exact wellFormed_inj hw _ _ hlt (by omega) e.symm
  · rw [hcons, mem_orbit]
    rintro ⟨i, hi, e⟩
    exact (hw.1 i (by omega)).1 e.symm
  · have : head :: q_elems h head n ++ [head] = orbit h head (n + 1 + 1) := by
      rw [orbit_succ_snoc h head (n + 1), hw.2, hcons]
    rw [this]
    exact linked_orbit h (n + 1) head (fun i hi => (hw.1 i (by omega)).2.1)

/-- The elements of a queue are those met by following `next`. -/
theorem isQueue_q_elems {h : Heap} {head : Ptr} {xs : List Ptr} (hq : IsQueue h head xs) :
    q_elems h head xs.length = xs := by
  apply List.ext_getElem
  · exact orbit_length _ _ _
  · intro i h1 h2
    have hi : i < xs.length := h2
    have e1 : (q_elems h head xs.length).getD i 0 = xs.getD i 0 := by
      unfold q_elems
      rw [orbit_getD _ _ _ _ hi, ← Function.iterate_succ_apply,
        isQueue_iterate hq (i + 1) (by omega), path_getD_succ _ _ _ hi]
    rw [List.getD_eq_getElem _ _ h1, List.getD_eq_getElem _ _ h2] at e1
    exact e1

/-- The structural invariant and the representation predicate say the same. -/
theorem wellFormed_iff (h : Heap) (head : Ptr) (n : Nat) :
    WellFormed h head n ↔ ∃ xs, IsQueue h head xs ∧ xs.length = n :=
  ⟨fun hw => ⟨_, wellFormed_isQueue hw⟩, fun ⟨_, hq, hl⟩ => hl ▸ isQueue_wellFormed hq⟩

/-! ### List facts used by the properties -/

theorem sortedTexts_of_pairwise (t : Ptr → Text) : ∀ xs : List Ptr, xs.Pairwise (tle t) →
    SortedTexts (xs.map t)
  | [], _ => trivial
  | [_], _ => trivial
  | a :: b :: l, h => by
    have h1 := List.pairwise_cons.1 h
    exact ⟨h1.1 b (by simp), sortedTexts_of_pairwise t (b :: l) h1.2⟩

theorem pairwise_of_sortedTexts (t : Ptr → Text) : ∀ xs : List Ptr, SortedTexts (xs.map t) →
    xs.Pairwise (tle t)
  | [], _ => List.Pairwise.nil
  | [_], _ => by simp
  | a :: b :: l, h => by
    have h1 : strcmp (t a) (t b) ≤ 0 ∧ SortedTexts ((b :: l).map t) := h
    have ih := pairwise_of_sortedTexts t (b :: l) h1.2
    rw [List.pairwise_cons]
    refine ⟨?_, ih⟩
    intro x hx
    rcases List.mem_cons.1 hx with rfl | hx
    · exact h1.1
    · exact tle_trans t h1.1 ((List.pairwise_cons.1 ih).1 x hx)

theorem swap_pairs_length : ∀ l : List Ptr, (swap_pairs l).length = l.length
  | [] => rfl
  | [_] => rfl
  | a :: b :: l => by simp [swap_pairs, swap_pairs_length l]

theorem swap_pairs_perm : ∀ l : List Ptr, (swap_pairs l).Perm l
  | [] => List.Perm.refl _
  | [_] => List.Perm.refl _
  | a :: b :: l => by
    unfold swap_pairs
    exact (List.Perm.swap a b _).trans (((swap_pairs_perm l).cons b).cons a)

theorem swap_pairs_even : ∀ (l : List Ptr) (k : Nat), 2 * k + 1 < l.length →
    (swap_pairs l)[2 * k]? = l[2 * k + 1]? ∧ (swap_pairs l)[2 * k + 1]? = l[2 * k]?
  | [], _, h => by simp at h
  | [_], _, h => by simp at h
  | a :: b :: l, 0, _ => by simp [swap_pairs]
  | a :: b :: l, k + 1, h => by
    have ih := swap_pairs_even l k (by simp at h; omega)
    have e1 : 2 * (k + 1) = 2 * k + 1 + 1 := by ring
    have e2 : 2 * (k + 1) + 1 = 2 * k + 1 + 1 + 1 := by ring
    rw [e2, e1]
    simp only [swap_pairs, List.getElem?_cons_succ]
    exact ih

theorem swap_pairs_odd_last : ∀ (l : List Ptr), l.length % 2 = 1 →
    (swap_pairs l)[l.length - 1]? = l[l.length - 1]?
  | [], h => by simp at h
  | [_], _ => by simp [swap_pairs]
  | a :: b :: l, h => by
    have hl : l.length % 2 = 1 := by simp at h; omega
    have ih := swap_pairs_odd_last l hl
    have hpos : 0 < l.length := by omega
    have e : (a :: b :: l).length - 1 = (l.length - 1) + 1 + 1 := by simp; omega
    rw [e]
    simp only [swap_pairs, List.getElem?_cons_succ]
    exact ih

/-- In a list without repetition, `a` stands before `b` exactly when `[a, b]`
is a sublist. -/
theorem sublist_pair_iff_indexOf : ∀ (l : List Ptr) (a b : Ptr), l.Nodup → a ∈ l → b ∈ l →
    a ≠ b → ([a, b].Sublist l ↔ l.indexOf a < l.indexOf b)
  | [], _, _, _, ha, _, _ => by simp at ha
  | x :: l, a, b, hnd, ha, hb, hab => by
    have hnd' := List.nodup_cons.1 hnd
    by_cases hxa : x = a
    · subst hxa
      have hbl : b ∈ l := by
        rcases List.mem_cons.1 hb with e | e
        · exact absurd e.symm hab
        · exact e
      have h1 : (x :: l).indexOf x = 0 := by simp
      have h2 : (x :: l).indexOf b = l.indexOf b + 1 := by
        rw [List.indexOf_cons_ne _ hab]
      rw [h1, h2]
      constructor
      · intro _; omega
      · intro _
        exact List.Sublist.cons₂ _ (List.singleton_sublist.2 hbl)
    · have hal : a ∈ l := by
        rcases List.mem_cons.1 ha with e | e
        · exact absurd e.symm hxa
        · exact e
      have h1 : (x :: l).indexOf a = l.indexOf a + 1 := by
        rw [List.indexOf_cons_ne _ hxa]
      by_cases hxb : x = b
      · subst hxb
        have h2 : (x :: l).indexOf x = 0 := by simp
        rw [h1, h2]
        constructor
        · intro hs
          exfalso
          rcases hs with _ | _
          · rename_i hs
            have : x ∈ l := hs.subset (by simp)
            exact hnd'.1 this
          · exact hxa rfl
        · intro h; omega
      · have hbl : b ∈ l := by
          rcases List.mem_cons.1 hb with e | e
          · exact absurd e.symm hxb
          · exact e
        have h2 : (x :: l).indexOf b = l.indexOf b + 1 := by
          rw [List.indexOf_cons_ne _ hxb]
        rw [h1, h2, Nat.add_lt_add_iff_right,
          ← sublist_pair_iff_indexOf l a b hnd'.2 hal hbl hab]
        constructor
        · intro hs
          rcases hs with _ | _
          · assumption
          · exact absurd rfl hxa
        · intro hs
          exact List.Sublist.cons _ hs

/-- A sort that keeps, for every text, the elements of that text in their
order keeps the relative position of any two elements of equal text. -/
theorem stable_of_filter {t : Ptr → Text} {xs ys : List Ptr} (hx : xs.Nodup) (hp : ys.Perm xs)
    (hf : ∀ k, ys.filter (fun p => decide (t p = k)) = xs.filter (fun p => decide (t p = k)))
    {e1 e2 : Ptr} (h1 : e1 ∈ xs) (h2 : e2 ∈ xs) (hne : e1 ≠ e2) (ht : t e1 = t e2)
    (hlt : xs.indexOf e1 < xs.indexOf e2) : ys.indexOf e1 < ys.indexOf e2 := by
  rw [← sublist_pair_iff_indexOf xs e1 e2 hx h1 h2 hne] at hlt
  rw [← sublist_pair_iff_indexOf ys e1 e2 (hp.nodup_iff.2 hx) (hp.mem_iff.2 h1)
    (hp.mem_iff.2 h2) hne]
  have := hlt.filter (fun p => decide (t p = t e1))
  rw [← hf (t e1)] at this
  have e : [e1, e2].filter (fun p => decide (t p = t e1)) = [e1, e2] := by
    simp [ht]
  rw [e] at this
  exact this.trans (List.filter_sublist _)

/-! ## Properties of the specification -/

/-- C1: for every queue, after `q_sort` the texts of the elements read from
head to tail are in non-decreasing `strcmp` order: every adjacent pair `x`, `y`
has `strcmp x y <= 0`. -/
theorem q_sort_sorted (h : Heap) (head sp : Ptr) (xs : List Ptr) (fuel : Nat)
    (hq : IsQueue h head xs) (hsp : ∀ p ∈ head :: xs, p < sp) (hf : xs.length < fuel) :
    ∃ h' ys, q_sort fuel h head sp = some h' ∧ IsQueue h' head ys ∧
      SortedTexts (ys.map (text h')) := by
  obtain ⟨h', e, hq', -, hsd, -⟩ := q_sort_spec hq hsp hf
  refine ⟨h', _, e, hq', ?_⟩
  rw [sameData_text hsd]
  exact sortedTexts_of_pairwise _ _ (msortL_sorted _ _ _ (le_refl _))

theorem q_sort_sorted_witness :
    IsQueue (ring_heap 4 texts_cbba) 1 [2, 3, 4, 5] ∧
      (∀ p ∈ (1 : Ptr) :: [2, 3, 4, 5], p < 10) ∧ ([2, 3, 4, 5] : List Ptr).length < 5 ∧
      ∃ h' ys, q_sort 5 (ring_heap 4 texts_cbba) 1 10 = some h' ∧ IsQueue h' 1 ys ∧
        SortedTexts (ys.map (text h')) :=
  ⟨by decide, by decide, by decide,
    q_sort_sorted (ring_heap 4 texts_cbba) 1 10 [2, 3, 4, 5] 5 (by decide) (by decide)
      (by decide)⟩

/-- C2: `q_sort` neither loses, duplicates nor invents elements: the elements
on the sentinel afterwards are a permutation of those before, so the size is
the same. -/
theorem q_sort_perm (h : Heap) (head sp : Ptr) (xs : List Ptr) (fuel : Nat)
    (hq : IsQueue h head xs) (hsp : ∀ p ∈ head :: xs, p < sp) (hf : xs.length < fuel) :
    ∃ h' ys, q_sort fuel h head sp = some h' ∧ IsQueue h' head ys ∧
      ys.Perm xs ∧ ys.length = xs.length := by
  obtain ⟨h', e, hq', -, -, -⟩ := q_sort_spec hq hsp hf
  exact ⟨h', _, e, hq', msortL_perm' _ _, length_msortL _ _⟩

theorem q_sort_perm_witness :
    IsQueue (ring_heap 4 texts_cbba) 1 [2, 3, 4, 5] ∧
      (∀ p ∈ (1 : Ptr) :: [2, 3, 4, 5], p < 10) ∧ ([2, 3, 4, 5] : List Ptr).length < 5 ∧
      ∃ h' ys, q_sort 5 (ring_heap 4 texts_cbba) 1 10 = some h' ∧ IsQueue h' 1 ys ∧
        ys.Perm [2, 3, 4, 5] ∧ ys.length = ([2, 3, 4, 5] : List Ptr).length :=
  ⟨by decide, by decide, by decide,
    q_sort_perm (ring_heap 4 texts_cbba) 1 10 [2, 3, 4, 5] 5 (by decide) (by decide)
      (by decide)⟩

/-- C3: `q_sort` is stable: two distinct elements of equal text keep their
relative order, the one that stood first before the sort stands first after. -/
theorem q_sort_stable (h : Heap) (head sp : Ptr) (xs : List Ptr) (fuel : Nat)
    (hq : IsQueue h head xs) (hsp : ∀ p ∈ head :: xs, p < sp) (hf : xs.length < fuel) :
    ∃ h' ys, q_sort fuel h head sp = some h' ∧ IsQueue h' head ys ∧
      ∀ e1 e2, e1 ∈ xs → e2 ∈ xs → e1 ≠ e2 → text h e1 = text h e2 →
        xs.indexOf e1 < xs.indexOf e2 → ys.indexOf e1 < ys.indexOf e2 := by
  obtain ⟨h', e, hq', -, -, -⟩ := q_sort_spec hq hsp hf
  refine ⟨h', _, e, hq', ?_⟩
  intro e1 e2 h1 h2 hne ht hlt
  exact stable_of_filter (List.nodup_cons.1 hq.1).2 (msortL_perm' _ _)
    (fun k => msortL_filter _ k _ _ (le_refl _)) h1 h2 hne ht hlt

theorem q_sort_stable_witness :
    IsQueue (ring_heap 4 texts_cbba) 1 [2, 3, 4, 5] ∧
      (∀ p ∈ (1 : Ptr) :: [2, 3, 4, 5], p < 10) ∧ ([2, 3, 4, 5] : List Ptr).length < 5 ∧
      ∃ h' ys, q_sort 5 (ring_heap 4 texts_cbba) 1 10 = some h' ∧ IsQueue h' 1 ys ∧
        ∀ e1 e2, e1 ∈ ([2, 3, 4, 5] : List Ptr) → e2 ∈ ([2, 3, 4, 5] : List Ptr) → e1 ≠ e2 →
          text (ring_heap 4 texts_cbba) e1 = text (ring_heap 4 texts_cbba) e2 →
          ([2, 3, 4, 5] : List Ptr).indexOf e1 < ([2, 3, 4, 5] : List Ptr).indexOf e2 →
          ys.indexOf e1 < ys.indexOf e2 :=
  ⟨by decide, by decide, by decide,
    q_sort_stable (ring_heap 4 texts_cbba) 1 10 [2, 3, 4, 5] 5 (by decide) (by decide)
      (by decide)⟩

/-- C4: on a queue whose texts are sorted ascending, `q_delete_dup` returns true
and leaves exactly the elements whose text occurs once in the original queue, in
their original order; every element whose text occurs twice or more is unlinked
and freed. -/
theorem q_delete_dup_sorted (h : Heap) (head tmp : Ptr) (xs : List Ptr) (fuel : Nat)
    (hq : IsQueue h head xs) (hs : SortedTexts (xs.map (text h)))
    (htmp : tmp ∉ head :: xs) (htmp0 : tmp ≠ 0) (hf : xs.length < fuel) :
    ∃ h', q_delete_dup fuel h head tmp = some (h', true) ∧
      IsQueue h' head
        (xs.filter (fun p => decide ((xs.map (text h)).count (text h p) = 1))) ∧
      (∀ p ∈ xs, 2 ≤ (xs.map (text h)).count (text h p) → p ∈ h'.freed) ∧
      SameData h h' := by
  obtain ⟨h', e, hq', -, hsd, hfr⟩ := q_delete_dup_spec hq htmp htmp0 hf
  rw [dedupL_sorted _ _ (pairwise_of_sortedTexts _ _ hs)] at hq' hfr
  refine ⟨h', e, hq', ?_, hsd⟩
  intro p hp h2
  apply hfr p hp
  rw [List.mem_filter]
  rintro ⟨-, h1⟩
  simp only [decide_eq_true_eq] at h1
  omega

theorem q_delete_dup_sorted_witness :
    IsQueue (ring_heap 4 texts_1223) 1 [2, 3, 4, 5] ∧
      SortedTexts (([2, 3, 4, 5] : List Ptr).map (text (ring_heap 4 texts_1223))) ∧
      (10 : Ptr) ∉ (1 : Ptr) :: [2, 3, 4, 5] ∧ (10 : Ptr) ≠ 0 ∧
      ([2, 3, 4, 5] : List Ptr).length < 5 ∧
      ([2, 3, 4, 5] : List Ptr).filter (fun p => decide
        ((([2, 3, 4, 5] : List Ptr).map (text (ring_heap 4 texts_1223))).count
          (text (ring_heap 4 texts_1223) p) = 1)) = [2, 5] ∧
      ∃ h', q_delete_dup 5 (ring_heap 4 texts_1223) 1 10 = some (h', true) ∧
        IsQueue h' 1 (([2, 3, 4, 5] : List Ptr).filter (fun p => decide
          ((([2, 3, 4, 5] : List Ptr).map (text (ring_heap 4 texts_1223))).count
            (text (ring_heap 4 texts_1223) p) = 1))) ∧
        (∀ p ∈ ([2, 3, 4, 5] : List Ptr),
          2 ≤ (([2, 3, 4, 5] : List Ptr).map (text (ring_heap 4 texts_1223))).count
            (text (ring_heap 4 texts_1223) p) → p ∈ h'.freed) ∧
        SameData (ring_heap 4 texts_1223) h' :=
  ⟨by decide, by decide, by decide, by decide, by decide, by decide,
    q_delete_dup_sorted (ring_heap 4 texts_1223) 1 10 [2, 3, 4, 5] 5 (by decide) (by decide)
      (by decide) (by decide) (by decide)⟩

/-- C5: on a non-empty queue of `n` elements `q_delete_mid` returns true and
removes exactly the element of 0-based index `n / 2`, the other elements
keeping their order, so that `n - 1` elements remain. -/
theorem q_delete_mid_removes (h : Heap) (head : Ptr) (xs : List Ptr) (fuel : Nat)
    (hq : IsQueue h head xs) (hne : xs ≠ []) (hf : xs.length / 2 < fuel) :
    ∃ h', q_delete_mid fuel h head = some (h', true) ∧
      IsQueue h' head (xs.eraseIdx (xs.length / 2)) ∧
      (xs.eraseIdx (xs.length / 2)).length = xs.length - 1 ∧
      xs.getD (xs.length / 2) 0 ∈ h'.freed := by
  obtain ⟨h', e, hq', -, -, hfr⟩ := q_delete_mid_spec hq hne hf
  refine ⟨h', e, hq', ?_, hfr⟩
  have hlen : 0 < xs.length := List.length_pos.2 hne
  rw [List.length_eraseIdx, if_pos (Nat.div_lt_self hlen (by norm_num))]

theorem q_delete_mid_removes_witness :
    IsQueue (ring_heap 6 texts_abc) 1 [2, 3, 4, 5, 6, 7] ∧
      ([2, 3, 4, 5, 6, 7] : List Ptr) ≠ [] ∧
      ([2, 3, 4, 5, 6, 7] : List Ptr).length / 2 < 4 ∧
      ([2, 3, 4, 5, 6, 7] : List Ptr).eraseIdx (([2, 3, 4, 5, 6, 7] : List Ptr).length / 2) =
        [2, 3, 4, 6, 7] ∧
      ∃ h', q_delete_mid 4 (ring_heap 6 texts_abc) 1 = some (h', true) ∧
        IsQueue h' 1
          (([2, 3, 4, 5, 6, 7] : List Ptr).eraseIdx
            (([2, 3, 4, 5, 6, 7] : List Ptr).length / 2)) ∧
        (([2, 3, 4, 5, 6, 7] : List Ptr).eraseIdx
            (([2, 3, 4, 5, 6, 7] : List Ptr).length / 2)).length =
          ([2, 3, 4, 5, 6, 7] : List Ptr).length - 1 ∧
        ([2, 3, 4, 5, 6, 7] : List Ptr).getD (([2, 3, 4, 5, 6, 7] : List Ptr).length / 2) 0 ∈
          h'.freed :=
  ⟨by decide, by decide, by decide, by decide,
    q_delete_mid_removes (ring_heap 6 texts_abc) 1 [2, 3, 4, 5, 6, 7] 4 (by decide)
      (by decide) (by decide)⟩

/-- C6: `q_swap` exchanges the elements at positions `2k` and `2k + 1` for every
`k` with `2k + 1 < n` and keeps the last element of an odd queue in place; the
same nodes are reused, none added or dropped. -/
theorem q_swap_pairs (h : Heap) (head : Ptr) (xs : List Ptr) (fuel : Nat)
    (hq : IsQueue h head xs) (hf : xs.length / 2 < fuel) :
    ∃ h' ys, q_swap fuel h head = some h' ∧ IsQueue h' head ys ∧
      ys.length = xs.length ∧
      (∀ k, 2 * k + 1 < xs.length →
        ys[2 * k]? = xs[2 * k + 1]? ∧ ys[2 * k + 1]? = xs[2 * k]?) ∧
      (xs.length % 2 = 1 → ys[xs.length - 1]? = xs[xs.length - 1]?) ∧
      ys.Perm xs ∧ SameData h h' ∧ h'.freed = h.freed := by
  obtain ⟨h', e, hq', -, hsd, hfr⟩ := q_swap_spec hq hf
  exact ⟨h', _, e, hq', swap_pairs_length xs, swap_pairs_even xs, swap_pairs_odd_last xs,
    swap_pairs_perm xs, hsd, hfr⟩

theorem q_swap_pairs_witness :
    IsQueue (ring_heap 5 texts_abc) 1 [2, 3, 4, 5, 6] ∧
      ([2, 3, 4, 5, 6] : List Ptr).length / 2 < 3 ∧
      ∃ h' ys, q_swap 3 (ring_heap 5 texts_abc) 1 = some h' ∧ IsQueue h' 1 ys ∧
        ys.length = ([2, 3, 4, 5, 6] : List Ptr).length ∧
        (∀ k, 2 * k + 1 < ([2, 3, 4, 5, 6] : List Ptr).length →
          ys[2 * k]? = ([2, 3, 4, 5, 6] : List Ptr)[2 * k + 1]? ∧
            ys[2 * k + 1]? = ([2, 3, 4, 5, 6] : List Ptr)[2 * k]?) ∧
        (([2, 3, 4, 5, 6] : List Ptr).length % 2 = 1 →
          ys[([2, 3, 4, 5, 6] : List Ptr).length - 1]? =
            ([2, 3, 4, 5, 6] : List Ptr)[([2, 3, 4, 5, 6] : List Ptr).length - 1]?) ∧
        ys.Perm [2, 3, 4, 5, 6] ∧ SameData (ring_heap 5 texts_abc) h' ∧
        h'.freed = (ring_heap 5 texts_abc).freed :=
  ⟨by decide, by decide,
    q_swap_pairs (ring_heap 5 texts_abc) 1 [2, 3, 4, 5, 6] 3 (by decide) (by decide)⟩

/-- C7: `q_reverse` yields exactly the reversed element sequence: the element at
position `i` of an `n`-element queue ends at position `n - 1 - i`; the same
nodes are used, no text is changed and nothing is freed. -/
theorem q_reverse_reverses (h : Heap) (head : Ptr) (xs : List Ptr) (fuel : Nat)
    (hq : IsQueue h head xs) (hf : xs.length < fuel) :
    ∃ h' ys, q_reverse fuel h head = some h' ∧ IsQueue h' head ys ∧
      ys = xs.reverse ∧ ys.length = xs.length ∧
      (∀ i, i < xs.length → ys[xs.length - 1 - i]? = xs[i]?) ∧
      SameData h h' ∧ h'.freed = h.freed := by
  obtain ⟨h', e, hq', -, hsd, hfr⟩ := q_reverse_spec hq hf
  refine ⟨h', _, e, hq', rfl, List.length_reverse xs, ?_, hsd, hfr⟩
  intro i hi
  rw [List.getElem?_reverse (by omega)]
  congr 1
  omega

theorem q_reverse_reverses_witness :
    IsQueue (ring_heap 4 texts_cbba) 1 [2, 3, 4, 5] ∧ ([2, 3, 4, 5] : List Ptr).length < 5 ∧
      ∃ h' ys, q_reverse 5 (ring_heap 4 texts_cbba) 1 = some h' ∧ IsQueue h' 1 ys ∧
        ys = ([2, 3, 4, 5] : List Ptr).reverse ∧
        ys.length = ([2, 3, 4, 5] : List Ptr).length ∧
        (∀ i, i < ([2, 3, 4, 5] : List Ptr).length →
          ys[([2, 3, 4, 5] : List Ptr).length - 1 - i]? = ([2, 3, 4, 5] : List Ptr)[i]?) ∧
        SameData (ring_heap 4 texts_cbba) h' ∧ h'.freed = (ring_heap 4 texts_cbba).freed :=
  ⟨by decide, by decide,
    q_reverse_reverses (ring_heap 4 texts_cbba) 1 [2, 3, 4, 5] 5 (by decide) (by decide)⟩

/-- C8: applying `q_reverse` twice returns the queue to its original element
order. -/
theorem q_reverse_involution (h : Heap) (head : Ptr) (xs : List Ptr) (fuel : Nat)
    (hq : IsQueue h head xs) (hf : xs.length < fuel) :
    ∃ h1 h2, q_reverse fuel h head = some h1 ∧ q_reverse fuel h1 head = some h2 ∧
      IsQueue h2 head xs := by
  obtain ⟨h1, e1, hq1, -, -, -⟩ := q_reverse_spec hq hf
  obtain ⟨h2, e2, hq2, -, -, -⟩ := q_reverse_spec hq1 (by simpa using hf)
  exact ⟨h1, h2, e1, e2, by simpa using hq2⟩

theorem q_reverse_involution_witness :
    IsQueue (ring_heap 4 texts_cbba) 1 [2, 3, 4, 5] ∧ ([2, 3, 4, 5] : List Ptr).length < 5 ∧
      ∃ h1 h2, q_reverse 5 (ring_heap 4 texts_cbba) 1 = some h1 ∧
        q_reverse 5 h1 1 = some h2 ∧ IsQueue h2 1 [2, 3, 4, 5] :=
  ⟨by decide, by decide,
    q_reverse_involution (ring_heap 4 texts_cbba) 1 [2, 3, 4, 5] 5 (by decide) (by decide)⟩

/-! ### Round trip -/

/-- C10: when both allocations succeed, `q_insert_head` followed at once by
`q_remove_head` (called without a buffer, or with a capacity of at least 1, the
calls whose copy-out stays inside the buffer) returns the new element, whose
text is `s`, and leaves the queue with its prior elements in their prior order;
nothing is written to the buffer from index `bufsize` on, and with a buffer of
capacity greater than the length of `s` the buffer receives the whole of `s`
followed by a terminator. -/
theorem insert_remove_round_trip (h : Heap) (head : Ptr) (xs : List Ptr) (s : Text)
    (ele buf sp : Ptr) (bufsize : Nat) (out : Nat → Nat)
    (hq : IsQueue h head xs) (he : ele ∉ head :: xs) (he0 : ele ≠ 0) (hb0 : buf ≠ 0)
    (hcap : sp = 0 ∨ 1 ≤ bufsize) :
    (q_insert_head h head s ele buf).2 = true ∧
      (q_remove_head (q_insert_head h head s ele buf).1 head sp bufsize out).2.1 = ele ∧
      text (q_remove_head (q_insert_head h head s ele buf).1 head sp bufsize out).1 ele = s ∧
      IsQueue (q_remove_head (q_insert_head h head s ele buf).1 head sp bufsize out).1 head xs ∧
      ((∀ p ∈ xs, h.value p ≠ buf) → ∀ p ∈ xs,
        text (q_remove_head (q_insert_head h head s ele buf).1 head sp bufsize out).1 p =
          text h p) ∧
      (sp ≠ 0 → strlen s < bufsize → bufsize < SIZE_MOD →
        (∀ i, i < strlen s →
          (q_remove_head (q_insert_head h head s ele buf).1 head sp bufsize out).2.2 i =
            s.getD i 0) ∧
        (q_remove_head (q_insert_head h head s ele buf).1 head sp bufsize out).2.2 (strlen s) =
          0 ∧
        ∀ i, strlen s < i →
          (q_remove_head (q_insert_head h head s ele buf).1 head sp bufsize out).2.2 i =
            out i) ∧
      (∀ i, bufsize ≤ i →
        (q_remove_head (q_insert_head h head s ele buf).1 head sp bufsize out).2.2 i =
          out i) := by
  obtain ⟨h1, e1, hq1, ht1, hto1, -, -⟩ := q_insert_head_spec hq s he he0 hb0
  obtain ⟨e2, hq2, -, hsd2, -⟩ := q_remove_head_spec hq1 sp bufsize out
  have hin := q_remove_head_within (q_insert_head h head s ele buf).1 head hcap out
  rw [e1] at hin ⊢
  dsimp only at hin ⊢
  rw [e2] at hin ⊢
  dsimp only at hin ⊢
  have htxt : text (list_del h1 ele) = text h1 := sameData_text hsd2
  refine ⟨rfl, rfl, by rw [htxt, ht1], hq2, ?_, ?_, hin⟩
  · intro hfresh p hp
    rw [htxt]
    exact hto1 p (fun e => he (e ▸ List.mem_cons_of_mem _ hp)) (hfresh p hp)
  · intro hsp hlt hB
    rw [ht1]
    refine ⟨?_, ?_, ?_⟩
    · intro i hi
      rw [copy_out_fits s hsp hlt hB, if_pos hi]
    · rw [copy_out_fits s hsp hlt hB, if_neg (lt_irrefl _), if_pos rfl]
    · intro i hi
      rw [copy_out_fits s hsp hlt hB, if_neg (by omega), if_neg (by omega)]

theorem insert_remove_round_trip_witness :
    IsQueue (ring_heap 4 texts_cbba) 1 [2, 3, 4, 5] ∧ (20 : Ptr) ∉ (1 : Ptr) :: [2, 3, 4, 5] ∧
      (20 : Ptr) ≠ 0 ∧ (30 : Ptr) ≠ 0 ∧ ((40 : Ptr) = 0 ∨ 1 ≤ 8) ∧
      (q_insert_head (ring_heap 4 texts_cbba) 1 [104, 105] 20 30).2 = true ∧
      (q_remove_head (q_insert_head (ring_heap 4 texts_cbba) 1 [104, 105] 20 30).1 1 40 8
        (fun _ => 7)).2.1 = 20 ∧
      text (q_remove_head (q_insert_head (ring_heap 4 texts_cbba) 1 [104, 105] 20 30).1 1 40 8
        (fun _ => 7)).1 20 = [104, 105] ∧
      IsQueue (q_remove_head (q_insert_head (ring_heap 4 texts_cbba) 1 [104, 105] 20 30).1 1
        40 8 (fun _ => 7)).1 1 [2, 3, 4, 5] ∧
      ((∀ p ∈ ([2, 3, 4, 5] : List Ptr), (ring_heap 4 texts_cbba).value p ≠ 30) →
        ∀ p ∈ ([2, 3, 4, 5] : List Ptr),
          text (q_remove_head (q_insert_head (ring_heap 4 texts_cbba) 1 [104, 105] 20 30).1 1
            40 8 (fun _ => 7)).1 p = text (ring_heap 4 texts_cbba) p) ∧
      ((40 : Ptr) ≠ 0 → strlen [104, 105] < 8 → 8 < SIZE_MOD →
        (∀ i, i < strlen [104, 105] →
          (q_remove_head (q_insert_head (ring_heap 4 texts_cbba) 1 [104, 105] 20 30).1 1 40 8
            (fun _ => 7)).2.2 i = ([104, 105] : Text).getD i 0) ∧
        (q_remove_head (q_insert_head (ring_heap 4 texts_cbba) 1 [104, 105] 20 30).1 1 40 8
          (fun _ => 7)).2.2 (strlen [104, 105]) = 0 ∧
        ∀ i, strlen [104, 105] < i →
          (q_remove_head (q_insert_head (ring_heap 4 texts_cbba) 1 [104, 105] 20 30).1 1 40 8
            (fun _ => 7)).2.2 i = (fun _ => 7) i) ∧
      (∀ i, 8 ≤ i →
        (q_remove_head (q_insert_head (ring_heap 4 texts_cbba) 1 [104, 105] 20 30).1 1 40 8
          (fun _ => 7)).2.2 i = (fun _ => 7) i) :=
  ⟨by decide, by decide, by decide, by decide, by decide,
    insert_remove_round_trip (ring_heap 4 texts_cbba) 1 [2, 3, 4, 5] [104, 105] 20 30 40 8
      (fun _ => 7) (by decide) (by decide) (by decide) (by decide) (by decide)⟩

/-! ### The invariant under every operation -/

theorem wellFormed_of_isQueue {h : Heap} {head : Ptr} {xs : List Ptr} {n : Nat}
    (hq : IsQueue h head xs) (hl : xs.length = n) : WellFormed h head n :=
  hl ▸ isQueue_wellFormed hq

theorem q_insert_head_wellFormed {h : Heap} {head : Ptr} {xs : List Ptr}
    (hq : IsQueue h head xs) (s : Text) (ele buf : Ptr)
    (he : ele ≠ 0 → ele ∉ head :: xs) :
    WellFormed (q_insert_head h head s ele buf).1 head
      (if (q_insert_head h head s ele buf).2 then xs.length + 1 else xs.length) := by
  have hh0 := isQueue_head_ne_zero hq
  by_cases he0 : ele = 0
  · simp only [q_insert_head, if_neg hh0, if_pos he0]
    exact isQueue_wellFormed hq
  by_cases hb0 : buf = 0
  · have e : q_insert_head h head s ele buf = ((h.setValue ele buf).free ele, false) := by
      simp [q_insert_head, hh0, he0, hb0, Heap.setValue]
    rw [e]
    exact isQueue_wellFormed (isQueue_frame hq (fun p _ => ⟨rfl, rfl⟩))
  · obtain ⟨h1, e1, hq1, -⟩ := q_insert_head_spec hq s (he he0) he0 hb0
    rw [e1]
    exact wellFormed_of_isQueue hq1 (by simp)

theorem q_insert_tail_wellFormed {h : Heap} {head : Ptr} {xs : List Ptr}
    (hq : IsQueue h head xs) (s : Text) (ele buf : Ptr)
    (he : ele ≠ 0 → ele ∉ head :: xs) :
    WellFormed (q_insert_tail h head s ele buf).1 head
      (if (q_insert_tail h head s ele buf).2 then xs.length + 1 else xs.length) := by
  have hh0 := isQueue_head_ne_zero hq
  by_cases he0 : ele = 0
  · simp only [q_insert_tail, if_neg hh0, if_pos he0]
    exact isQueue_wellFormed hq
  by_cases hb0 : buf = 0
  · have e : q_insert_tail h head s ele buf = ((h.setValue ele buf).free ele, false) := by
      simp [q_insert_tail, hh0, he0, hb0, Heap.setValue]
    rw [e]
    exact isQueue_wellFormed (isQueue_frame hq (fun p _ => ⟨rfl, rfl⟩))
  · obtain ⟨h1, e1, hq1, -⟩ := q_insert_tail_spec hq s (he he0) he0 hb0
    rw [e1]
    exact wellFormed_of_isQueue hq1 (by simp)

theorem q_remove_head_wellFormed {h : Heap} {head : Ptr} {xs : List Ptr}
    (hq : IsQueue h head xs) (sp : Ptr) (bufsize : Nat) (buf : Nat → Nat) :
    WellFormed (q_remove_head h head sp bufsize buf).1 head (xs.length - 1) := by
  rcases xs with _ | ⟨x, xs⟩
  · have : q_remove_head h head sp bufsize buf = (h, 0, buf) := by
      simp [q_remove_head, (isQueue_list_empty hq).2 rfl]
    rw [this]
    exact isQueue_wellFormed hq
  · obtain ⟨e, hq2, -⟩ := q_remove_head_spec hq sp bufsize buf
    rw [e]
    exact wellFormed_of_isQueue hq2 (by simp)

theorem q_remove_tail_wellFormed {h : Heap} {head : Ptr} {xs : List Ptr}
    (hq : IsQueue h head xs) (sp : Ptr) (bufsize : Nat) (buf : Nat → Nat) :
    WellFormed (q_remove_tail h head sp bufsize buf).1 head (xs.length - 1) := by
  rcases List.eq_nil_or_concat xs with rfl | ⟨ys, x, hx⟩
  · have : q_remove_tail h head sp bufsize buf = (h, 0, buf) := by
      simp [q_remove_tail, (isQueue_list_empty hq).2 rfl]
    rw [this]
    exact isQueue_wellFormed hq
  · rw [List.concat_eq_append] at hx
    subst hx
    obtain ⟨e, hq2, -⟩ := q_remove_tail_spec hq sp bufsize buf
    rw [e]
    exact wellFormed_of_isQueue hq2 (by simp)

theorem q_delete_mid_wellFormed {h : Heap} {head : Ptr} {xs : List Ptr}
    (hq : IsQueue h head xs) {fuel : Nat} (hf : xs.length / 2 < fuel) :
    ∃ h' b, q_delete_mid fuel h head = some (h', b) ∧ WellFormed h' head (xs.length - 1) := by
  by_cases hne : xs = []
  · subst hne
    refine ⟨h, false, ?_, isQueue_wellFormed hq⟩
    simp [q_delete_mid, (isQueue_list_empty hq).2 rfl]
  · obtain ⟨h', e, hq', -⟩ := q_delete_mid_spec hq hne hf
    refine ⟨h', true, e, wellFormed_of_isQueue hq' ?_⟩
    have hlen : 0 < xs.length := List.length_pos.2 hne
    rw [List.length_eraseIdx, if_pos (Nat.div_lt_self hlen (by norm_num))]

theorem dedup_from_sublist (t : Ptr → Text) : ∀ (rest : List Ptr) (last : Option Ptr)
    (c : Ptr), (dedup_from t last c rest).Sublist (c :: rest)
  | [], last, c => by
    unfold dedup_from
    split
    · exact List.nil_sublist _
    · exact List.Sublist.refl _
  | n :: rest, last, c => by
    unfold dedup_from
    split
    · exact (dedup_from_sublist t rest (some n) c).trans
        (List.Sublist.cons₂ c (List.sublist_cons_self n rest))
    · split
      · exact (dedup_from_sublist t rest (some c) n).trans (List.sublist_cons_self c _)
      · exact List.Sublist.cons₂ c (dedup_from_sublist t rest last n)

/-- The elements `q_delete_dup` keeps form a subsequence of the original ones. -/
theorem dedupL_sublist (t : Ptr → Text) : ∀ xs : List Ptr, (dedupL t xs).Sublist xs
  | [] => List.Sublist.refl _
  | c :: rest => dedup_from_sublist t rest none c

theorem q_delete_dup_wellFormed {h : Heap} {head tmp : Ptr} {xs : List Ptr} {fuel : Nat}
    (hq : IsQueue h head xs) (htmp : tmp ∉ head :: xs) (htmp0 : tmp ≠ 0)
    (hf : xs.length < fuel) :
    ∃ h' m, q_delete_dup fuel h head tmp = some (h', true) ∧ m ≤ xs.length ∧
      WellFormed h' head m := by
  obtain ⟨h', e, hq', -⟩ := q_delete_dup_spec hq htmp htmp0 hf
  exact ⟨h', _, e, (dedupL_sublist _ xs).length_le, isQueue_wellFormed hq'⟩

theorem q_swap_wellFormed {h : Heap} {head : Ptr} {xs : List Ptr} {fuel : Nat}
    (hq : IsQueue h head xs) (hf : xs.length / 2 < fuel) :
    ∃ h', q_swap fuel h head = some h' ∧ WellFormed h' head xs.length := by
  obtain ⟨h', e, hq', -⟩ := q_swap_spec hq hf
  exact ⟨h', e, wellFormed_of_isQueue hq' (swap_pairs_length xs)⟩

theorem q_reverse_wellFormed {h : Heap} {head : Ptr} {xs : List Ptr} {fuel : Nat}
    (hq : IsQueue h head xs) (hf : xs.length < fuel) :
    ∃ h', q_reverse fuel h head = some h' ∧ WellFormed h' head xs.length := by
  obtain ⟨h', e, hq', -⟩ := q_reverse_spec hq hf
  exact ⟨h', e, wellFormed_of_isQueue hq' (List.length_reverse xs)⟩

theorem q_sort_wellFormed {h : Heap} {head sp : Ptr} {xs : List Ptr} {fuel : Nat}
    (hq : IsQueue h head xs) (hsp : ∀ p ∈ head :: xs, p < sp) (hf : xs.length < fuel) :
    ∃ h', q_sort fuel h head sp = some h' ∧ WellFormed h' head xs.length := by
  obtain ⟨h', e, hq', -⟩ := q_sort_spec hq hsp hf
  exact ⟨h', e, wellFormed_of_isQueue hq' (length_msortL _ xs)⟩

/-! ### The `int` counter of `q_size` -/

theorem wrap_int_succ (z : Int) : wrap_int (wrap_int z + 1) = wrap_int (z + 1) := by
  unfold wrap_int
  omega

theorem iterate_wrap (n : Nat) : ∀ z : Int,
    Nat.iterate (fun z => wrap_int (z + 1)) n (wrap_int z) = wrap_int (z + n) := by
  induction n with
  | zero => intro z; simp
  | succ n ih =>
    intro z
    rw [Function.iterate_succ_apply, wrap_int_succ, ih (z + 1)]
    push_cast
    congr 1
    ring

theorem ring_heap_iterate (N : Nat) (txt : Ptr → Text) : ∀ k, k ≤ N →
    (ring_heap N txt).next^[k] 1 = k + 1
  | 0, _ => rfl
  | k + 1, hk => by
    rw [Function.iterate_succ_apply', ring_heap_iterate N txt k (by omega)]
    have : k + 1 ≠ N + 1 := by omega
    simp [ring_heap, this]

theorem ring_heap_wellFormed (N : Nat) (txt : Ptr → Text) : WellFormed (ring_heap N txt) 1 N := by
  refine ⟨?_, ?_⟩
  · intro k hk
    rw [ring_heap_iterate N txt k hk]
    refine ⟨by simp, ?_, ?_, ?_⟩
    · by_cases e : k = N
      · simp [ring_heap, e]
      · have : k + 1 ≠ N + 1 := by omega
        simp [ring_heap, this]
    · cases k with
      | zero => simp [ring_heap]
      | succ k =>
        have : k + 1 ≠ N + 1 := by omega
        simp [ring_heap, this]
    · intro hk0 e
      have : k = 0 := by simpa using e
      omega
  · rw [Function.iterate_succ_apply', ring_heap_iterate N txt N (le_refl _)]
    simp [ring_heap]

theorem wrap_int_range (z : Int) : -2 ^ 31 ≤ wrap_int z ∧ wrap_int z < 2 ^ 31 := by
  unfold wrap_int
  omega

theorem q_size_loop_range (h : Heap) (head : Ptr) : ∀ (fuel : Nat) (li : Ptr) (len r : Int),
    q_size_loop h head fuel li len = some r → r = len ∨ (-2 ^ 31 ≤ r ∧ r < 2 ^ 31)
  | 0, _, _, _, e => by simp [q_size_loop] at e
  | fuel + 1, li, len, r, e => by
    unfold q_size_loop at e
    split at e
    · left; exact (Option.some.inj e).symm
    · right
      rcases q_size_loop_range h head fuel _ _ r e with e1 | e1
      · rw [e1]; exact wrap_int_range _
      · exact e1

/-- Whatever `q_size` returns is an `int`. -/
theorem q_size_range (h : Heap) (head : Ptr) (fuel : Nat) (r : Int)
    (e : q_size fuel h head = some r) : -2 ^ 31 ≤ r ∧ r < 2 ^ 31 := by
  unfold q_size at e
  split at e
  · have : r = 0 := (Option.some.inj e).symm
    rw [this]; norm_num
  · rcases q_size_loop_range h head fuel _ _ r e with e1 | e1
    · rw [e1]; norm_num
    · exact e1

/-- C9 (as amended): every operation takes a well-formed queue to a well-formed
queue - `q_insert_head`, `q_insert_tail` (whether or not the allocations
succeed), `q_remove_head`, `q_remove_tail` (called without a buffer, or with a
capacity of at least 1: these calls write nothing to the buffer from index
`bufsize` on), `q_delete_mid`, `q_delete_dup`, `q_swap`, `q_reverse` and `q_sort` - and
`q_size` returns exactly the number of elements on the cycle when that number
fits its `int` result. -/
theorem invariant_preserved (h : Heap) (head : Ptr) (n : Nat) (hw : WellFormed h head n) :
    (∀ s ele buf, (ele ≠ 0 → ele ∉ head :: q_elems h head n) →
      WellFormed (q_insert_head h head s ele buf).1 head
        (if (q_insert_head h head s ele buf).2 then n + 1 else n)) ∧
    (∀ s ele buf, (ele ≠ 0 → ele ∉ head :: q_elems h head n) →
      WellFormed (q_insert_tail h head s ele buf).1 head
        (if (q_insert_tail h head s ele buf).2 then n + 1 else n)) ∧
    (∀ sp bufsize buf, sp = 0 ∨ 1 ≤ bufsize →
      WellFormed (q_remove_head h head sp bufsize buf).1 head (n - 1) ∧
      ∀ i, bufsize ≤ i → (q_remove_head h head sp bufsize buf).2.2 i = buf i) ∧
    (∀ sp bufsize buf, sp = 0 ∨ 1 ≤ bufsize →
      WellFormed (q_remove_tail h head sp bufsize buf).1 head (n - 1) ∧
      ∀ i, bufsize ≤ i → (q_remove_tail h head sp bufsize buf).2.2 i = buf i) ∧
    (∀ fuel, n / 2 < fuel →
      ∃ h' b, q_delete_mid fuel h head = some (h', b) ∧ WellFormed h' head (n - 1)) ∧
    (∀ fuel tmp, n < fuel → tmp ≠ 0 → tmp ∉ head :: q_elems h head n →
      ∃ h' m, q_delete_dup fuel h head tmp = some (h', true) ∧ m ≤ n ∧
        WellFormed h' head m) ∧
    (∀ fuel, n / 2 < fuel → ∃ h', q_swap fuel h head = some h' ∧ WellFormed h' head n) ∧
    (∀ fuel, n < fuel → ∃ h', q_reverse fuel h head = some h' ∧ WellFormed h' head n) ∧
    (∀ fuel sp, n < fuel → (∀ p ∈ head :: q_elems h head n, p < sp) →
      ∃ h', q_sort fuel h head sp = some h' ∧ WellFormed h' head n) ∧
    (∀ fuel, n < fuel → n < 2 ^ 31 → q_size fuel h head = some (n : Int)) := by
  obtain ⟨hq, hl⟩ := wellFormed_isQueue hw
  refine ⟨?_, ?_, ?_, ?_, ?_, ?_, ?_, ?_, ?_, ?_⟩
  · intro s ele buf he
    have := q_insert_head_wellFormed hq s ele buf he
    rwa [hl] at this
  · intro s ele buf he
    have := q_insert_tail_wellFormed hq s ele buf he
    rwa [hl] at this
  · intro sp bufsize buf hcap
    have := q_remove_head_wellFormed hq sp bufsize buf
    rw [hl] at this
    exact ⟨this, q_remove_head_within h head hcap buf⟩
  · intro sp bufsize buf hcap
    have := q_remove_tail_wellFormed hq sp bufsize buf
    rw [hl] at this
    exact ⟨this, q_remove_tail_within h head hcap buf⟩
  · intro fuel hf
    have := q_delete_mid_wellFormed hq (show _ < fuel by rw [hl]; exact hf)
    rwa [hl] at this
  · intro fuel tmp hf h0 hfresh
    have := q_delete_dup_wellFormed hq hfresh h0 (show _ < fuel by rw [hl]; exact hf)
    rwa [hl] at this
  · intro fuel hf
    have := q_swap_wellFormed hq (show _ < fuel by rw [hl]; exact hf)
    rwa [hl] at this
  · intro fuel hf
    have := q_reverse_wellFormed hq (show _ < fuel by rw [hl]; exact hf)
    rwa [hl] at this
  · intro fuel sp hf hsp
    have := q_sort_wellFormed hq hsp (show _ < fuel by rw [hl]; exact hf)
    rwa [hl] at this
  · intro fuel hf hn
    have := q_size_small hq (show _ < fuel by rw [hl]; exact hf) (by rw [hl]; exact hn)
    rwa [hl] at this

theorem invariant_preserved_witness :
    WellFormed (ring_heap 4 texts_cbba) 1 4 ∧
    ((∀ s ele buf, (ele ≠ 0 → ele ∉ (1 : Ptr) :: q_elems (ring_heap 4 texts_cbba) 1 4) →
      WellFormed (q_insert_head (ring_heap 4 texts_cbba) 1 s ele buf).1 1
        (if (q_insert_head (ring_heap 4 texts_cbba) 1 s ele buf).2 then 4 + 1 else 4)) ∧
    (∀ s ele buf, (ele ≠ 0 → ele ∉ (1 : Ptr) :: q_elems (ring_heap 4 texts_cbba) 1 4) →
      WellFormed (q_insert_tail (ring_heap 4 texts_cbba) 1 s ele buf).1 1
        (if (q_insert_tail (ring_heap 4 texts_cbba) 1 s ele buf).2 then 4 + 1 else 4)) ∧
    (∀ sp bufsize buf, sp = 0 ∨ 1 ≤ bufsize →
      WellFormed (q_remove_head (ring_heap 4 texts_cbba) 1 sp bufsize buf).1 1 (4 - 1) ∧
      ∀ i, bufsize ≤ i → (q_remove_head (ring_heap 4 texts_cbba) 1 sp bufsize buf).2.2 i =
        buf i) ∧
    (∀ sp bufsize buf, sp = 0 ∨ 1 ≤ bufsize →
      WellFormed (q_remove_tail (ring_heap 4 texts_cbba) 1 sp bufsize buf).1 1 (4 - 1) ∧
      ∀ i, bufsize ≤ i → (q_remove_tail (ring_heap 4 texts_cbba) 1 sp bufsize buf).2.2 i =
        buf i) ∧
    (∀ fuel, 4 / 2 < fuel →
      ∃ h' b, q_delete_mid fuel (ring_heap 4 texts_cbba) 1 = some (h', b) ∧
        WellFormed h' 1 (4 - 1)) ∧
    (∀ fuel tmp, 4 < fuel → tmp ≠ 0 → tmp ∉ (1 : Ptr) :: q_elems (ring_heap 4 texts_cbba) 1 4 →
      ∃ h' m, q_delete_dup fuel (ring_heap 4 texts_cbba) 1 tmp = some (h', true) ∧ m ≤ 4 ∧
        WellFormed h' 1 m) ∧
    (∀ fuel, 4 / 2 < fuel →
      ∃ h', q_swap fuel (ring_heap 4 texts_cbba) 1 = some h' ∧ WellFormed h' 1 4) ∧
    (∀ fuel, 4 < fuel →
      ∃ h', q_reverse fuel (ring_heap 4 texts_cbba) 1 = some h' ∧ WellFormed h' 1 4) ∧
    (∀ fuel sp, 4 < fuel → (∀ p ∈ (1 : Ptr) :: q_elems (ring_heap 4 texts_cbba) 1 4, p < sp) →
      ∃ h', q_sort fuel (ring_heap 4 texts_cbba) 1 sp = some h' ∧ WellFormed h' 1 4) ∧
    (∀ fuel, 4 < fuel → 4 < 2 ^ 31 →
      q_size fuel (ring_heap 4 texts_cbba) 1 = some ((4 : Nat) : Int))) :=
  ⟨by decide, invariant_preserved (ring_heap 4 texts_cbba) 1 4 (by decide)⟩

/-- C9 as stated fails for `q_size`: on a well-formed queue of `2 ^ 31` elements
the `int` counter overflows; `q_size` returns `-2147483648` there, and with no
amount of fuel does it return `2 ^ 31`. -/
theorem q_size_overflow :
    WellFormed (ring_heap (2 ^ 31) texts_abc) 1 (2 ^ 31) ∧
      q_size (2 ^ 31 + 1) (ring_heap (2 ^ 31) texts_abc) 1 = some (-2147483648) ∧
      ∀ fuel, q_size fuel (ring_heap (2 ^ 31) texts_abc) 1 ≠ some ((2 ^ 31 : Nat) : Int) := by
  have hw := ring_heap_wellFormed (2 ^ 31) texts_abc
  obtain ⟨hq, hl⟩ := wellFormed_isQueue hw
  refine ⟨hw, ?_, ?_⟩
  · rw [q_size_spec hq (show _ < 2 ^ 31 + 1 by rw [hl]; omega), hl]
    have := iterate_wrap (2 ^ 31) 0
    have h0 : wrap_int 0 = 0 := by norm_num [wrap_int]
    rw [h0] at this
    rw [this]
    norm_num [wrap_int]
  · intro fuel e
    have := (q_size_range _ _ _ _ e).2
    norm_num at this

/-! ### The worked examples of the specification -/

/-- Sorting "c", "b", "b", "a" gives "a", "b", "b", "c", the two "b" in their
original order. -/
theorem q_sort_example :
    (q_sort 5 (ring_heap 4 texts_cbba) 1 10).map (fun h => q_elems h 1 4) =
      some [5, 3, 4, 2] := by
  decide

/-- Queue [a, b, c, d, e, f]: `q_delete_mid` removes "d". -/
theorem q_delete_mid_example :
    (q_delete_mid 4 (ring_heap 6 texts_abc) 1).map (fun r => (q_elems r.1 1 5, r.2)) =
      some ([2, 3, 4, 6, 7], true) := by
  decide

/-- Queue [1, 2, 2, 3]: `q_delete_dup` leaves [1, 3]. -/
theorem q_delete_dup_example :
    (q_delete_dup 5 (ring_heap 4 texts_1223) 1 10).map (fun r => (q_elems r.1 1 2, r.2)) =
      some ([2, 5], true) := by
  decide

/-- Queue [a, b, c, d, e]: `q_swap` leaves [b, a, d, c, e]. -/
theorem q_swap_example :
    (q_swap 3 (ring_heap 5 texts_abc) 1).map (fun h => q_elems h 1 5) =
      some [3, 2, 5, 4, 6] := by
  decide

/-- Queue [c, b, b, a] reversed. -/
theorem q_reverse_example :
    (q_reverse 5 (ring_heap 4 texts_cbba) 1).map (fun h => q_elems h 1 4) =
      some [5, 4, 3, 2] := by
  decide

/-! ### Runs of insertions and removals -/

theorem q_insert_tail_value (h : Heap) (head : Ptr) (s : Text) (ele buf p : Ptr)
    (hh : head ≠ 0) (he0 : ele ≠ 0) (hb0 : buf ≠ 0) :
    (q_insert_tail h head s ele buf).1.value p = if p = ele then buf else h.value p := by
  simp [q_insert_tail, hh, he0, hb0, Heap.setValue, list_add_tail, Heap.setStr]

theorem q_insert_head_value (h : Heap) (head : Ptr) (s : Text) (ele buf p : Ptr)
    (hh : head ≠ 0) (he0 : ele ≠ 0) (hb0 : buf ≠ 0) :
    (q_insert_head h head s ele buf).1.value p = if p = ele then buf else h.value p := by
  simp [q_insert_head, hh, he0, hb0, Heap.setValue, list_add, Heap.setStr]

theorem insert_tails_spec (head : Ptr) : ∀ (items : List (Text × Ptr × Ptr)) (h : Heap)
    (xs : List Ptr), IsQueue h head xs →
    ((head :: xs) ++ items.map (fun it => it.2.1)).Nodup →
    0 ∉ items.map (fun it => it.2.1) → (items.map (fun it => it.2.2)).Nodup →
    0 ∉ items.map (fun it => it.2.2) →
    (∀ p ∈ xs, h.value p ∉ items.map (fun it => it.2.2)) →
    ∃ h', insert_tails head h items = (h', true) ∧
      IsQueue h' head (xs ++ items.map (fun it => it.2.1)) ∧
      (∀ p ∈ xs, text h' p = text h p) ∧
      (items.map (fun it => it.2.1)).map (text h') = items.map (fun it => it.1)
  | [], h, xs, hq, _, _, _, _, _ => by
    exact ⟨h, rfl, by simpa using hq, fun _ _ => rfl, rfl⟩
  | (s, ele, buf) :: rest, h, xs, hq, hnd, he0, hb, hb0, hv => by
    have hh0 := isQueue_head_ne_zero hq
    have hele0 : ele ≠ 0 := fun e => he0 (by simp [e])
    have hbuf0 : buf ≠ 0 := fun e => hb0 (by simp [e])
    have hefresh : ele ∉ head :: xs := by
      intro hx
      exact (List.nodup_append.1 hnd).2.2 hx (by simp)
    obtain ⟨h1, e1, hq1, ht1, hto1, -, -⟩ := q_insert_tail_spec hq s hefresh hele0 hbuf0
    have hval : ∀ p, h1.value p = if p = ele then buf else h.value p := by
      intro p
      have := q_insert_tail_value h head s ele buf p hh0 hele0 hbuf0
      rw [e1] at this
      exact this
    have hbrest : buf ∉ rest.map (fun it => it.2.2) := by
      have : (buf :: rest.map (fun it => it.2.2)).Nodup := by simpa using hb
      exact (List.nodup_cons.1 this).1
    have hnd1 : ((head :: (xs ++ [ele])) ++ rest.map (fun it => it.2.1)).Nodup := by
      refine (List.Perm.nodup_iff ?_).2 hnd
      rw [List.perm_iff_count]
      intro x
      simp only [List.map_cons, List.count_append, List.count_cons, List.count_nil]
      omega
    obtain ⟨h', e2, hq2, ht2, hmap2⟩ := insert_tails_spec head rest h1 (xs ++ [ele]) hq1 hnd1
      (fun hx => he0 (by simp [hx]))
      (by
        have : (buf :: rest.map (fun it => it.2.2)).Nodup := by simpa using hb
        exact (List.nodup_cons.1 this).2)
      (fun hx => hb0 (by simp [hx]))
      (by
        intro p hp
        rw [hval p]
        rcases List.mem_append.1 hp with hp1 | hp1
        · have hpe : p ≠ ele := fun e => hefresh (e ▸ List.mem_cons_of_mem _ hp1)
          rw [if_neg hpe]
          intro hx
          exact hv p hp1 (by simp [hx])
        · have hpe : p = ele := by simpa using hp1
          rw [if_pos hpe]
          exact hbrest)
    refine ⟨h', ?_, by simpa using hq2, ?_, ?_⟩
    · simp only [insert_tails, e1, e2, Bool.and_self]
    · intro p hp
      rw [ht2 p (by simp [hp])]
      refine hto1 p (fun e => hefresh (e ▸ List.mem_cons_of_mem _ hp)) ?_
      intro hx
      exact hv p hp (by simp [hx])
    · simp only [List.map_cons, List.cons.injEq]
      refine ⟨?_, by simpa using hmap2⟩
      rw [ht2 ele (by simp), ht1]

theorem insert_heads_spec (head : Ptr) : ∀ (items : List (Text × Ptr × Ptr)) (h : Heap)
    (xs : List Ptr), IsQueue h head xs →
    ((head :: xs) ++ items.map (fun it => it.2.1)).Nodup →
    0 ∉ items.map (fun it => it.2.1) → (items.map (fun it => it.2.2)).Nodup →
    0 ∉ items.map (fun it => it.2.2) →
    (∀ p ∈ xs, h.value p ∉ items.map (fun it => it.2.2)) →
    ∃ h', insert_heads head h items = (h', true) ∧
      IsQueue h' head ((items.map (fun it => it.2.1)).reverse ++ xs) ∧
      (∀ p ∈ xs, text h' p = text h p) ∧
      (items.map (fun it => it.2.1)).map (text h') = items.map (fun it => it.1)
  | [], h, xs, hq, _, _, _, _, _ => by
    exact ⟨h, rfl, by simpa using hq, fun _ _ => rfl, rfl⟩
  | (s, ele, buf) :: rest, h, xs, hq, hnd, he0, hb, hb0, hv => by
    have hh0 := isQueue_head_ne_zero hq
    have hele0 : ele ≠ 0 := fun e => he0 (by simp [e])
    have hbuf0 : buf ≠ 0 := fun e => hb0 (by simp [e])
    have hefresh : ele ∉ head :: xs := by
      intro hx
      exact (List.nodup_append.1 hnd).2.2 hx (by simp)
    obtain ⟨h1, e1, hq1, ht1, hto1, -, -⟩ := q_insert_head_spec hq s hefresh hele0 hbuf0
    have hval : ∀ p, h1.value p = if p = ele then buf else h.value p := by
      intro p
      have := q_insert_head_value h head s ele buf p hh0 hele0 hbuf0
      rw [e1] at this
      exact this
    have hbrest : buf ∉ rest.map (fun it => it.2.2) := by
      have : (buf :: rest.map (fun it => it.2.2)).Nodup := by simpa using hb
      exact (List.nodup_cons.1 this).1
    have hnd1 : ((head :: (ele :: xs)) ++ rest.map (fun it => it.2.1)).Nodup := by
      refine (List.Perm.nodup_iff ?_).2 hnd
      rw [List.perm_iff_count]
      intro x
      simp only [List.map_cons, List.count_append, List.count_cons, List.count_nil]
      omega
    obtain ⟨h', e2, hq2, ht2, hmap2⟩ := insert_heads_spec head rest h1 (ele :: xs) hq1 hnd1
      (fun hx => he0 (by simp [hx]))
      (by
        have : (buf :: rest.map (fun it => it.2.2)).Nodup := by simpa using hb
        exact (List.nodup_cons.1 this).2)
      (fun hx => hb0 (by simp [hx]))
      (by
        intro p hp
        rw [hval p]
        rcases List.mem_cons.1 hp with hp1 | hp1
        · rw [if_pos hp1]
          exact hbrest
        · have hpe : p ≠ ele := fun e => hefresh (e ▸ List.mem_cons_of_mem _ hp1)
          rw [if_neg hpe]
          intro hx
          exact hv p hp1 (by simp [hx]))
    refine ⟨h', ?_, by simpa using hq2, ?_, ?_⟩
    · simp only [insert_heads, e1, e2, Bool.and_self]
    · intro p hp
      rw [ht2 p (by simp [hp])]
      refine hto1 p (fun e => hefresh (e ▸ List.mem_cons_of_mem _ hp)) ?_
      intro hx
      exact hv p hp (by simp [hx])
    · simp only [List.map_cons, List.cons.injEq]
      refine ⟨?_, by simpa using hmap2⟩
      rw [ht2 ele (by simp), ht1]

theorem remove_heads_spec (head sp : Ptr) (bufsize : Nat) (buf : Nat → Nat) :
    ∀ (xs : List Ptr) (h : Heap), IsQueue h head xs →
    ∃ h', remove_heads head sp bufsize buf xs.length h = (h', xs) ∧ IsQueue h' head [] ∧
      SameData h h'
  | [], h, hq => ⟨h, rfl, hq, sameData_refl h⟩
  | x :: xs, h, hq => by
    obtain ⟨e, hq1, -, hsd, -⟩ := q_remove_head_spec hq sp bufsize buf
    obtain ⟨h', e2, hq2, hsd2⟩ := remove_heads_spec head sp bufsize buf xs _ hq1
    refine ⟨h', ?_, hq2, sameData_trans hsd hsd2⟩
    simp only [List.length_cons, remove_heads, e, e2]

/-! ### Queue discipline -/

/-- Claim C11.  Starting from an empty queue, with every allocation succeeding
(the element and buffer addresses handed out are non-null and distinct), a run
of `q_insert_tail` over the items followed by as many calls of `q_remove_head`
returns the elements carrying the texts of the items in insertion order; the
same run with `q_insert_head` returns them in reverse order.  Every insertion
reports success and the queue is empty at the end.  The removals are called
without a buffer, or with a capacity of at least 1: for none of the texts does
the copy-out overrun the buffer. -/
theorem fifo_lifo_order (h : Heap) (head sp : Ptr) (items : List (Text × Ptr × Ptr))
    (bufsize : Nat) (buf : Nat → Nat) (hq : IsQueue h head [])
    (hnd : (head :: items.map (fun it => it.2.1)).Nodup)
    (he0 : 0 ∉ items.map (fun it => it.2.1))
    (hb : (items.map (fun it => it.2.2)).Nodup)
    (hb0 : 0 ∉ items.map (fun it => it.2.2)) (hcap : sp = 0 ∨ 1 ≤ bufsize) :
    ((insert_tails head h items).2 = true ∧
      (remove_heads head sp bufsize buf items.length (insert_tails head h items).1).2.map
          (text (remove_heads head sp bufsize buf items.length (insert_tails head h items).1).1)
        = items.map (fun it => it.1) ∧
      IsQueue (remove_heads head sp bufsize buf items.length (insert_tails head h items).1).1
        head []) ∧
    ((insert_heads head h items).2 = true ∧
      (remove_heads head sp bufsize buf items.length (insert_heads head h items).1).2.map
          (text (remove_heads head sp bufsize buf items.length (insert_heads head h items).1).1)
        = (items.map (fun it => it.1)).reverse ∧
      IsQueue (remove_heads head sp bufsize buf items.length (insert_heads head h items).1).1
        head []) ∧
    ∀ it ∈ items, ¬ copy_overruns it.1 sp bufsize := by
  have hnd' : ((head :: []) ++ items.map (fun it => it.2.1)).Nodup := by simpa using hnd
  refine ⟨?_, ?_, ?_⟩
  · obtain ⟨h1, e1, hq1, -, hm1⟩ := insert_tails_spec head items h [] hq hnd' he0 hb hb0
      (fun p hp => by simp at hp)
    obtain ⟨h2, e2, hq2, hsd⟩ := remove_heads_spec head sp bufsize buf _ h1 hq1
    simp only [List.nil_append, List.length_map] at e2
    rw [e1]
    simp only [e2]
    refine ⟨trivial, ?_, hq2⟩
    rw [sameData_text hsd]
    exact hm1
  · obtain ⟨h1, e1, hq1, -, hm1⟩ := insert_heads_spec head items h [] hq hnd' he0 hb hb0
      (fun p hp => by simp at hp)
    obtain ⟨h2, e2, hq2, hsd⟩ := remove_heads_spec head sp bufsize buf _ h1 hq1
    simp only [List.append_nil, List.length_reverse, List.length_map] at e2
    rw [e1]
    simp only [e2]
    refine ⟨trivial, ?_, hq2⟩
    rw [sameData_text hsd, ← hm1]
    simp only [List.map_reverse]
  · intro it _ ho
    obtain ⟨h1, h2⟩ := (copy_overruns_iff _ _ _).1 ho
    rcases hcap with a | a
    · exact h1 a
    · omega

theorem fifo_lifo_order_witness :
    IsQueue (ring_heap 0 texts_abc) 1 [] ∧
    ((1 : Ptr) :: items_abc.map (fun it => it.2.1)).Nodup ∧
    (0 : Ptr) ∉ items_abc.map (fun it => it.2.1) ∧
    (items_abc.map (fun it => it.2.2)).Nodup ∧
    (0 : Ptr) ∉ items_abc.map (fun it => it.2.2) ∧ ((40 : Ptr) = 0 ∨ 1 ≤ 8) ∧
    ((insert_tails 1 (ring_heap 0 texts_abc) items_abc).2 = true ∧
      (remove_heads 1 40 8 (fun _ => 7) items_abc.length
          (insert_tails 1 (ring_heap 0 texts_abc) items_abc).1).2.map
          (text (remove_heads 1 40 8 (fun _ => 7) items_abc.length
            (insert_tails 1 (ring_heap 0 texts_abc) items_abc).1).1)
        = items_abc.map (fun it => it.1) ∧
      IsQueue (remove_heads 1 40 8 (fun _ => 7) items_abc.length
        (insert_tails 1 (ring_heap 0 texts_abc) items_abc).1).1 1 []) ∧
    ((insert_heads 1 (ring_heap 0 texts_abc) items_abc).2 = true ∧
      (remove_heads 1 40 8 (fun _ => 7) items_abc.length
          (insert_heads 1 (ring_heap 0 texts_abc) items_abc).1).2.map
          (text (remove_heads 1 40 8 (fun _ => 7) items_abc.length
            (insert_heads 1 (ring_heap 0 texts_abc) items_abc).1).1)
        = (items_abc.map (fun it => it.1)).reverse ∧
      IsQueue (remove_heads 1 40 8 (fun _ => 7) items_abc.length
        (insert_heads 1 (ring_heap 0 texts_abc) items_abc).1).1 1 []) ∧
    ∀ it ∈ items_abc, ¬ copy_overruns it.1 40 8 :=
  ⟨by decide, by decide, by decide, by decide, by decide, by decide,
    fifo_lifo_order (ring_heap 0 texts_abc) 1 40 items_abc 8 (fun _ => 7)
      (by decide) (by decide) (by decide) (by decide) (by decide) (by decide)⟩

/-- The worked example of the queue discipline: "a", "b", "c" inserted at the
tail come out of the head as "a", "b", "c"; inserted at the head they come out
as "c", "b", "a". -/
theorem fifo_lifo_example :
    (remove_heads 1 40 8 (fun _ => 7) 3 (insert_tails 1 (ring_heap 0 texts_abc) items_abc).1).2.map
        (text (remove_heads 1 40 8 (fun _ => 7) 3
          (insert_tails 1 (ring_heap 0 texts_abc) items_abc).1).1) = [[97], [98], [99]] ∧
    (remove_heads 1 40 8 (fun _ => 7) 3 (insert_heads 1 (ring_heap 0 texts_abc) items_abc).1).2.map
        (text (remove_heads 1 40 8 (fun _ => 7) 3
          (insert_heads 1 (ring_heap 0 texts_abc) items_abc).1).1) = [[99], [98], [97]] := by
  decide

/-! ### Copy-out of a removed text -/

/-- With a capacity from 1 up to the length of the text, the copy-out writes the
first `c - 1` bytes of the text, a terminator at index `c - 1`, and nothing at
an index from `c` on. -/
theorem copy_out_truncates (t : Text) {sp : Ptr} (hsp : sp ≠ 0) {c : Nat} (h1 : 1 ≤ c)
    (h2 : c ≤ strlen t) (hB : c < SIZE_MOD) (buf : Nat → Nat) (i : Nat) :
    copy_out t sp c buf i =
      if i < c - 1 then t.getD i 0 else if i = c - 1 then 0 else buf i := by
  have e1 : (c + SIZE_MOD - 1) % SIZE_MOD = c - 1 := by
    have : c + SIZE_MOD - 1 = (c - 1) + SIZE_MOD := by omega
    rw [this, Nat.add_mod_right, Nat.mod_eq_of_lt (by omega)]
  have e2 : (c - 1 + 1) % SIZE_MOD = c := by
    rw [Nat.sub_add_cancel h1, Nat.mod_eq_of_lt hB]
  have hn : ¬ c > strlen t := by omega
  simp only [copy_out, hsp, ne_eq, not_false_eq_true, if_true, hn, if_false, e1, e2, strncpy,
    memset]
  by_cases h3 : i < c - 1
  · simp [h3]
  · by_cases h4 : i = c - 1
    · have : i < c := by omega
      simp [h3, h4, this]
      intro h5
      omega
    · have : ¬ i < c := by omega
      simp [h3, h4, this]

/-- With capacity 0 the length `bufsize - 1` wraps to `2 ^ 64 - 1`: the length
of the `memset` wraps to 0 and `strncpy` writes `2 ^ 64 - 1` bytes, the text
followed by zero bytes. -/
theorem copy_out_zero_capacity (t : Text) {sp : Ptr} (hsp : sp ≠ 0) (buf : Nat → Nat)
    (i : Nat) (hi : i < SIZE_MOD - 1) : copy_out t sp 0 buf i = t.getD i 0 := by
  have e1 : (0 + SIZE_MOD - 1) % SIZE_MOD = SIZE_MOD - 1 := by
    rw [Nat.zero_add]
    exact Nat.mod_eq_of_lt (by unfold SIZE_MOD; norm_num)
  have hn : ¬ 0 > strlen t := by omega
  simp only [copy_out, hsp, ne_eq, not_false_eq_true, if_true, hn, if_false, e1, strncpy, hi]

/-- Claim C12, at capacity 0.  The queue holds one element with the text "a"
(length 1) and the caller's buffer at `sp = 40` is filled with the byte 7.
`q_remove_head` and `q_remove_tail` called with capacity 0 write the byte "a" at
index 0 and zero bytes at the indices after it (up to index `2 ^ 64 - 2`): they
write at indices that are not below the capacity. -/
theorem q_remove_zero_capacity_overrun :
    strlen (text (ring_heap 1 texts_abc) 2) = 1 ∧
    (q_remove_head (ring_heap 1 texts_abc) 1 40 0 (fun _ => 7)).2.1 = 2 ∧
    (q_remove_head (ring_heap 1 texts_abc) 1 40 0 (fun _ => 7)).2.2 0 = 97 ∧
    (q_remove_head (ring_heap 1 texts_abc) 1 40 0 (fun _ => 7)).2.2 1 = 0 ∧
    (q_remove_head (ring_heap 1 texts_abc) 1 40 0 (fun _ => 7)).2.2 1000 = 0 ∧
    (q_remove_head (ring_heap 1 texts_abc) 1 40 0 (fun _ => 7)).2.2 (2 ^ 64 - 2) = 0 ∧
    (q_remove_tail (ring_heap 1 texts_abc) 1 40 0 (fun _ => 7)).2.1 = 2 ∧
    (q_remove_tail (ring_heap 1 texts_abc) 1 40 0 (fun _ => 7)).2.2 0 = 97 ∧
    (q_remove_tail (ring_heap 1 texts_abc) 1 40 0 (fun _ => 7)).2.2 1 = 0 ∧
    (q_remove_tail (ring_heap 1 texts_abc) 1 40 0 (fun _ => 7)).2.2 1000 = 0 ∧
    (q_remove_tail (ring_heap 1 texts_abc) 1 40 0 (fun _ => 7)).2.2 (2 ^ 64 - 2) = 0 := by
  decide

/-- For a capacity `c` with `1 ≤ c < len` both removals truncate as documented:
bytes `0 .. c - 2` of the text, a terminator at `c - 1`, the buffer untouched
from index `c` on. -/
theorem q_remove_truncates (h : Heap) (head sp : Ptr) (ys : List Ptr) (x : Ptr) (c : Nat)
    (buf : Nat → Nat) (hsp : sp ≠ 0) (h1 : 1 ≤ c) (hB : c < SIZE_MOD) :
    (IsQueue h head (x :: ys) → c < strlen (text h x) → ∀ i,
      (q_remove_head h head sp c buf).2.2 i =
        if i < c - 1 then (text h x).getD i 0 else if i = c - 1 then 0 else buf i) ∧
    (IsQueue h head (ys ++ [x]) → c < strlen (text h x) → ∀ i,
      (q_remove_tail h head sp c buf).2.2 i =
        if i < c - 1 then (text h x).getD i 0 else if i = c - 1 then 0 else buf i) := by
  constructor
  · intro hq hc i
    rw [(q_remove_head_spec hq sp c buf).1]
    exact copy_out_truncates _ hsp h1 (by omega) hB buf i
  · intro hq hc i
    rw [(q_remove_tail_spec hq sp c buf).1]
    exact copy_out_truncates _ hsp h1 (by omega) hB buf i

/-! ### Removal at either end -/

/-- On a non-empty queue, called without a buffer or with a capacity of at
least 1, `q_remove_head` returns the first element and `q_remove_tail` the last
one; the other elements stay in their order (the queue is one element shorter
and well formed), all texts are as before, nothing is written to the buffer from
index `bufsize` on, and the heap and the returned element are the same for every
such choice of buffer, capacity and buffer contents. -/
theorem q_remove_ends (h : Heap) (head sp : Ptr) (ys : List Ptr) (bufsize : Nat)
    (buf : Nat → Nat) (hq : IsQueue h head ys) (hne : ys ≠ [])
    (hcap : sp = 0 ∨ 1 ≤ bufsize) :
    (some (q_remove_head h head sp bufsize buf).2.1 = ys.head? ∧
      IsQueue (q_remove_head h head sp bufsize buf).1 head ys.tail ∧
      WellFormed (q_remove_head h head sp bufsize buf).1 head (ys.length - 1) ∧
      text (q_remove_head h head sp bufsize buf).1 = text h ∧
      (∀ i, bufsize ≤ i → (q_remove_head h head sp bufsize buf).2.2 i = buf i) ∧
      ∀ sp' bufsize' buf', sp' = 0 ∨ 1 ≤ bufsize' →
        (q_remove_head h head sp' bufsize' buf').1 = (q_remove_head h head sp bufsize buf).1 ∧
        (q_remove_head h head sp' bufsize' buf').2.1 =
          (q_remove_head h head sp bufsize buf).2.1) ∧
    (some (q_remove_tail h head sp bufsize buf).2.1 = ys.getLast? ∧
      IsQueue (q_remove_tail h head sp bufsize buf).1 head ys.dropLast ∧
      WellFormed (q_remove_tail h head sp bufsize buf).1 head (ys.length - 1) ∧
      text (q_remove_tail h head sp bufsize buf).1 = text h ∧
      (∀ i, bufsize ≤ i → (q_remove_tail h head sp bufsize buf).2.2 i = buf i) ∧
      ∀ sp' bufsize' buf', sp' = 0 ∨ 1 ≤ bufsize' →
        (q_remove_tail h head sp' bufsize' buf').1 = (q_remove_tail h head sp bufsize buf).1 ∧
        (q_remove_tail h head sp' bufsize' buf').2.1 =
          (q_remove_tail h head sp bufsize buf).2.1) := by
  constructor
  · have hin := q_remove_head_within h head hcap buf
    rcases ys with _ | ⟨x, xs⟩
    · exact absurd rfl hne
    · obtain ⟨e, hq1, -, hsd, -⟩ := q_remove_head_spec hq sp bufsize buf
      rw [e] at hin ⊢
      refine ⟨rfl, hq1, wellFormed_of_isQueue hq1 (by simp), sameData_text hsd, hin, ?_⟩
      intro sp' bufsize' buf' _
      rw [(q_remove_head_spec hq sp' bufsize' buf').1]
      exact ⟨rfl, rfl⟩
  · have hin := q_remove_tail_within h head hcap buf
    have hys : ys.dropLast ++ [ys.getLast hne] = ys := List.dropLast_append_getLast hne
    have hq' : IsQueue h head (ys.dropLast ++ [ys.getLast hne]) := by rw [hys]; exact hq
    obtain ⟨e, hq1, -, hsd, -⟩ := q_remove_tail_spec hq' sp bufsize buf
    rw [e] at hin ⊢
    refine ⟨(List.getLast?_eq_getLast _ hne).symm, hq1,
      wellFormed_of_isQueue hq1 (by simp), sameData_text hsd, hin, ?_⟩
    intro sp' bufsize' buf' _
    rw [(q_remove_tail_spec hq' sp' bufsize' buf').1]
    exact ⟨rfl, rfl⟩

/-- The removals on the queue [c, b, b, a] with a buffer of capacity 8. -/
theorem q_remove_ends_example :
    (q_remove_head (ring_heap 4 texts_cbba) 1 40 8 (fun _ => 7)).2.1 = 2 ∧
    q_elems (q_remove_head (ring_heap 4 texts_cbba) 1 40 8 (fun _ => 7)).1 1 3 = [3, 4, 5] ∧
    (q_remove_tail (ring_heap 4 texts_cbba) 1 40 8 (fun _ => 7)).2.1 = 5 ∧
    q_elems (q_remove_tail (ring_heap 4 texts_cbba) 1 40 8 (fun _ => 7)).1 1 3 = [2, 3, 4] ∧
    some (q_remove_head (ring_heap 4 texts_cbba) 1 40 8 (fun _ => 7)).2.1 =
      ([2, 3, 4, 5] : List Ptr).head? ∧
    IsQueue (q_remove_head (ring_heap 4 texts_cbba) 1 40 8 (fun _ => 7)).1 1 [3, 4, 5] :=
  ⟨by decide, by decide, by decide, by decide, by decide,
    (q_remove_ends (ring_heap 4 texts_cbba) 1 40 [2, 3, 4, 5] 8 (fun _ => 7) (by decide)
      (by decide) (by decide)).1.2.1⟩

/-- Claim C13, at capacity 0.  On the queue [c, b, b, a] a removal called with a
buffer of capacity 0 overruns that buffer before `list_del` is reached, at the
head (element 2, text "c") and at the tail (element 5, text "a"): the byte at
index 0 is written.  Called without a buffer, or with capacity 1, the same
removals do not overrun.  Whether the call is defined, and so whether there is a
resulting queue, depends on the capacity. -/
theorem q_remove_capacity_dependence :
    copy_overruns (text (ring_heap 4 texts_cbba) 2) 40 0 ∧
    copy_overruns (text (ring_heap 4 texts_cbba) 5) 40 0 ∧
    ¬ copy_overruns (text (ring_heap 4 texts_cbba) 2) 0 0 ∧
    ¬ copy_overruns (text (ring_heap 4 texts_cbba) 5) 0 0 ∧
    ¬ copy_overruns (text (ring_heap 4 texts_cbba) 2) 40 1 ∧
    ¬ copy_overruns (text (ring_heap 4 texts_cbba) 5) 40 1 ∧
    (q_remove_head (ring_heap 4 texts_cbba) 1 40 0 (fun _ => 7)).2.2 0 = 99 ∧
    (q_remove_tail (ring_heap 4 texts_cbba) 1 40 0 (fun _ => 7)).2.2 0 = 97 := by
  decide

/-! ### Failure and neutral cases -/

theorem q_insert_head_fail (h : Heap) (head : Ptr) (s : Text) (ele buf : Ptr)
    (hf : head = 0 ∨ ele = 0 ∨ buf = 0) :
    (q_insert_head h head s ele buf).2 = false ∧
      (∀ p, Unchanged h (q_insert_head h head s ele buf).1 p) ∧
      (∀ p, p ≠ ele → text (q_insert_head h head s ele buf).1 p = text h p) := by
  by_cases h1 : head = 0
  · simp [q_insert_head, h1, Unchanged]
  · by_cases h2 : ele = 0
    · simp [q_insert_head, h1, h2, Unchanged]
    · have h3 : buf = 0 := by tauto
      refine ⟨?_, ?_, ?_⟩
      · simp [q_insert_head, h1, h2, h3, Heap.setValue]
      · intro p
        simp [q_insert_head, h1, h2, h3, Heap.setValue, Heap.free, Unchanged]
      · intro p hp
        simp [q_insert_head, h1, h2, h3, Heap.setValue, Heap.free, text, hp]

theorem q_insert_tail_fail (h : Heap) (head : Ptr) (s : Text) (ele buf : Ptr)
    (hf : head = 0 ∨ ele = 0 ∨ buf = 0) :
    (q_insert_tail h head s ele buf).2 = false ∧
      (∀ p, Unchanged h (q_insert_tail h head s ele buf).1 p) ∧
      (∀ p, p ≠ ele → text (q_insert_tail h head s ele buf).1 p = text h p) := by
  by_cases h1 : head = 0
  · simp [q_insert_tail, h1, Unchanged]
  · by_cases h2 : ele = 0
    · simp [q_insert_tail, h1, h2, Unchanged]
    · have h3 : buf = 0 := by tauto
      refine ⟨?_, ?_, ?_⟩
      · simp [q_insert_tail, h1, h2, h3, Heap.setValue]
      · intro p
        simp [q_insert_tail, h1, h2, h3, Heap.setValue, Heap.free, Unchanged]
      · intro p hp
        simp [q_insert_tail, h1, h2, h3, Heap.setValue, Heap.free, text, hp]

/-- Claim C14.  When the queue reference is null, or the allocation of the
element record fails (`ele = 0`), or the allocation of the text buffer fails
(`buf = 0`), `q_insert_head` and `q_insert_tail` return false and no `next` or
`prev` field of the heap has changed, so every queue of the heap has the element
sequence it had, each element with its text.  They return true only when the
three are non-null, and then the new element, holding the text, is linked first
(resp. last) in the queue. -/
theorem q_insert_atomic (h : Heap) (head : Ptr) (s : Text) (ele buf : Ptr) :
    ((head = 0 ∨ ele = 0 ∨ buf = 0) →
      (q_insert_head h head s ele buf).2 = false ∧
      (q_insert_tail h head s ele buf).2 = false ∧
      ∀ hd xs, IsQueue h hd xs →
        IsQueue (q_insert_head h head s ele buf).1 hd xs ∧
        IsQueue (q_insert_tail h head s ele buf).1 hd xs ∧
        (ele ∉ xs → xs.map (text (q_insert_head h head s ele buf).1) = xs.map (text h) ∧
          xs.map (text (q_insert_tail h head s ele buf).1) = xs.map (text h))) ∧
    ((q_insert_head h head s ele buf).2 = true →
      (head ≠ 0 ∧ ele ≠ 0 ∧ buf ≠ 0) ∧
      ∀ xs, IsQueue h head xs → ele ∉ head :: xs →
        IsQueue (q_insert_head h head s ele buf).1 head (ele :: xs) ∧
        text (q_insert_head h head s ele buf).1 ele = s) ∧
    ((q_insert_tail h head s ele buf).2 = true →
      (head ≠ 0 ∧ ele ≠ 0 ∧ buf ≠ 0) ∧
      ∀ xs, IsQueue h head xs → ele ∉ head :: xs →
        IsQueue (q_insert_tail h head s ele buf).1 head (xs ++ [ele]) ∧
        text (q_insert_tail h head s ele buf).1 ele = s) := by
  refine ⟨?_, ?_, ?_⟩
  · intro hf
    obtain ⟨a1, a2, a3⟩ := q_insert_head_fail h head s ele buf hf
    obtain ⟨b1, b2, b3⟩ := q_insert_tail_fail h head s ele buf hf
    refine ⟨a1, b1, ?_⟩
    intro hd xs hq
    refine ⟨isQueue_frame hq (fun p _ => a2 p), isQueue_frame hq (fun p _ => b2 p), ?_⟩
    intro he
    constructor
    · exact List.map_congr_left (fun p hp => a3 p (fun e => he (e ▸ hp)))
    · exact List.map_congr_left (fun p hp => b3 p (fun e => he (e ▸ hp)))
  · intro ht
    have hnz : head ≠ 0 ∧ ele ≠ 0 ∧ buf ≠ 0 := by
      by_contra hc
      have hf : head = 0 ∨ ele = 0 ∨ buf = 0 := by tauto
      rw [(q_insert_head_fail h head s ele buf hf).1] at ht
      exact Bool.false_ne_true ht
    refine ⟨hnz, ?_⟩
    intro xs hq he
    obtain ⟨h', e, hq', ht', -⟩ := q_insert_head_spec hq s he hnz.2.1 hnz.2.2
    rw [e]
    exact ⟨hq', ht'⟩
  · intro ht
    have hnz : head ≠ 0 ∧ ele ≠ 0 ∧ buf ≠ 0 := by
      by_contra hc
      have hf : head = 0 ∨ ele = 0 ∨ buf = 0 := by tauto
      rw [(q_insert_tail_fail h head s ele buf hf).1] at ht
      exact Bool.false_ne_true ht
    refine ⟨hnz, ?_⟩
    intro xs hq he
    obtain ⟨h', e, hq', ht', -⟩ := q_insert_tail_spec hq s he hnz.2.1 hnz.2.2
    rw [e]
    exact ⟨hq', ht'⟩

theorem q_insert_atomic_witness :
    ((q_insert_head (ring_heap 4 texts_cbba) 1 [104, 105] 20 0).2 = false ∧
      (q_insert_tail (ring_heap 4 texts_cbba) 1 [104, 105] 20 0).2 = false ∧
      ∀ hd xs, IsQueue (ring_heap 4 texts_cbba) hd xs →
        IsQueue (q_insert_head (ring_heap 4 texts_cbba) 1 [104, 105] 20 0).1 hd xs ∧
        IsQueue (q_insert_tail (ring_heap 4 texts_cbba) 1 [104, 105] 20 0).1 hd xs ∧
        ((20 : Ptr) ∉ xs →
          xs.map (text (q_insert_head (ring_heap 4 texts_cbba) 1 [104, 105] 20 0).1) =
            xs.map (text (ring_heap 4 texts_cbba)) ∧
          xs.map (text (q_insert_tail (ring_heap 4 texts_cbba) 1 [104, 105] 20 0).1) =
            xs.map (text (ring_heap 4 texts_cbba)))) ∧
    (((1 : Ptr) ≠ 0 ∧ (20 : Ptr) ≠ 0 ∧ (30 : Ptr) ≠ 0) ∧
      ∀ xs, IsQueue (ring_heap 4 texts_cbba) 1 xs → (20 : Ptr) ∉ (1 : Ptr) :: xs →
        IsQueue (q_insert_head (ring_heap 4 texts_cbba) 1 [104, 105] 20 30).1 1 (20 :: xs) ∧
        text (q_insert_head (ring_heap 4 texts_cbba) 1 [104, 105] 20 30).1 20 = [104, 105]) ∧
    (((1 : Ptr) ≠ 0 ∧ (20 : Ptr) ≠ 0 ∧ (30 : Ptr) ≠ 0) ∧
      ∀ xs, IsQueue (ring_heap 4 texts_cbba) 1 xs → (20 : Ptr) ∉ (1 : Ptr) :: xs →
        IsQueue (q_insert_tail (ring_heap 4 texts_cbba) 1 [104, 105] 20 30).1 1 (xs ++ [20]) ∧
        text (q_insert_tail (ring_heap 4 texts_cbba) 1 [104, 105] 20 30).1 20 = [104, 105]) :=
  ⟨(q_insert_atomic (ring_heap 4 texts_cbba) 1 [104, 105] 20 0).1 (Or.inr (Or.inr rfl)),
    (q_insert_atomic (ring_heap 4 texts_cbba) 1 [104, 105] 20 30).2.1 (by decide),
    (q_insert_atomic (ring_heap 4 texts_cbba) 1 [104, 105] 20 30).2.2 (by decide)⟩

/-- Claim C15.  With a null queue reference, in any heap, `q_insert_head` and
`q_insert_tail` return false, `q_remove_head` and `q_remove_tail` return null,
`q_size` returns 0, `q_delete_mid` and `q_delete_dup` return false, and
`q_free`, `q_swap`, `q_reverse` and `q_sort` return at once; the heap and the
caller's buffer are untouched.  On an empty queue the removals return null,
`q_size` returns 0, `q_delete_mid` returns false, `q_delete_dup` returns true,
`q_swap`, `q_reverse` and `q_sort` return at once; the heap and the buffer are
untouched, so the queue is still empty and well formed.  No loop is entered: any
amount of fuel gives the result. -/
theorem absent_empty_neutral (h : Heap) (head sp ele b tmp stk : Ptr) (s : Text)
    (bufsize : Nat) (buf : Nat → Nat) (fuel : Nat) :
    (q_insert_head h 0 s ele b = (h, false) ∧ q_insert_tail h 0 s ele b = (h, false) ∧
      q_remove_head h 0 sp bufsize buf = (h, 0, buf) ∧
      q_remove_tail h 0 sp bufsize buf = (h, 0, buf) ∧
      q_size fuel h 0 = some 0 ∧ q_delete_mid fuel h 0 = some (h, false) ∧
      q_delete_dup fuel h 0 tmp = some (h, false) ∧ q_free fuel h 0 = some h ∧
      q_swap fuel h 0 = some h ∧ q_reverse fuel h 0 = some h ∧
      q_sort fuel h 0 stk = some h) ∧
    (IsQueue h head [] →
      q_remove_head h head sp bufsize buf = (h, 0, buf) ∧
      q_remove_tail h head sp bufsize buf = (h, 0, buf) ∧
      q_size fuel h head = some 0 ∧ q_delete_mid fuel h head = some (h, false) ∧
      q_delete_dup fuel h head tmp = some (h, true) ∧ q_swap fuel h head = some h ∧
      q_reverse fuel h head = some h ∧ q_sort fuel h head stk = some h ∧
      IsQueue h head [] ∧ WellFormed h head 0) := by
  refine ⟨⟨?_, ?_, ?_, ?_, ?_, ?_, ?_, ?_, ?_, ?_, ?_⟩, ?_⟩
  · simp [q_insert_head]
  · simp [q_insert_tail]
  · simp [q_remove_head]
  · simp [q_remove_tail]
  · simp [q_size]
  · simp [q_delete_mid]
  · simp [q_delete_dup]
  · simp [q_free]
  · simp [q_swap]
  · simp [q_reverse]
  · simp [q_sort]
  · intro hq
    have he : list_empty h head := (isQueue_list_empty hq).2 rfl
    have hh0 := isQueue_head_ne_zero hq
    refine ⟨?_, ?_, ?_, ?_, ?_, ?_, ?_, ?_, hq, wellFormed_of_isQueue hq rfl⟩
    · simp [q_remove_head, he]
    · simp [q_remove_tail, he]
    · simp [q_size, he]
    · simp [q_delete_mid, he]
    · simp [q_delete_dup, he, hh0]
    · simp [q_swap, he]
    · simp [q_reverse, he]
    · simp [q_sort, he]

theorem absent_empty_neutral_witness :
    (q_insert_head (ring_heap 4 texts_cbba) 0 [104, 105] 20 30 =
        (ring_heap 4 texts_cbba, false) ∧
      q_insert_tail (ring_heap 4 texts_cbba) 0 [104, 105] 20 30 =
        (ring_heap 4 texts_cbba, false) ∧
      q_remove_head (ring_heap 4 texts_cbba) 0 40 8 (fun _ => 7) =
        (ring_heap 4 texts_cbba, 0, fun _ => 7) ∧
      q_remove_tail (ring_heap 4 texts_cbba) 0 40 8 (fun _ => 7) =
        (ring_heap 4 texts_cbba, 0, fun _ => 7) ∧
      q_size 0 (ring_heap 4 texts_cbba) 0 = some 0 ∧
      q_delete_mid 0 (ring_heap 4 texts_cbba) 0 = some (ring_heap 4 texts_cbba, false) ∧
      q_delete_dup 0 (ring_heap 4 texts_cbba) 0 10 = some (ring_heap 4 texts_cbba, false) ∧
      q_free 0 (ring_heap 4 texts_cbba) 0 = some (ring_heap 4 texts_cbba) ∧
      q_swap 0 (ring_heap 4 texts_cbba) 0 = some (ring_heap 4 texts_cbba) ∧
      q_reverse 0 (ring_heap 4 texts_cbba) 0 = some (ring_heap 4 texts_cbba) ∧
      q_sort 0 (ring_heap 4 texts_cbba) 0 50 = some (ring_heap 4 texts_cbba)) ∧
    IsQueue (ring_heap 0 texts_abc) 1 [] ∧
    (q_remove_head (ring_heap 0 texts_abc) 1 40 8 (fun _ => 7) =
        (ring_heap 0 texts_abc, 0, fun _ => 7) ∧
      q_remove_tail (ring_heap 0 texts_abc) 1 40 8 (fun _ => 7) =
        (ring_heap 0 texts_abc, 0, fun _ => 7) ∧
      q_size 0 (ring_heap 0 texts_abc) 1 = some 0 ∧
      q_delete_mid 0 (ring_heap 0 texts_abc) 1 = some (ring_heap 0 texts_abc, false) ∧
      q_delete_dup 0 (ring_heap 0 texts_abc) 1 10 = some (ring_heap 0 texts_abc, true) ∧
      q_swap 0 (ring_heap 0 texts_abc) 1 = some (ring_heap 0 texts_abc) ∧
      q_reverse 0 (ring_heap 0 texts_abc) 1 = some (ring_heap 0 texts_abc) ∧
      q_sort 0 (ring_heap 0 texts_abc) 1 50 = some (ring_heap 0 texts_abc) ∧
      IsQueue (ring_heap 0 texts_abc) 1 [] ∧ WellFormed (ring_heap 0 texts_abc) 1 0) :=
  ⟨(absent_empty_neutral (ring_heap 4 texts_cbba) 1 40 20 30 10 50 [104, 105] 8 (fun _ => 7)
      0).1,
    by decide,
    (absent_empty_neutral (ring_heap 0 texts_abc) 1 40 20 30 10 50 [104, 105] 8 (fun _ => 7)
      0).2 (by decide)⟩

/-- Claim C16 as stated fails on a null queue reference: `q_delete_dup` returns
false there, not true, with any amount of fuel. -/
theorem q_delete_dup_absent_false :
    (q_delete_dup 5 (ring_heap 4 texts_1223) 0 10).map (fun r => r.2) = some false ∧
      ∀ fuel h' , q_delete_dup fuel (ring_heap 4 texts_1223) 0 10 ≠ some (h', true) := by
  refine ⟨by decide, ?_⟩
  intro fuel h' e
  simp [q_delete_dup] at e

/-- Claim C16, amended.  On a null queue reference, in any heap, `q_delete_dup`
returns false and leaves the heap as it is; on a queue of 0 or 1 elements it
returns true and leaves the heap as it is.  No loop is entered, so any amount of
fuel gives the result. -/
theorem q_delete_dup_trivial (h : Heap) (head tmp : Ptr) (fuel : Nat) :
    q_delete_dup fuel h 0 tmp = some (h, false) ∧
      ∀ xs, IsQueue h head xs → xs.length ≤ 1 →
        q_delete_dup fuel h head tmp = some (h, true) := by
  refine ⟨by simp [q_delete_dup], ?_⟩
  intro xs hq hl
  have hh0 := isQueue_head_ne_zero hq
  have : list_empty h head ∨ list_is_singular h head := by
    rcases Nat.lt_or_ge xs.length 1 with h1 | h1
    · left
      rw [isQueue_list_empty hq]
      exact List.length_eq_zero.1 (by omega)
    · right
      rw [isQueue_list_is_singular hq]
      omega
  simp [q_delete_dup, hh0, this]

theorem q_delete_dup_trivial_witness :
    q_delete_dup 0 (ring_heap 4 texts_1223) 0 10 = some (ring_heap 4 texts_1223, false) ∧
      IsQueue (ring_heap 1 texts_abc) 1 [2] ∧ ([2] : List Ptr).length ≤ 1 ∧
      q_delete_dup 0 (ring_heap 1 texts_abc) 1 10 = some (ring_heap 1 texts_abc, true) ∧
      IsQueue (ring_heap 0 texts_abc) 1 [] ∧ ([] : List Ptr).length ≤ 1 ∧
      q_delete_dup 0 (ring_heap 0 texts_abc) 1 10 = some (ring_heap 0 texts_abc, true) :=
  ⟨(q_delete_dup_trivial (ring_heap 4 texts_1223) 1 10 0).1, by decide, by decide,
    (q_delete_dup_trivial (ring_heap 1 texts_abc) 1 10 0).2 [2] (by decide) (by decide),
    by decide, by decide,
    (q_delete_dup_trivial (ring_heap 0 texts_abc) 1 10 0).2 [] (by decide) (by decide)⟩

/-! ### Sorting a sorted queue -/

theorem mergeL_of_le (t : Ptr → Text) : ∀ l1 l2 : List Ptr,
    (∀ a ∈ l1, ∀ b ∈ l2, tle t a b) → mergeL t l1 l2 = l1 ++ l2
  | [], l2, _ => by simp [mergeL]
  | a :: l1, [], _ => by simp [mergeL]
  | a :: l1, b :: l2, hle => by
    have hab : strcmp (t a) (t b) ≤ 0 := hle a (by simp) b (by simp)
    have ih := mergeL_of_le t l1 (b :: l2)
      (fun x hx y hy => hle x (List.mem_cons_of_mem _ hx) y hy)
    simp [mergeL, hab, ih]

theorem msortL_of_sorted (t : Ptr → Text) : ∀ (n : Nat) (l : List Ptr), l.length ≤ n →
    l.Pairwise (tle t) → msortL t l = l
  | 0, l, hn, _ => msortL_small t (by omega)
  | n + 1, l, hn, hs => by
    by_cases h2 : l.length < 2
    · exact msortL_small t h2
    · rw [msortL_big t h2]
      have hs' := hs
      rw [← List.take_append_drop (l.length / 2) l, List.pairwise_append] at hs'
      obtain ⟨s1, s2, s3⟩ := hs'
      rw [msortL_of_sorted t n (l.take (l.length / 2)) (by rw [List.length_take]; omega) s1,
        msortL_of_sorted t n (l.drop (l.length / 2)) (by rw [List.length_drop]; omega) s2,
        mergeL_of_le t _ _ s3, List.take_append_drop]

/-- Claim C20.  On a queue whose texts are already in ascending order `q_sort`
leaves the element sequence exactly as it was, elements of equal text
included.  Hence on any queue a second `q_sort` leaves the sequence the first
one produced. -/
theorem q_sort_idempotent (h : Heap) (head sp : Ptr) (xs : List Ptr) (fuel : Nat)
    (hq : IsQueue h head xs) (hsp : ∀ p ∈ head :: xs, p < sp) (hf : xs.length < fuel) :
    (SortedTexts (xs.map (text h)) →
      ∃ h', q_sort fuel h head sp = some h' ∧ IsQueue h' head xs ∧
        q_elems h' head xs.length = q_elems h head xs.length) ∧
    ∃ h1 h2, q_sort fuel h head sp = some h1 ∧ q_sort fuel h1 head sp = some h2 ∧
      (∃ ys, IsQueue h1 head ys ∧ IsQueue h2 head ys) ∧
      q_elems h2 head xs.length = q_elems h1 head xs.length := by
  obtain ⟨h1, e1, hq1, -, hsd1, -⟩ := q_sort_spec hq hsp hf
  have hsort : (msortL (text h) xs).Pairwise (tle (text h)) := msortL_sorted _ _ _ (le_refl _)
  constructor
  · intro hs
    have hid := msortL_of_sorted (text h) _ xs (le_refl _) (pairwise_of_sortedTexts _ _ hs)
    rw [hid] at hq1
    exact ⟨h1, e1, hq1, by rw [isQueue_q_elems hq1, isQueue_q_elems hq]⟩
  · have hsp1 : ∀ p ∈ head :: msortL (text h) xs, p < sp := by
      intro p hp
      refine hsp p ?_
      rcases List.mem_cons.1 hp with a | a
      · exact a ▸ List.mem_cons_self _ _
      · exact List.mem_cons_of_mem _ ((mem_msortL _ _ _).1 a)
    obtain ⟨h2, e2, hq2, -⟩ := q_sort_spec hq1 hsp1
      (show (msortL (text h) xs).length < fuel by rw [length_msortL]; exact hf)
    rw [sameData_text hsd1, msortL_of_sorted (text h) _ _ (le_refl _) hsort] at hq2
    refine ⟨h1, h2, e1, e2, ⟨_, hq1, hq2⟩, ?_⟩
    have hl := length_msortL (text h) xs
    rw [← hl, isQueue_q_elems hq1, isQueue_q_elems hq2]

theorem q_sort_idempotent_witness :
    IsQueue (ring_heap 4 texts_1223) 1 [2, 3, 4, 5] ∧
    (∀ p ∈ (1 : Ptr) :: [2, 3, 4, 5], p < 10) ∧ ([2, 3, 4, 5] : List Ptr).length < 5 ∧
    SortedTexts (([2, 3, 4, 5] : List Ptr).map (text (ring_heap 4 texts_1223))) ∧
    (∃ h', q_sort 5 (ring_heap 4 texts_1223) 1 10 = some h' ∧ IsQueue h' 1 [2, 3, 4, 5] ∧
      q_elems h' 1 ([2, 3, 4, 5] : List Ptr).length =
        q_elems (ring_heap 4 texts_1223) 1 ([2, 3, 4, 5] : List Ptr).length) ∧
    ∃ h1 h2, q_sort 5 (ring_heap 4 texts_1223) 1 10 = some h1 ∧ q_sort 5 h1 1 10 = some h2 ∧
      (∃ ys, IsQueue h1 1 ys ∧ IsQueue h2 1 ys) ∧
      q_elems h2 1 ([2, 3, 4, 5] : List Ptr).length =
        q_elems h1 1 ([2, 3, 4, 5] : List Ptr).length :=
  ⟨by decide, by decide, by decide, by decide,
    (q_sort_idempotent (ring_heap 4 texts_1223) 1 10 [2, 3, 4, 5] 5 (by decide) (by decide)
      (by decide)).1 (by decide),
    (q_sort_idempotent (ring_heap 4 texts_1223) 1 10 [2, 3, 4, 5] 5 (by decide) (by decide)
      (by decide)).2⟩

/-! ### The split of the merge sort -/

/-- Claim C17.  In `list_merge_sort` on a list of `n ≥ 2` elements the
slow/fast scan (run after the two local list heads are initialised) stops with
`*indir` the element of index `n / 2`, where the scan of `q_delete_mid` stops
too; `list_cut_position` leaves the first `n / 2` elements, in order, in `left`
and the other `(n + 1) / 2`, in order, in `entry`; both lengths are at least 1
and below `n`.  With fuel above the length the function returns, for every
queue, with the queue sorted. -/
theorem merge_sort_split (h : Heap) (entry sp : Ptr) (xs : List Ptr) (fuel : Nat)
    (hq : IsQueue h entry xs) (hsp : ∀ p ∈ entry :: xs, p < sp) (hf : xs.length < fuel) :
    (2 ≤ xs.length →
      ∃ indir,
        find_mid (INIT_LIST_HEAD (INIT_LIST_HEAD h sp) (sp + 1)) entry fuel entry
          ((INIT_LIST_HEAD (INIT_LIST_HEAD h sp) (sp + 1)).next entry) = some indir ∧
        find_mid h entry fuel entry (h.next entry) = some indir ∧
        (INIT_LIST_HEAD (INIT_LIST_HEAD h sp) (sp + 1)).next indir =
          xs.getD (xs.length / 2) 0 ∧
        h.next indir = xs.getD (xs.length / 2) 0 ∧
        IsQueue (list_cut_position (INIT_LIST_HEAD (INIT_LIST_HEAD h sp) (sp + 1)) sp entry
          ((INIT_LIST_HEAD (INIT_LIST_HEAD h sp) (sp + 1)).prev
            ((INIT_LIST_HEAD (INIT_LIST_HEAD h sp) (sp + 1)).next indir)))
          sp (xs.take (xs.length / 2)) ∧
        IsQueue (list_cut_position (INIT_LIST_HEAD (INIT_LIST_HEAD h sp) (sp + 1)) sp entry
          ((INIT_LIST_HEAD (INIT_LIST_HEAD h sp) (sp + 1)).prev
            ((INIT_LIST_HEAD (INIT_LIST_HEAD h sp) (sp + 1)).next indir)))
          entry (xs.drop (xs.length / 2)) ∧
        (xs.take (xs.length / 2)).length = xs.length / 2 ∧
        (xs.drop (xs.length / 2)).length = (xs.length + 1) / 2 ∧
        0 < xs.length / 2 ∧ xs.length / 2 < xs.length ∧
        0 < (xs.length + 1) / 2 ∧ (xs.length + 1) / 2 < xs.length) ∧
    ∃ h', list_merge_sort fuel h entry sp = some h' ∧ IsQueue h' entry (msortL (text h) xs) := by
  constructor
  · intro hn
    have hm1 : 1 ≤ xs.length / 2 := by omega
    have hm2 : xs.length / 2 < xs.length := by omega
    have hsp0 : sp ≠ 0 := by
      have := hsp entry (by simp); unfold Ptr at *; omega
    have hspn : sp ∉ entry :: xs := fun hx => by
      have := hsp sp hx; unfold Ptr at *; omega
    have hspn1 : sp + 1 ∉ entry :: xs := fun hx => by
      have := hsp _ hx; unfold Ptr at *; omega
    obtain ⟨h2, hh2⟩ : ∃ h2, h2 = INIT_LIST_HEAD (INIT_LIST_HEAD h sp) (sp + 1) := ⟨_, rfl⟩
    rw [← hh2]
    have hu2 : ∀ p, p ≠ sp → p ≠ sp + 1 → Unchanged h h2 p := by
      intro p h1 h2'
      rw [hh2]
      exact unchanged_trans (INIT_LIST_HEAD_unchanged h sp p h1)
        (INIT_LIST_HEAD_unchanged _ (sp + 1) p h2')
    have hq2 : IsQueue h2 entry xs :=
      isQueue_frame hq (fun p hp => hu2 p (fun e => hspn (e ▸ hp)) (fun e => hspn1 (e ▸ hp)))
    have hfind2 := find_mid_start hq2 (show xs.length / 2 < fuel by omega)
    have hfind := find_mid_start hq (show xs.length / 2 < fuel by omega)
    have hdel2 : h2.next ((entry :: xs ++ [entry]).getD (xs.length / 2) 0) =
        xs.getD (xs.length / 2) 0 := by
      rw [isQueue_next_getD hq2 _ (by omega), path_getD_succ _ _ _ hm2]
    have hdel : h.next ((entry :: xs ++ [entry]).getD (xs.length / 2) 0) =
        xs.getD (xs.length / 2) 0 := by
      rw [isQueue_next_getD hq _ (by omega), path_getD_succ _ _ _ hm2]
    have hnode : h2.prev (xs.getD (xs.length / 2) 0) = xs.getD (xs.length / 2 - 1) 0 := by
      rw [← path_getD_succ entry _ _ hm2, isQueue_prev_getD hq2 _ (by omega)]
      obtain ⟨k, hk⟩ : ∃ k, xs.length / 2 = k + 1 := ⟨xs.length / 2 - 1, by omega⟩
      rw [hk, path_getD_succ _ _ _ (by omega)]
      simp
    refine ⟨_, hfind2, hfind, hdel2, hdel, ?_⟩
    rw [hdel2, hnode]
    obtain ⟨htk, hxs⟩ := take_snoc_getD xs (xs.length / 2) hm1 (by omega)
    have hto : sp ∉ entry :: (xs.take (xs.length / 2 - 1) ++
        xs.getD (xs.length / 2 - 1) 0 :: xs.drop (xs.length / 2)) := by
      rw [← hxs]; exact hspn
    have hq2' := hq2
    rw [hxs] at hq2'
    obtain ⟨c1, c2, -⟩ := list_cut_position_spec hq2' hto hsp0
    rw [htk] at c1
    refine ⟨c1, c2, ?_, ?_, ?_, ?_, ?_, ?_⟩
    · rw [List.length_take]; omega
    · rw [List.length_drop]; omega
    · omega
    · omega
    · omega
    · omega
  · obtain ⟨h', e, hq', -⟩ := list_merge_sort_spec fuel h entry sp xs hq hsp hf
    exact ⟨h', e, hq'⟩

theorem merge_sort_split_witness :
    IsQueue (ring_heap 5 texts_abc) 1 [2, 3, 4, 5, 6] ∧
    (∀ p ∈ (1 : Ptr) :: [2, 3, 4, 5, 6], p < 10) ∧ ([2, 3, 4, 5, 6] : List Ptr).length < 6 ∧
    2 ≤ ([2, 3, 4, 5, 6] : List Ptr).length ∧
    (∃ indir,
        find_mid (INIT_LIST_HEAD (INIT_LIST_HEAD (ring_heap 5 texts_abc) 10) (10 + 1)) 1 6 1
          ((INIT_LIST_HEAD (INIT_LIST_HEAD (ring_heap 5 texts_abc) 10) (10 + 1)).next 1) =
            some indir ∧
        find_mid (ring_heap 5 texts_abc) 1 6 1 ((ring_heap 5 texts_abc).next 1) = some indir ∧
        (INIT_LIST_HEAD (INIT_LIST_HEAD (ring_heap 5 texts_abc) 10) (10 + 1)).next indir =
          ([2, 3, 4, 5, 6] : List Ptr).getD (([2, 3, 4, 5, 6] : List Ptr).length / 2) 0 ∧
        (ring_heap 5 texts_abc).next indir =
          ([2, 3, 4, 5, 6] : List Ptr).getD (([2, 3, 4, 5, 6] : List Ptr).length / 2) 0 ∧
        IsQueue (list_cut_position
          (INIT_LIST_HEAD (INIT_LIST_HEAD (ring_heap 5 texts_abc) 10) (10 + 1)) 10 1
          ((INIT_LIST_HEAD (INIT_LIST_HEAD (ring_heap 5 texts_abc) 10) (10 + 1)).prev
            ((INIT_LIST_HEAD (INIT_LIST_HEAD (ring_heap 5 texts_abc) 10) (10 + 1)).next indir)))
          10 (([2, 3, 4, 5, 6] : List Ptr).take (([2, 3, 4, 5, 6] : List Ptr).length / 2)) ∧
        IsQueue (list_cut_position
          (INIT_LIST_HEAD (INIT_LIST_HEAD (ring_heap 5 texts_abc) 10) (10 + 1)) 10 1
          ((INIT_LIST_HEAD (INIT_LIST_HEAD (ring_heap 5 texts_abc) 10) (10 + 1)).prev
            ((INIT_LIST_HEAD (INIT_LIST_HEAD (ring_heap 5 texts_abc) 10) (10 + 1)).next indir)))
          1 (([2, 3, 4, 5, 6] : List Ptr).drop (([2, 3, 4, 5, 6] : List Ptr).length / 2)) ∧
        (([2, 3, 4, 5, 6] : List Ptr).take (([2, 3, 4, 5, 6] : List Ptr).length / 2)).length =
          ([2, 3, 4, 5, 6] : List Ptr).length / 2 ∧
        (([2, 3, 4, 5, 6] : List Ptr).drop (([2, 3, 4, 5, 6] : List Ptr).length / 2)).length =
          (([2, 3, 4, 5, 6] : List Ptr).length + 1) / 2 ∧
        0 < ([2, 3, 4, 5, 6] : List Ptr).length / 2 ∧
        ([2, 3, 4, 5, 6] : List Ptr).length / 2 < ([2, 3, 4, 5, 6] : List Ptr).length ∧
        0 < (([2, 3, 4, 5, 6] : List Ptr).length + 1) / 2 ∧
        (([2, 3, 4, 5, 6] : List Ptr).length + 1) / 2 < ([2, 3, 4, 5, 6] : List Ptr).length) ∧
    ∃ h', list_merge_sort 6 (ring_heap 5 texts_abc) 1 10 = some h' ∧
      IsQueue h' 1 (msortL (text (ring_heap 5 texts_abc)) [2, 3, 4, 5, 6]) :=
  ⟨by decide, by decide, by decide, by decide,
    (merge_sort_split (ring_heap 5 texts_abc) 1 10 [2, 3, 4, 5, 6] 6 (by decide) (by decide)
      (by decide)).1 (by decide),
    (merge_sort_split (ring_heap 5 texts_abc) 1 10 [2, 3, 4, 5, 6] 6 (by decide) (by decide)
      (by decide)).2⟩

/-- Queue [a, b, c, d, e]: the scan of `list_merge_sort` stops with `*indir` the
element "c" (index 2); the cut leaves [a, b] in `left` and [c, d, e] in the
queue. -/
theorem merge_sort_split_example :
    find_mid (INIT_LIST_HEAD (INIT_LIST_HEAD (ring_heap 5 texts_abc) 10) 11) 1 6 1 2 = some 3 ∧
    q_elems (list_cut_position (INIT_LIST_HEAD (INIT_LIST_HEAD (ring_heap 5 texts_abc) 10) 11)
      10 1 3) 10 2 = [2, 3] ∧
    q_elems (list_cut_position (INIT_LIST_HEAD (INIT_LIST_HEAD (ring_heap 5 texts_abc) 10) 11)
      10 1 3) 1 3 = [4, 5, 6] := by
  decide

/-! ### Sorting, then deleting duplicates -/

theorem strictTexts_of_pairwise : ∀ l : List Text,
    l.Pairwise (fun a b => strcmp a b < 0) → StrictTexts l
  | [], _ => trivial
  | [_], _ => trivial
  | a :: b :: l, h => by
    have h1 := List.pairwise_cons.1 h
    exact ⟨h1.1 b (by simp), strictTexts_of_pairwise (b :: l) h1.2⟩

theorem two_le_length_of_mem {l : List Ptr} {a b : Ptr} (ha : a ∈ l) (hb : b ∈ l)
    (hab : a ≠ b) : 2 ≤ l.length := by
  rcases l with _ | ⟨x, _ | ⟨y, l⟩⟩
  · simp at ha
  · simp at ha hb
    exact absurd (ha.trans hb.symm) hab
  · simp

theorem two_le_count_of_mem (t : Ptr → Text) {xs : List Ptr} {p q : Ptr} (hp : p ∈ xs)
    (hq : q ∈ xs) (hpq : p ≠ q) (ht : t p = t q) : 2 ≤ (xs.map t).count (t p) := by
  rw [List.count_eq_countP, List.countP_map, List.countP_eq_length_filter]
  refine two_le_length_of_mem (List.mem_filter.2 ⟨hp, ?_⟩) (List.mem_filter.2 ⟨hq, ?_⟩) hpq
  · simp
  · simp [ht]

/-- Claim C18.  On any queue, `q_sort` followed by `q_delete_dup` (both return,
the second with true) leaves a queue whose texts are strictly increasing and are
exactly the texts that occur exactly once in the original queue; no two of its
elements have the same text, and its elements are elements of the original
queue. -/
theorem sort_then_dedup (h : Heap) (head sp tmp : Ptr) (xs : List Ptr) (fuel : Nat)
    (hq : IsQueue h head xs) (hsp : ∀ p ∈ head :: xs, p < sp) (htmp : tmp ∉ head :: xs)
    (htmp0 : tmp ≠ 0) (hf : xs.length < fuel) :
    ∃ h1 h2 ys, q_sort fuel h head sp = some h1 ∧
      q_delete_dup fuel h1 head tmp = some (h2, true) ∧ IsQueue h2 head ys ∧
      StrictTexts (ys.map (text h2)) ∧
      (∀ s, s ∈ ys.map (text h2) ↔ (xs.map (text h)).count s = 1) ∧
      (ys.map (text h2)).Nodup ∧ (∀ p ∈ ys, p ∈ xs ∧ text h2 p = text h p) := by
  obtain ⟨h1, e1, hq1, -, hsd1, -⟩ := q_sort_spec hq hsp hf
  have htmp1 : tmp ∉ head :: msortL (text h) xs := by
    intro hx
    refine htmp ?_
    rcases List.mem_cons.1 hx with a | a
    · exact a ▸ List.mem_cons_self _ _
    · exact List.mem_cons_of_mem _ ((mem_msortL _ _ _).1 a)
  obtain ⟨h2, e2, hq2, -, hsd2, -⟩ := q_delete_dup_spec hq1 htmp1 htmp0
    (show (msortL (text h) xs).length < fuel by rw [length_msortL]; exact hf)
  have ht2 : text h2 = text h := by rw [sameData_text hsd2, sameData_text hsd1]
  have hsort : (msortL (text h) xs).Pairwise (tle (text h)) := msortL_sorted _ _ _ (le_refl _)
  have hperm : (msortL (text h) xs).Perm xs := msortL_perm' _ _
  have hcount : ∀ s, ((msortL (text h) xs).map (text h)).count s = (xs.map (text h)).count s :=
    fun s => by
      rw [List.count_eq_countP, List.count_eq_countP]
      exact (hperm.map _).countP_eq _
  rw [sameData_text hsd1, dedupL_sorted _ _ hsort] at hq2
  simp only [hcount] at hq2
  have hnd : (msortL (text h) xs).Nodup := hperm.nodup_iff.2 (List.nodup_cons.1 hq.1).2
  have hpw : (msortL (text h) xs).Pairwise (fun p q => tle (text h) p q ∧ p ≠ q) :=
    hsort.and hnd
  have hmem : ∀ p, p ∈ (msortL (text h) xs).filter
      (fun p => decide ((xs.map (text h)).count (text h p) = 1)) ↔
      p ∈ xs ∧ (xs.map (text h)).count (text h p) = 1 := by
    intro p
    rw [List.mem_filter, mem_msortL]
    simp
  have hstrict : (((msortL (text h) xs).filter
      (fun p => decide ((xs.map (text h)).count (text h p) = 1))).map (text h)).Pairwise
      (fun a b => strcmp a b < 0) := by
    rw [List.pairwise_map]
    refine List.Pairwise.imp_of_mem ?_ (hpw.sublist (List.filter_sublist _))
    intro p q hp hq' hr
    obtain ⟨hpx, hpc⟩ := (hmem p).1 hp
    obtain ⟨hqx, -⟩ := (hmem q).1 hq'
    have hle : strcmp (text h p) (text h q) ≤ 0 := hr.1
    rcases lt_or_eq_of_le hle with a | a
    · exact a
    · exfalso
      have hte : text h p = text h q := (strcmp_eq_zero_iff _ _).1 a
      have := two_le_count_of_mem (text h) hpx hqx hr.2 hte
      omega
  refine ⟨h1, h2, _, e1, e2, hq2, ?_, ?_, ?_, ?_⟩
  · rw [ht2]
    exact strictTexts_of_pairwise _ hstrict
  · intro s
    rw [ht2, List.mem_map]
    constructor
    · rintro ⟨p, hp, rfl⟩
      exact ((hmem p).1 hp).2
    · intro hs
      have hin : s ∈ xs.map (text h) := List.count_pos_iff.1 (by omega)
      obtain ⟨p, hp, rfl⟩ := List.mem_map.1 hin
      exact ⟨p, (hmem p).2 ⟨hp, hs⟩, rfl⟩
  · rw [ht2]
    refine hstrict.imp ?_
    intro a b hab e
    rw [e, strcmp_self] at hab
    exact lt_irrefl _ hab
  · intro p hp
    exact ⟨((hmem p).1 hp).1, by rw [ht2]⟩

theorem sort_then_dedup_witness :
    IsQueue (ring_heap 4 texts_cbba) 1 [2, 3, 4, 5] ∧
    (∀ p ∈ (1 : Ptr) :: [2, 3, 4, 5], p < 10) ∧ (9 : Ptr) ∉ (1 : Ptr) :: [2, 3, 4, 5] ∧
    (9 : Ptr) ≠ 0 ∧ ([2, 3, 4, 5] : List Ptr).length < 5 ∧
    ∃ h1 h2 ys, q_sort 5 (ring_heap 4 texts_cbba) 1 10 = some h1 ∧
      q_delete_dup 5 h1 1 9 = some (h2, true) ∧ IsQueue h2 1 ys ∧
      StrictTexts (ys.map (text h2)) ∧
      (∀ s, s ∈ ys.map (text h2) ↔
        (([2, 3, 4, 5] : List Ptr).map (text (ring_heap 4 texts_cbba))).count s = 1) ∧
      (ys.map (text h2)).Nodup ∧
      (∀ p ∈ ys, p ∈ ([2, 3, 4, 5] : List Ptr) ∧ text h2 p = text (ring_heap 4 texts_cbba) p) :=
  ⟨by decide, by decide, by decide, by decide, by decide,
    sort_then_dedup (ring_heap 4 texts_cbba) 1 10 9 [2, 3, 4, 5] 5 (by decide) (by decide)
      (by decide) (by decide) (by decide)⟩

/-! ### The scan of `q_delete_dup` without its precondition -/

/-- One more unit of fuel runs one iteration of the loop body. -/
theorem delete_dup_loop_body (head tmp : Ptr) (fuel : Nat) (h : Heap) (cur : Ptr) :
    delete_dup_loop head tmp (fuel + 1) h cur =
      if cur = head then some h
      else delete_dup_loop head tmp fuel (delete_dup_body head tmp h cur).1
        (delete_dup_body head tmp h cur).2 := by
  rw [delete_dup_loop_succ]
  unfold delete_dup_body
  split_ifs <;> rfl

/-- One iteration of the loop of `q_delete_dup`, the main list being
`done ++ c :: rest` with the cursor at `c` and the list `tmp` holding `ts`:
either the node after the cursor goes to `tmp` (cursor kept), or the node at the
cursor goes to `tmp` and the cursor moves on, or the heap is untouched and the
cursor moves on. -/
theorem delete_dup_body_step {hc : Heap} {head tmp c : Ptr} {done rest ts : List Ptr}
    (hq : IsQueue hc head (done ++ c :: rest)) (hs : IsQueue hc tmp ts)
    (hnd : ((head :: (done ++ c :: rest)) ++ (tmp :: ts)).Nodup) :
    (∃ n rest', rest = n :: rest' ∧ (delete_dup_body head tmp hc c).2 = c ∧
      IsQueue (delete_dup_body head tmp hc c).1 head (done ++ c :: rest') ∧
      IsQueue (delete_dup_body head tmp hc c).1 tmp (ts ++ [n])) ∨
    ((delete_dup_body head tmp hc c).2 = (rest ++ [head]).head (by simp) ∧
      IsQueue (delete_dup_body head tmp hc c).1 head (done ++ rest) ∧
      IsQueue (delete_dup_body head tmp hc c).1 tmp (ts ++ [c])) ∨
    ((delete_dup_body head tmp hc c).2 = (rest ++ [head]).head (by simp) ∧
      (delete_dup_body head tmp hc c).1 = hc) := by
  have hnext := isQueue_next_mid hq
  have hd : ∀ p ∈ head :: (done ++ c :: rest), p ∉ tmp :: ts := by
    intro p hp hp2
    exact (List.nodup_append.1 hnd).2.2 hp hp2
  unfold delete_dup_body
  by_cases h1 : hc.next c ≠ head ∧ strcmp (text hc c) (text hc (hc.next c)) = 0
  · rw [if_pos h1]
    left
    rcases rest with _ | ⟨n, rest'⟩
    · exact absurd (by simpa using hnext) h1.1
    · have hn : hc.next c = n := by simpa using hnext
      rw [hn]
      have hq' : IsQueue hc head ((done ++ [c]) ++ n :: rest') := by simpa using hq
      have hd' : ∀ p ∈ head :: ((done ++ [c]) ++ n :: rest'), p ∉ tmp :: ts := by
        intro p hp
        exact hd p (by simpa using hp)
      obtain ⟨a1, a2, -⟩ := list_move_tail_spec hq' hs hd'
      exact ⟨n, rest', rfl, rfl, by simpa using a1, a2⟩
  · rw [if_neg h1]
    right
    by_cases h2 : ¬ list_empty hc tmp ∧ strcmp (text hc (hc.prev tmp)) (text hc c) = 0
    · rw [if_pos h2]
      left
      obtain ⟨a1, a2, -⟩ := list_move_tail_spec hq hs hd
      exact ⟨hnext, a1, a2⟩
    · rw [if_neg h2]
      right
      exact ⟨hnext, rfl⟩

/-- Claim C19.  On any queue, sorted or not, `q_delete_dup` returns true (fuel
above the length is enough) and the elements left are a subsequence of the
original sequence, each with its text.  When the loop is left, the main list and
the list `tmp` share no node and together hold exactly the original elements.
Every iteration of the loop is one application of the loop body, and from a
state with main list `done ++ c :: rest`, cursor `c` and `tmp` holding `ts` the
body either moves one node of the main list to `tmp` (the node after the cursor,
the cursor staying, or the node at the cursor, the cursor moving on) or leaves
the heap as it is and moves the cursor to the next node. -/
theorem q_delete_dup_robust (h : Heap) (head tmp : Ptr) (xs : List Ptr) (fuel : Nat)
    (hq : IsQueue h head xs) (htmp : tmp ∉ head :: xs) (htmp0 : tmp ≠ 0)
    (hf : xs.length < fuel) :
    (∃ h' ys, q_delete_dup fuel h head tmp = some (h', true) ∧ IsQueue h' head ys ∧
      ys.Sublist xs ∧ ∀ p ∈ ys, text h' p = text h p) ∧
    (2 ≤ xs.length →
      ∃ hl ys ts, delete_dup_loop head tmp fuel (INIT_LIST_HEAD h tmp) (h.next head) = some hl ∧
        IsQueue hl head ys ∧ IsQueue hl tmp ts ∧ (ys ++ ts).Perm xs ∧
        (∀ p ∈ ys, p ∉ ts) ∧ ys.Sublist xs) ∧
    (∀ (hc : Heap) (cur : Ptr) (f : Nat),
      delete_dup_loop head tmp (f + 1) hc cur =
        if cur = head then some hc
        else delete_dup_loop head tmp f (delete_dup_body head tmp hc cur).1
          (delete_dup_body head tmp hc cur).2) ∧
    (∀ (hc : Heap) (c : Ptr) (done rest ts : List Ptr),
      IsQueue hc head (done ++ c :: rest) → IsQueue hc tmp ts →
      ((head :: (done ++ c :: rest)) ++ (tmp :: ts)).Nodup →
      (∃ n rest', rest = n :: rest' ∧ (delete_dup_body head tmp hc c).2 = c ∧
        IsQueue (delete_dup_body head tmp hc c).1 head (done ++ c :: rest') ∧
        IsQueue (delete_dup_body head tmp hc c).1 tmp (ts ++ [n])) ∨
      ((delete_dup_body head tmp hc c).2 = (rest ++ [head]).head (by simp) ∧
        IsQueue (delete_dup_body head tmp hc c).1 head (done ++ rest) ∧
        IsQueue (delete_dup_body head tmp hc c).1 tmp (ts ++ [c])) ∨
      ((delete_dup_body head tmp hc c).2 = (rest ++ [head]).head (by simp) ∧
        (delete_dup_body head tmp hc c).1 = hc)) := by
  refine ⟨?_, ?_, fun hc cur f => delete_dup_loop_body head tmp f hc cur,
    fun hc c done rest ts a b d => delete_dup_body_step a b d⟩
  · obtain ⟨h', e, hq', -, hsd, -⟩ := q_delete_dup_spec hq htmp htmp0 hf
    exact ⟨h', _, e, hq', dedupL_sublist _ _, fun p _ => by rw [sameData_text hsd]⟩
  · intro h2
    obtain ⟨c, rest, rfl⟩ : ∃ c rest, xs = c :: rest := by
      rcases xs with _ | ⟨c, rest⟩
      · simp at h2
      · exact ⟨c, rest, rfl⟩
    rw [isQueue_next_head hq]
    have hq1 : IsQueue (INIT_LIST_HEAD h tmp) head ([] ++ c :: rest) :=
      isQueue_frame hq (fun p hp => INIT_LIST_HEAD_unchanged _ _ _ (fun e => htmp (e ▸ hp)))
    have hs1 : IsQueue (INIT_LIST_HEAD h tmp) tmp [] := INIT_LIST_HEAD_spec _ htmp0
    have hnd : ((head :: ([] ++ c :: rest)) ++ [tmp]).Nodup := by
      rw [List.nodup_append]
      refine ⟨hq.1, List.nodup_singleton _, ?_⟩
      intro p hp hx
      have : p = tmp := by simpa using hx
      exact htmp (this ▸ hp)
    obtain ⟨h2, ts, b1, b2, b3, b4, -⟩ := delete_dup_loop_spec head tmp
      (text (INIT_LIST_HEAD h tmp)) rest [] c [] _ fuel hq1 hs1 hnd rfl (by simp at hf ⊢; omega)
    simp only [List.nil_append, List.getLast?_nil, List.append_nil] at b2 b4
    have hKnd : (dedup_from (text (INIT_LIST_HEAD h tmp)) none c rest ++ ts).Nodup :=
      b4.nodup_iff.2 (List.nodup_cons.1 hq.1).2
    refine ⟨h2, _, ts, b1, b2, b3, b4, ?_, ?_⟩
    · intro p hp hp2
      exact (List.nodup_append.1 hKnd).2.2 hp hp2
    · exact dedupL_sublist (text (INIT_LIST_HEAD h tmp)) (c :: rest)

theorem q_delete_dup_robust_witness :
    IsQueue (ring_heap 4 texts_cbba) 1 [2, 3, 4, 5] ∧ (10 : Ptr) ∉ (1 : Ptr) :: [2, 3, 4, 5] ∧
    (10 : Ptr) ≠ 0 ∧ ([2, 3, 4, 5] : List Ptr).length < 5 ∧
    ∃ h' ys, q_delete_dup 5 (ring_heap 4 texts_cbba) 1 10 = some (h', true) ∧ IsQueue h' 1 ys ∧
      ys.Sublist [2, 3, 4, 5] ∧ ∀ p ∈ ys, text h' p = text (ring_heap 4 texts_cbba) p :=
  ⟨by decide, by decide, by decide, by decide,
    (q_delete_dup_robust (ring_heap 4 texts_cbba) 1 10 [2, 3, 4, 5] 5 (by decide) (by decide)
      (by decide) (by decide)).1⟩

/-- The unsorted queue [c, b, b, a]: `q_delete_dup` returns true and leaves
[c, a]; the unsorted queue [b, a, b] built at the addresses 2, 3, 4 keeps its
three elements, the two "b" not being neighbours. -/
theorem q_delete_dup_unsorted_example :
    (q_delete_dup 5 (ring_heap 4 texts_cbba) 1 10).map (fun r => (q_elems r.1 1 2, r.2)) =
      some ([2, 5], true) ∧
    (q_delete_dup 4 (ring_heap 3 (fun p => if p = 3 then [97] else [98])) 1 10).map
      (fun r => (q_elems r.1 1 3, r.2)) = some ([2, 3, 4], true) := by
  decide

end Lab0
